import Mathlib

/-!
# clox: bytecode chunk and single-pass expression compiler

A shallow embedding of `chunk.c`, `memory.c` and `compiler.c`.

* C `int` counters are natural numbers (no run here comes near `INT_MAX`),
  source lines are integers, bytes are `Fin 256`.
* The globals `parser` and `compilingChunk`, the scanner position and the
  text written to `stderr` are the fields of one explicit `State`.
* `Value` is `double` in the source; the embedding is generic in the value
  type `V` and in `strtod : String → V`.
* The recursion of `parse_precedence` and its handlers is driven by a fuel
  counter; `compile` supplies an amount that is shown to suffice.
* The definitions named after the source follow a run on which every call
  finds room on the native stack and every `realloc` succeeds; they say what a
  completed run produces. The definitions ending in `_limited` are the same
  functions on a machine with a stack of finitely many frames and a finite
  heap, where the process can die of a stack overflow or of the `exit(1)` of
  `reallocate` before `compile` returns.
-/

-- Compiled code builds every updated structure afresh.
set_option compiler.reuse false

namespace Clox

/-! ## Bytes and opcodes -/

/-- A `uint8_t`. -/
abbrev Byte := Fin 256

/-- Modelled from the spec: `chunk.h` (the `OpCode` enum) is missing; these are
the instructions of section 6, in the order listed there. -/
inductive OpCode
  | OP_CONSTANT
  | OP_ADD
  | OP_SUBTRACT
  | OP_MULTIPLY
  | OP_DIVIDE
  | OP_NEGATE
  | OP_RETURN
  deriving DecidableEq, Repr

/-- Modelled from the spec: `chunk.h` is missing; the enumerators are numbered
from 0 in the order of section 6, as a C enum numbers them. -/
def OpCode.toByte : OpCode → Byte
  | .OP_CONSTANT => 0
  | .OP_ADD => 1
  | .OP_SUBTRACT => 2
  | .OP_MULTIPLY => 3
  | .OP_DIVIDE => 4
  | .OP_NEGATE => 5
  | .OP_RETURN => 6

/-! ## memory.h / memory.c -/

/-- Modelled from the spec: `memory.h` (the `GROW_CAPACITY` macro) is missing;
"grow capacity to 8 if currently below 8, else double it". -/
def GROW_CAPACITY (capacity : Nat) : Nat :=
  if capacity < 8 then 8 else capacity * 2

/-- `reallocate` of `memory.c`, on an array seen as the list of its cells
(sizes counted in cells): size 0 frees the block, otherwise the block has
`new_size` cells and keeps the old contents up to the smaller of the two sizes.
Cells that `realloc` leaves indeterminate hold `default`. This is the path on
which `realloc` succeeds; `reallocate_limited` below has the `exit(1)` of the
path on which it returns `NULL`. -/
def reallocate {α : Type} [Inhabited α] (pointer : List α) (_old_size new_size : Nat) :
    List α :=
  if new_size = 0 then []
  else pointer.take new_size ++ List.replicate (new_size - pointer.length) default

/-- Modelled from the spec: `memory.h` (the `GROW_ARRAY` macro) is missing;
"reallocate ... to the new capacity, preserving existing contents". -/
def GROW_ARRAY {α : Type} [Inhabited α] (pointer : List α) (old_count new_count : Nat) :
    List α :=
  reallocate pointer old_count new_count

/-! ## value.h -/

/-- The constant pool. `value.h` declares `capacity`, `count` and `values`;
`value.c`, which maintains them, is missing, so the pool is kept as the list of
its `count` values. -/
structure ValueArray (V : Type) where
  values : List V
  deriving DecidableEq, Repr

/-- The field `count` of a `ValueArray`. -/
def ValueArray.count {V : Type} (array : ValueArray V) : Nat :=
  array.values.length

/-- Modelled from the spec: `value.c` (`init_value_array`) is missing; the pool
starts empty. -/
def init_value_array {V : Type} : ValueArray V :=
  { values := [] }

/-- Modelled from the spec: `value.c` (`write_value_array`) is missing; the pool
is an "ordered, append-only sequence", and a write appends the value at its
end. -/
def write_value_array {V : Type} (array : ValueArray V) (value : V) : ValueArray V :=
  { values := array.values ++ [value] }

/-! ## chunk.c -/

/-- The `Chunk` struct as `chunk.c` uses it: `code` and `lines` are the two
heap arrays, each of `capacity` cells, of which the first `count` are in use. -/
structure Chunk (V : Type) where
  count : Nat
  capacity : Nat
  code : List Byte
  lines : List Int
  constants : ValueArray V
  deriving DecidableEq, Repr

/-- `init_chunk`. -/
def init_chunk {V : Type} : Chunk V :=
  { count := 0, capacity := 0, code := [], lines := [], constants := init_value_array }

/-- `write_chunk`. -/
def write_chunk {V : Type} (chunk : Chunk V) (byte : Byte) (line : Int) : Chunk V :=
  let chunk :=
    if chunk.capacity < chunk.count + 1 then
      let old_capacity := chunk.capacity
      let capacity := GROW_CAPACITY old_capacity
      { chunk with
        capacity := capacity
        code := GROW_ARRAY chunk.code old_capacity capacity
        lines := GROW_ARRAY chunk.lines old_capacity capacity }
    else chunk
  { chunk with
    code := chunk.code.set chunk.count byte
    lines := chunk.lines.set chunk.count line
    count := chunk.count + 1 }

/-- `add_constant`: the chunk after the call and the returned index. -/
def add_constant {V : Type} (chunk : Chunk V) (value : V) : Chunk V × Nat :=
  let chunk := { chunk with constants := write_value_array chunk.constants value }
  (chunk, chunk.constants.count - 1)

/-- The instruction stream: the cells of `code` in use. -/
def Chunk.stream {V : Type} (chunk : Chunk V) : List Byte :=
  chunk.code.take chunk.count

/-- The line table: the cells of `lines` in use. -/
def Chunk.lineTable {V : Type} (chunk : Chunk V) : List Int :=
  chunk.lines.take chunk.count

/-- The representation invariant of a chunk: both arrays have `capacity` cells
and `count` of them are in use. -/
def Chunk.WF {V : Type} (chunk : Chunk V) : Prop :=
  chunk.count ≤ chunk.capacity ∧ chunk.code.length = chunk.capacity ∧
    chunk.lines.length = chunk.capacity

/-- A sequence of `write_chunk` calls, oldest first. -/
def write_all {V : Type} (chunk : Chunk V) (writes : List (Byte × Int)) : Chunk V :=
  writes.foldl (fun c w => write_chunk c w.1 w.2) chunk

/-- A sequence of `add_constant` calls, oldest first: the final chunk and the
indices returned, in call order. -/
def add_all {V : Type} (chunk : Chunk V) : List V → Chunk V × List Nat
  | [] => (chunk, [])
  | value :: rest =>
    let r := add_constant chunk value
    let rs := add_all r.1 rest
    (rs.1, r.2 :: rs.2)

/-! ## scanner.h -/

/-- Modelled from the spec: `scanner.h` (the `TokenType` enum) is missing; these
are the token kinds indexing the `rules` table of `compiler.c`. -/
inductive TokenType
  | TOKEN_LEFT_PAREN | TOKEN_RIGHT_PAREN | TOKEN_LEFT_BRACE | TOKEN_RIGHT_BRACE
  | TOKEN_COMMA | TOKEN_DOT | TOKEN_MINUS | TOKEN_PLUS | TOKEN_SEMICOLON
  | TOKEN_SLASH | TOKEN_STAR | TOKEN_BANG | TOKEN_BANG_EQUAL | TOKEN_EQUAL
  | TOKEN_EQUAL_EQUAL | TOKEN_GREATER | TOKEN_GREATER_EQUAL | TOKEN_LESS
  | TOKEN_LESS_EQUAL | TOKEN_IDENTIFIER | TOKEN_STRING | TOKEN_NUMBER
  | TOKEN_AND | TOKEN_CLASS | TOKEN_ELSE | TOKEN_FALSE | TOKEN_FOR | TOKEN_FUN
  | TOKEN_IF | TOKEN_NIL | TOKEN_OR | TOKEN_PRINT | TOKEN_RETURN | TOKEN_SUPER
  | TOKEN_THIS | TOKEN_TRUE | TOKEN_VAR | TOKEN_WHILE | TOKEN_ERROR | TOKEN_EOF
  deriving DecidableEq, Repr

open TokenType OpCode

/-- A token: its kind, its lexeme (`start`/`length`; for an error token the
message) and its line. -/
structure Token where
  type : TokenType
  start : String
  line : Int
  deriving DecidableEq, Repr

/-- Modelled from the spec: `scanner.c` is missing; the scanner is "a pull-based
sequence of tokens ... terminated by an end-of-stream kind": the tokens still to
be delivered, and the line at which end-of-stream is then reported. -/
structure Scanner where
  tokens : List Token
  line : Int
  deriving DecidableEq, Repr

/-- The end-of-stream token the scanner delivers once its input is used up. -/
def Scanner.eof (scanner : Scanner) : Token :=
  { type := TOKEN_EOF, start := "", line := scanner.line }

/-- Modelled from the spec: `scanner.c` (`scan_token`) is missing; it delivers the
next token, and end-of-stream from the end of the input on. -/
def scan_token (scanner : Scanner) : Token × Scanner :=
  match scanner.tokens with
  | [] => (scanner.eof, scanner)
  | t :: rest => (t, { scanner with tokens := rest })

/-! ## compiler.c -/

/-- The `Parser` struct. -/
structure Parser where
  current : Token
  previous : Token
  had_error : Bool
  panic_mode : Bool
  deriving DecidableEq, Repr

/-- `Precedence`: a C enum, numbered from 0. -/
abbrev Precedence := Nat

abbrev PREC_NONE : Precedence := 0
abbrev PREC_ASSIGNMENT : Precedence := 1
abbrev PREC_OR : Precedence := 2
abbrev PREC_AND : Precedence := 3
abbrev PREC_EQUALITY : Precedence := 4
abbrev PREC_COMPARISON : Precedence := 5
abbrev PREC_TERM : Precedence := 6
abbrev PREC_FACTOR : Precedence := 7
abbrev PREC_UNARY : Precedence := 8
abbrev PREC_CALL : Precedence := 9
abbrev PREC_PRIMARY : Precedence := 10

/-- The functions a `ParseFn` pointer of the `rules` table can point to. -/
inductive ParseFn
  | grouping
  | number
  | unary
  | binary
  deriving DecidableEq, Repr

/-- `ParseRule`; `none` is the `NULL` pointer. -/
structure ParseRule where
  prefix_rule : Option ParseFn
  infix_rule : Option ParseFn
  precedence : Precedence
  deriving DecidableEq, Repr

/-- One line written to `stderr` by `error_at`: the token it is reported at and
the message. -/
structure Diagnostic where
  token : Token
  message : String
  deriving DecidableEq, Repr

/-- Everything `compiler.c` reads and writes: the scanner, the global `parser`,
the chunk `compilingChunk` points to, and the diagnostics printed so far. -/
structure State (V : Type) where
  scanner : Scanner
  parser : Parser
  compilingChunk : Chunk V
  stderr : List Diagnostic
  deriving DecidableEq, Repr

/-- Why a run of the model stops without a result: the fuel ran out, or a
`NULL` handler was called. -/
inductive Fault
  | out_of_fuel
  | null_call
  deriving DecidableEq, Repr

section Compiler

variable {V : Type}

/-- `error_at`. -/
def error_at (token : Token) (message : String) (s : State V) : State V :=
  if s.parser.panic_mode then s
  else
    { s with
      parser := { s.parser with panic_mode := true, had_error := true }
      stderr := s.stderr ++ [{ token := token, message := message }] }

/-- `error`. -/
def error (message : String) (s : State V) : State V :=
  error_at s.parser.previous message s

/-- `error_at_current`. -/
def error_at_current (message : String) (s : State V) : State V :=
  error_at s.parser.current message s

/-- The `for (;;)` loop of `advance`; `n` bounds the number of iterations. -/
def advance_loop : Nat → State V → State V
  | 0, s => s
  | n + 1, s =>
    let r := scan_token s.scanner
    let s := { s with parser := { s.parser with current := r.1 }, scanner := r.2 }
    if s.parser.current.type ≠ TOKEN_ERROR then s
    else advance_loop n (error_at_current s.parser.current.start s)

/-- `advance`. Every iteration of the loop but the last takes a token from the
scanner, so one more iteration than there are tokens left is never exceeded. -/
def advance (s : State V) : State V :=
  advance_loop (s.scanner.tokens.length + 1)
    { s with parser := { s.parser with previous := s.parser.current } }

/-- `consume`. -/
def consume (type : TokenType) (message : String) (s : State V) : State V :=
  if s.parser.current.type = type then advance s
  else error_at_current message s

/-- `emit_byte`. -/
def emit_byte (byte : Byte) (s : State V) : State V :=
  { s with compilingChunk := write_chunk s.compilingChunk byte s.parser.previous.line }

/-- `emit_bytes`. -/
def emit_bytes (byte1 byte2 : Byte) (s : State V) : State V :=
  emit_byte byte2 (emit_byte byte1 s)

/-- `emit_return`. -/
def emit_return (s : State V) : State V :=
  emit_byte OP_RETURN.toByte s

/-- `make_constant`: the state after the call and the returned operand. -/
def make_constant (value : V) (s : State V) : State V × Byte :=
  let r := add_constant s.compilingChunk value
  let s := { s with compilingChunk := r.1 }
  let constant := r.2
  if constant > 255 then (error "Too many constants in one chunk." s, 0)
  else (s, Fin.ofNat constant)

/-- `emit_constant`. The argument `make_constant(value)` is evaluated before
`emit_bytes` writes anything. -/
def emit_constant (value : V) (s : State V) : State V :=
  let r := make_constant value s
  emit_bytes OP_CONSTANT.toByte r.2 r.1

/-- `end_compiler` (without `DEBUG_PRINT_CODE`). -/
def end_compiler (s : State V) : State V :=
  emit_return s

/-- `number`. -/
def number (strtod : String → V) (s : State V) : State V :=
  let value := strtod s.parser.previous.start
  emit_constant value s

/-- The `rules` table, read through `get_rule`. -/
def get_rule : TokenType → ParseRule
  | TOKEN_LEFT_PAREN => ⟨some .grouping, none, PREC_NONE⟩
  | TOKEN_MINUS => ⟨some .unary, some .binary, PREC_TERM⟩
  | TOKEN_PLUS => ⟨none, some .binary, PREC_TERM⟩
  | TOKEN_SLASH => ⟨none, some .binary, PREC_FACTOR⟩
  | TOKEN_STAR => ⟨none, some .binary, PREC_FACTOR⟩
  | TOKEN_NUMBER => ⟨some .number, none, PREC_NONE⟩
  | _ => ⟨none, none, PREC_NONE⟩

mutual

/-- `binary`. -/
def binary (strtod : String → V) : Nat → State V → Except Fault (State V)
  | 0, _ => .error .out_of_fuel
  | fuel + 1, s =>
    let operatorType := s.parser.previous.type
    let rule := get_rule operatorType
    match parse_precedence strtod fuel (rule.precedence + 1) s with
    | .error f => .error f
    | .ok s =>
      match operatorType with
      | TOKEN_PLUS => .ok (emit_byte OP_ADD.toByte s)
      | TOKEN_MINUS => .ok (emit_byte OP_SUBTRACT.toByte s)
      | TOKEN_STAR => .ok (emit_byte OP_MULTIPLY.toByte s)
      | TOKEN_SLASH => .ok (emit_byte OP_DIVIDE.toByte s)
      | _ => .ok s

/-- `grouping`. -/
def grouping (strtod : String → V) : Nat → State V → Except Fault (State V)
  | 0, _ => .error .out_of_fuel
  | fuel + 1, s =>
    match expression strtod fuel s with
    | .error f => .error f
    | .ok s => .ok (consume TOKEN_RIGHT_PAREN "Expect ')' after expression." s)

/-- `unary`. -/
def unary (strtod : String → V) : Nat → State V → Except Fault (State V)
  | 0, _ => .error .out_of_fuel
  | fuel + 1, s =>
    let operatorType := s.parser.previous.type
    match parse_precedence strtod fuel PREC_UNARY s with
    | .error f => .error f
    | .ok s =>
      match operatorType with
      | TOKEN_MINUS => .ok (emit_byte OP_NEGATE.toByte s)
      | _ => .ok s

/-- A call through a `ParseFn` pointer. -/
def call_fn (strtod : String → V) : Nat → ParseFn → State V → Except Fault (State V)
  | 0, _, _ => .error .out_of_fuel
  | fuel + 1, .grouping, s => grouping strtod fuel s
  | _ + 1, .number, s => .ok (number strtod s)
  | fuel + 1, .unary, s => unary strtod fuel s
  | fuel + 1, .binary, s => binary strtod fuel s

/-- `parse_precedence`, up to its `while` loop. -/
def parse_precedence (strtod : String → V) :
    Nat → Precedence → State V → Except Fault (State V)
  | 0, _, _ => .error .out_of_fuel
  | fuel + 1, precedence, s =>
    let s := advance s
    match (get_rule s.parser.previous.type).prefix_rule with
    | none => .ok (error "Expect expression." s)
    | some prefix_rule =>
      match call_fn strtod fuel prefix_rule s with
      | .error f => .error f
      | .ok s => parse_loop strtod fuel precedence s

/-- The `while` loop of `parse_precedence`. -/
def parse_loop (strtod : String → V) :
    Nat → Precedence → State V → Except Fault (State V)
  | 0, _, _ => .error .out_of_fuel
  | fuel + 1, precedence, s =>
    if precedence ≤ (get_rule s.parser.current.type).precedence then
      let s := advance s
      match (get_rule s.parser.previous.type).infix_rule with
      | none => .error .null_call
      | some infixRule =>
        match call_fn strtod fuel infixRule s with
        | .error f => .error f
        | .ok s => parse_loop strtod fuel precedence s
    else .ok s

/-- `expression`. -/
def expression (strtod : String → V) : Nat → State V → Except Fault (State V)
  | 0, _ => .error .out_of_fuel
  | fuel + 1, s => parse_precedence strtod fuel PREC_ASSIGNMENT s

end

/-- The global `parser` before `compile` runs: zero-initialised. -/
def Parser.zero : Parser :=
  { current := { type := TOKEN_LEFT_PAREN, start := "", line := 0 }
    previous := { type := TOKEN_LEFT_PAREN, start := "", line := 0 }
    had_error := false
    panic_mode := false }

/-- Fuel that suffices for `expression` on a source of `n` tokens. -/
def compile_fuel (n : Nat) : Nat :=
  4 * n + 8

/-- The state `compile` sets up before its first `advance`: `init_scanner(source)`
gives the scanner `source`, `compilingChunk` is `chunk`, and both flags of the
parser are cleared. -/
def compile_init (source : Scanner) (chunk : Chunk V) : State V :=
  { scanner := source
    parser :=
      { current := Parser.zero.current
        previous := Parser.zero.previous
        had_error := false
        panic_mode := false }
    compilingChunk := chunk
    stderr := [] }

/-- The state of `compile` when it returns. -/
def compile_state (strtod : String → V) (source : Scanner) (chunk : Chunk V) :
    Except Fault (State V) :=
  let s := compile_init source chunk
  let s := advance s
  match expression strtod (compile_fuel source.tokens.length) s with
  | .error f => .error f
  | .ok s =>
    let s := consume TOKEN_EOF "Expect end of expression." s
    .ok (end_compiler s)

/-- `compile`: the returned flag, `!parser.had_error`. -/
def compile (strtod : String → V) (source : Scanner) (chunk : Chunk V) :
    Except Fault Bool :=
  match compile_state strtod source chunk with
  | .error f => .error f
  | .ok s => .ok (!s.parser.had_error)

end Compiler

/-! ## The grammar, as parse trees

`expression := term (('+'|'-') term)*`, `term := unary (('*'|'/') unary)*`,
`unary := '-' unary | NUMBER | '(' expression ')'`. A sentence of the grammar
is the token list of a well-formed tree; the chains of one level lean left. -/

/-- The lexeme and line of a token whose kind the grammar fixes. -/
structure Lexeme where
  start : String
  line : Int
  deriving DecidableEq, Repr

/-- The token of kind `type` with this lexeme and line. -/
def Lexeme.token (type : TokenType) (x : Lexeme) : Token :=
  { type := type, start := x.start, line := x.line }

/-- The four binary operators. -/
inductive BinOp
  | add
  | sub
  | mul
  | div
  deriving DecidableEq, Repr

/-- The token kind of an operator. -/
def BinOp.type : BinOp → TokenType
  | .add => TOKEN_PLUS
  | .sub => TOKEN_MINUS
  | .mul => TOKEN_STAR
  | .div => TOKEN_SLASH

/-- The instruction of an operator. -/
def BinOp.opcode : BinOp → OpCode
  | .add => OP_ADD
  | .sub => OP_SUBTRACT
  | .mul => OP_MULTIPLY
  | .div => OP_DIVIDE

/-- The grammar level of an operator: `PREC_TERM` for `+ -`, `PREC_FACTOR` for
`* /`. -/
def BinOp.level : BinOp → Precedence
  | .add => PREC_TERM
  | .sub => PREC_TERM
  | .mul => PREC_FACTOR
  | .div => PREC_FACTOR

/-- Parse trees. Every node carries the lexemes of its own tokens. -/
inductive Expr
  | num (x : Lexeme)
  | neg (minus : Lexeme) (e : Expr)
  | group (left : Lexeme) (e : Expr) (right : Lexeme)
  | bin (op : BinOp) (o : Lexeme) (l r : Expr)
  deriving DecidableEq, Repr

/-- The token list a tree stands for. -/
def Expr.tokens : Expr → List Token
  | .num x => [x.token TOKEN_NUMBER]
  | .neg m e => m.token TOKEN_MINUS :: e.tokens
  | .group l e r => l.token TOKEN_LEFT_PAREN :: (e.tokens ++ [r.token TOKEN_RIGHT_PAREN])
  | .bin op o l r => l.tokens ++ o.token op.type :: r.tokens

/-- The grammar level of a tree: that of its top operator, `PREC_UNARY` for a
`unary`. -/
def Expr.level : Expr → Precedence
  | .bin op _ _ _ => op.level
  | _ => PREC_UNARY

/-- The trees of the grammar: the operand of a negation is a `unary`; the right
operand of an operator is of a higher level than the operator and the left one
of its level or higher, so that chains associate to the left. -/
def Expr.wf : Expr → Bool
  | .num _ => true
  | .neg _ e => e.wf && decide (PREC_UNARY ≤ e.level)
  | .group _ e _ => e.wf
  | .bin op _ l r =>
    l.wf && r.wf && decide (op.level ≤ l.level) && decide (op.level + 1 ≤ r.level)

/-- The first token of a tree. -/
def Expr.first : Expr → Token
  | .num x => x.token TOKEN_NUMBER
  | .neg m _ => m.token TOKEN_MINUS
  | .group l _ _ => l.token TOKEN_LEFT_PAREN
  | .bin _ _ l _ => l.first

/-- The last token of a tree. -/
def Expr.last : Expr → Token
  | .num x => x.token TOKEN_NUMBER
  | .neg _ e => e.last
  | .group _ _ r => r.token TOKEN_RIGHT_PAREN
  | .bin _ _ _ r => r.last

/-- The `NUMBER` tokens of a tree, in source order. -/
def Expr.literals : Expr → List Token
  | .num x => [x.token TOKEN_NUMBER]
  | .neg _ e => e.literals
  | .group _ e _ => e.literals
  | .bin _ _ l r => l.literals ++ r.literals

/-- The post-order translation of a tree whose first literal is the `k`-th of
the chunk; `operand i` is the operand byte written for literal `i`. -/
def Expr.code (operand : Nat → Byte) : Nat → Expr → List Byte
  | k, .num _ => [OP_CONSTANT.toByte, operand k]
  | k, .neg _ e => e.code operand k ++ [OP_NEGATE.toByte]
  | k, .group _ e _ => e.code operand k
  | k, .bin op _ l r =>
    l.code operand k ++ r.code operand (k + l.literals.length) ++ [op.opcode.toByte]

/-- The line recorded for each byte of `Expr.code`: that of the last token read
when the byte is written. -/
def Expr.lines : Expr → List Int
  | .num x => [x.line, x.line]
  | .neg _ e => e.lines ++ [e.last.line]
  | .group _ e _ => e.lines
  | .bin _ _ l r => l.lines ++ r.lines ++ [r.last.line]

/-- The operand written for literal `i` by `make_constant`: `i` while it fits a
byte, 0 afterwards. -/
def degraded_operand (i : Nat) : Byte :=
  if i > 255 then 0 else Fin.ofNat i

/-! ### The effect of compiling a tree -/

/-- The state with `parser.previous` replaced. -/
def State.setPrevious {V : Type} (t : Token) (s : State V) : State V :=
  { s with parser := { s.parser with previous := t } }

/-- The token `scan_token` delivers when `rest` is still to be delivered. -/
def lookahead (scanner : Scanner) (rest : List Token) : Token :=
  match rest with
  | [] => scanner.eof
  | t :: _ => t

/-- The state whose look-ahead `parser.current` is the first token of `rest`
(end-of-stream if there is none) and whose scanner holds the tokens after it. -/
def State.shift {V : Type} (rest : List Token) (s : State V) : State V :=
  { s with
    parser := { s.parser with current := lookahead s.scanner rest }
    scanner := { s.scanner with tokens := rest.tail } }

/-- What the handlers write while a tree is parsed, as a walk over the tree:
`number` at a literal, `emit_byte` of the operator after its operands;
`parser.previous` is the last token read at each write. -/
def Expr.emit {V : Type} (strtod : String → V) : Expr → State V → State V
  | .num x, s => number strtod (s.setPrevious (x.token TOKEN_NUMBER))
  | .neg _ e, s => emit_byte OP_NEGATE.toByte (e.emit strtod s)
  | .group _ e r, s => (e.emit strtod s).setPrevious (r.token TOKEN_RIGHT_PAREN)
  | .bin op _ l r, s => emit_byte op.opcode.toByte (r.emit strtod (l.emit strtod s))

/-- The number of tokens still to be read: those the scanner holds, and the
look-ahead unless it is end-of-stream. -/
def State.pending {V : Type} (s : State V) : Nat :=
  s.scanner.tokens.length + (if s.parser.current.type = TOKEN_EOF then 0 else 1)

/-- The diagnostic of `make_constant`, reported at the literal `t`. -/
def too_many_constants (t : Token) : Diagnostic :=
  { token := t, message := "Too many constants in one chunk." }

/-! ## What "safe to execute" means

The virtual machine is outside this repository's sources; section 6 of the
specification fixes how it reads the buffer. -/

/-- A decoded instruction. -/
inductive Instr
  | CONSTANT (index : Byte)
  | ADD
  | SUBTRACT
  | MULTIPLY
  | DIVIDE
  | NEGATE
  | RETURN
  deriving DecidableEq, Repr

/-- Decoding of an instruction stream, byte by byte; `operand` tells that the
byte read before was `OP_CONSTANT`, whose operand byte comes next. A stream
that ends inside an instruction, or holds a byte that is no opcode, does not
decode. -/
def decode_from : Bool → List Byte → Option (List Instr)
  | false, [] => some []
  | true, [] => none
  | true, i :: rest => (decode_from false rest).map (fun is => Instr.CONSTANT i :: is)
  | false, b :: rest =>
    if b = OP_CONSTANT.toByte then decode_from true rest
    else if b = OP_ADD.toByte then (decode_from false rest).map (fun is => Instr.ADD :: is)
    else if b = OP_SUBTRACT.toByte then
      (decode_from false rest).map (fun is => Instr.SUBTRACT :: is)
    else if b = OP_MULTIPLY.toByte then
      (decode_from false rest).map (fun is => Instr.MULTIPLY :: is)
    else if b = OP_DIVIDE.toByte then
      (decode_from false rest).map (fun is => Instr.DIVIDE :: is)
    else if b = OP_NEGATE.toByte then
      (decode_from false rest).map (fun is => Instr.NEGATE :: is)
    else if b = OP_RETURN.toByte then
      (decode_from false rest).map (fun is => Instr.RETURN :: is)
    else none

/-- Decoding of a whole instruction stream. -/
def decode (code : List Byte) : Option (List Instr) :=
  decode_from false code

/-- The stack depth after running instructions that do not return, from depth
`depth`, with `pool` constants: `none` if a `CONSTANT` operand is no index into
the pool, if an instruction finds too few values on the stack, or at a
`RETURN`. -/
def stack_after (pool : Nat) : List Instr → Nat → Option Nat
  | [], depth => some depth
  | .CONSTANT i :: rest, depth =>
    if i.val < pool then stack_after pool rest (depth + 1) else none
  | .ADD :: rest, depth => if 2 ≤ depth then stack_after pool rest (depth - 1) else none
  | .SUBTRACT :: rest, depth => if 2 ≤ depth then stack_after pool rest (depth - 1) else none
  | .MULTIPLY :: rest, depth => if 2 ≤ depth then stack_after pool rest (depth - 1) else none
  | .DIVIDE :: rest, depth => if 2 ≤ depth then stack_after pool rest (depth - 1) else none
  | .NEGATE :: rest, depth => if 1 ≤ depth then stack_after pool rest depth else none
  | .RETURN :: _, _ => none

/-- A chunk is safe to execute: its stream decodes completely, into
instructions that run from the empty stack without underflow and with valid
constant indices, followed by the only `RETURN`, reached with exactly one value
on the stack. -/
def safe_to_execute {V : Type} (chunk : Chunk V) : Prop :=
  ∃ body : List Instr, decode chunk.stream = some (body ++ [Instr.RETURN]) ∧
    stack_after chunk.constants.count body 0 = some 1

/-- Bytes that decode completely and take the stack from depth `d` to `d2`. -/
def Effect (pool : Nat) (bytes : List Byte) (d d2 : Nat) : Prop :=
  ∃ is : List Instr, decode bytes = some is ∧ stack_after pool is d = some d2

/-- Code that pushes one value: what an expression compiles to. -/
def ExprCode (pool : Nat) (bytes : List Byte) : Prop :=
  ∀ d, Effect pool bytes d (d + 1)

/-- Code that keeps the depth of a non-empty stack: what the operator loop
appends after a left operand. -/
def LoopCode (pool : Nat) (bytes : List Byte) : Prop :=
  ∀ d, 1 ≤ d → Effect pool bytes d d

/-- The invariant of the compiler state: the chunk is well formed, panic mode is
only entered with the error flag, and while no error was reported every
constant index fits a byte. -/
def State.Inv {V : Type} (s : State V) : Prop :=
  s.compilingChunk.WF ∧ (s.parser.panic_mode = true → s.parser.had_error = true) ∧
    (s.parser.had_error = false → s.compilingChunk.constants.count ≤ 256)

/-- What a run appended to the chunk `c`, giving `r`: bytes of kind `K`. -/
def Grow {V : Type} (K : Nat → List Byte → Prop) (c r : Chunk V) : Prop :=
  ∃ bytes : List Byte, r.stream = c.stream ++ bytes ∧
    c.constants.count ≤ r.constants.count ∧ K r.constants.count bytes

/-- The token kinds `binary` has an instruction for. -/
def is_operator (t : TokenType) : Prop :=
  t = TOKEN_PLUS ∨ t = TOKEN_MINUS ∨ t = TOKEN_STAR ∨ t = TOKEN_SLASH

/-- The expression `1 + 1 + ... + 1` with `n` operators, leaning left. -/
def sum_chain : Nat → Expr
  | 0 => .num ⟨"1", 1⟩
  | n + 1 => .bin .add ⟨"+", 1⟩ (sum_chain n) (.num ⟨"1", 1⟩)

/-! ## The four primitive writes of the compiler -/

/-- The state after the `add_constant` call of `make_constant`. -/
def State.addConstant {V : Type} (value : V) (s : State V) : State V :=
  { s with compilingChunk := (add_constant s.compilingChunk value).1 }

/-- One primitive step of `compiler.c` on its state: an `advance`, an
`error_at`, an `emit_byte`, or the `add_constant` of `make_constant`. -/
inductive Prim {V : Type} : State V → State V → Prop
  | advance (s : State V) : Prim s (advance s)
  | error_at (t : Token) (m : String) (s : State V) : Prim s (error_at t m s)
  | emit_byte (b : Byte) (s : State V) : Prim s (emit_byte b s)
  | add_constant (value : V) (s : State V) : Prim s (s.addConstant value)

/-- A run of primitive steps. -/
def Steps {V : Type} (s r : State V) : Prop :=
  Relation.ReflTransGen Prim s r

/-- The flags and the diagnostics agree: panic mode and the error flag are set
together, and a diagnostic was printed exactly if they are set. -/
def State.Reported {V : Type} (s : State V) : Prop :=
  s.parser.panic_mode = s.parser.had_error ∧
    s.stderr.length = (if s.parser.had_error = true then 1 else 0)

/-- The scanner delivers end-of-stream only once its tokens are used up: no
pending token is of kind `TOKEN_EOF`, and when the look-ahead is end-of-stream
nothing is pending. -/
def State.EofLast {V : Type} (s : State V) : Prop :=
  (∀ t ∈ s.scanner.tokens, t.type ≠ TOKEN_EOF) ∧
    (s.parser.current.type = TOKEN_EOF → s.scanner.tokens = [])

/-- `r` only appended to the chunk of `s`: the instruction stream, the line
table and the constant pool of `s` are prefixes of those of `r`. -/
def Appended {V : Type} (c r : Chunk V) : Prop :=
  c.stream <+: r.stream ∧ c.lineTable <+: r.lineTable ∧
    c.constants.values <+: r.constants.values

/-- The tokens still to be parsed: the look-ahead and the tokens the scanner
holds, or nothing once the look-ahead is end-of-stream. -/
def State.remaining {V : Type} (s : State V) : List Token :=
  if s.parser.current.type = TOKEN_EOF then [] else s.parser.current :: s.scanner.tokens

/-! ## The same code on a machine with a finite call stack and a finite heap

The definitions above follow a run on which every call finds room on the native
stack and every `realloc` succeeds. The definitions below are the same
functions together with the two ways in which the process ends before
`compile` returns: a call for which the native stack has no room left, and the
`exit(1)` of `reallocate`. -/

/-- How a run on a finite machine ends without `compile` returning: the native
stack is exhausted by a call, `reallocate` ends the process with `exit(1)`, or
the model stops for one of the reasons of `Fault`. -/
inductive Abort
  | stack_overflow
  | exit_1
  | fault (f : Fault)
  deriving DecidableEq, Repr

/-- The C library's `realloc` on a heap that holds a block of at most `heap`
cells: `NULL` (`none`) when more is asked for, otherwise the block of
`new_size` cells with the old contents up to the smaller of the two sizes. -/
def realloc {α : Type} [Inhabited α] (heap : Nat) (pointer : List α) (new_size : Nat) :
    Option (List α) :=
  if heap < new_size then none
  else some (pointer.take new_size ++ List.replicate (new_size - pointer.length) default)

/-- `reallocate` of `memory.c` with its failure path: when `realloc` returns
`NULL` the process ends with `exit(1)`. -/
def reallocate_limited {α : Type} [Inhabited α] (heap : Nat) (pointer : List α)
    (_old_size new_size : Nat) : Except Abort (List α) :=
  if new_size = 0 then .ok []
  else
    match realloc heap pointer new_size with
    | none => .error .exit_1
    | some result => .ok result

/-- The `GROW_ARRAY` macro over `reallocate_limited`. -/
def GROW_ARRAY_limited {α : Type} [Inhabited α] (heap : Nat) (pointer : List α)
    (old_count new_count : Nat) : Except Abort (List α) :=
  reallocate_limited heap pointer old_count new_count

/-- `write_chunk` on a heap of `heap` cells per block. -/
def write_chunk_limited {V : Type} (heap : Nat) (chunk : Chunk V) (byte : Byte) (line : Int) :
    Except Abort (Chunk V) :=
  let grown : Except Abort (Chunk V) :=
    if chunk.capacity < chunk.count + 1 then
      let old_capacity := chunk.capacity
      let capacity := GROW_CAPACITY old_capacity
      match GROW_ARRAY_limited heap chunk.code old_capacity capacity with
      | .error a => .error a
      | .ok code =>
        match GROW_ARRAY_limited heap chunk.lines old_capacity capacity with
        | .error a => .error a
        | .ok lines => .ok { chunk with capacity := capacity, code := code, lines := lines }
    else .ok chunk
  match grown with
  | .error a => .error a
  | .ok chunk =>
    .ok { chunk with
          code := chunk.code.set chunk.count byte
          lines := chunk.lines.set chunk.count line
          count := chunk.count + 1 }

section Limited

variable {V : Type}

/-- `emit_byte` over `write_chunk_limited`. -/
def emit_byte_limited (heap : Nat) (byte : Byte) (s : State V) : Except Abort (State V) :=
  match write_chunk_limited heap s.compilingChunk byte s.parser.previous.line with
  | .error a => .error a
  | .ok chunk => .ok { s with compilingChunk := chunk }

/-- `emit_bytes` over `emit_byte_limited`. -/
def emit_bytes_limited (heap : Nat) (byte1 byte2 : Byte) (s : State V) :
    Except Abort (State V) :=
  match emit_byte_limited heap byte1 s with
  | .error a => .error a
  | .ok s => emit_byte_limited heap byte2 s

/-- `emit_return` over `emit_byte_limited`. -/
def emit_return_limited (heap : Nat) (s : State V) : Except Abort (State V) :=
  emit_byte_limited heap OP_RETURN.toByte s

/-- `emit_constant` over `emit_bytes_limited`. The constant pool is written by
`write_value_array` of the missing `value.c`, for which the spec names no
failure; `make_constant` is therefore as before. -/
def emit_constant_limited (heap : Nat) (value : V) (s : State V) : Except Abort (State V) :=
  let r := make_constant value s
  emit_bytes_limited heap OP_CONSTANT.toByte r.2 r.1

/-- `end_compiler` over `emit_return_limited`. -/
def end_compiler_limited (heap : Nat) (s : State V) : Except Abort (State V) :=
  emit_return_limited heap s

/-- `number` over `emit_constant_limited`. -/
def number_limited (strtod : String → V) (heap : Nat) (s : State V) : Except Abort (State V) :=
  let value := strtod s.parser.previous.start
  emit_constant_limited heap value s

mutual

/-- `binary` on the finite machine. In this and the following functions the
second number is the count of further frames the native stack has room for:
a call of `binary`, `grouping`, `unary`, `parse_precedence` or `expression`
takes one frame for as long as it runs, and with no frame left the call
overflows the stack. The functions outside the recursion return after a bounded
number of calls and are not counted. -/
def binary_limited (strtod : String → V) (heap : Nat) :
    Nat → Nat → State V → Except Abort (State V)
  | 0, _, _ => .error (.fault .out_of_fuel)
  | _ + 1, 0, _ => .error .stack_overflow
  | fuel + 1, stack + 1, s =>
    let operatorType := s.parser.previous.type
    let rule := get_rule operatorType
    match parse_precedence_limited strtod heap fuel stack (rule.precedence + 1) s with
    | .error a => .error a
    | .ok s =>
      match operatorType with
      | TOKEN_PLUS => emit_byte_limited heap OP_ADD.toByte s
      | TOKEN_MINUS => emit_byte_limited heap OP_SUBTRACT.toByte s
      | TOKEN_STAR => emit_byte_limited heap OP_MULTIPLY.toByte s
      | TOKEN_SLASH => emit_byte_limited heap OP_DIVIDE.toByte s
      | _ => .ok s
termination_by structural fuel _ _ => fuel

/-- `grouping` on the finite machine. -/
def grouping_limited (strtod : String → V) (heap : Nat) :
    Nat → Nat → State V → Except Abort (State V)
  | 0, _, _ => .error (.fault .out_of_fuel)
  | _ + 1, 0, _ => .error .stack_overflow
  | fuel + 1, stack + 1, s =>
    match expression_limited strtod heap fuel stack s with
    | .error a => .error a
    | .ok s => .ok (consume TOKEN_RIGHT_PAREN "Expect ')' after expression." s)
termination_by structural fuel _ _ => fuel

/-- `unary` on the finite machine. -/
def unary_limited (strtod : String → V) (heap : Nat) :
    Nat → Nat → State V → Except Abort (State V)
  | 0, _, _ => .error (.fault .out_of_fuel)
  | _ + 1, 0, _ => .error .stack_overflow
  | fuel + 1, stack + 1, s =>
    let operatorType := s.parser.previous.type
    match parse_precedence_limited strtod heap fuel stack PREC_UNARY s with
    | .error a => .error a
    | .ok s =>
      match operatorType with
      | TOKEN_MINUS => emit_byte_limited heap OP_NEGATE.toByte s
      | _ => .ok s
termination_by structural fuel _ _ => fuel

/-- A call through a `ParseFn` pointer on the finite machine; the frame is
taken by the function called. -/
def call_fn_limited (strtod : String → V) (heap : Nat) :
    Nat → Nat → ParseFn → State V → Except Abort (State V)
  | 0, _, _, _ => .error (.fault .out_of_fuel)
  | fuel + 1, stack, .grouping, s => grouping_limited strtod heap fuel stack s
  | _ + 1, _, .number, s => number_limited strtod heap s
  | fuel + 1, stack, .unary, s => unary_limited strtod heap fuel stack s
  | fuel + 1, stack, .binary, s => binary_limited strtod heap fuel stack s
termination_by structural fuel _ _ _ => fuel

/-- `parse_precedence` on the finite machine, up to its `while` loop. -/
def parse_precedence_limited (strtod : String → V) (heap : Nat) :
    Nat → Nat → Precedence → State V → Except Abort (State V)
  | 0, _, _, _ => .error (.fault .out_of_fuel)
  | _ + 1, 0, _, _ => .error .stack_overflow
  | fuel + 1, stack + 1, precedence, s =>
    let s := advance s
    match (get_rule s.parser.previous.type).prefix_rule with
    | none => .ok (error "Expect expression." s)
    | some prefix_rule =>
      match call_fn_limited strtod heap fuel stack prefix_rule s with
      | .error a => .error a
      | .ok s => parse_loop_limited strtod heap fuel stack precedence s
termination_by structural fuel _ _ _ => fuel

/-- The `while` loop of `parse_precedence` on the finite machine; it runs in
the frame of `parse_precedence`, and `stack` is the room left for the handlers
it calls. -/
def parse_loop_limited (strtod : String → V) (heap : Nat) :
    Nat → Nat → Precedence → State V → Except Abort (State V)
  | 0, _, _, _ => .error (.fault .out_of_fuel)
  | fuel + 1, stack, precedence, s =>
    if precedence ≤ (get_rule s.parser.current.type).precedence then
      let s := advance s
      match (get_rule s.parser.previous.type).infix_rule with
      | none => .error (.fault .null_call)
      | some infixRule =>
        match call_fn_limited strtod heap fuel stack infixRule s with
        | .error a => .error a
        | .ok s => parse_loop_limited strtod heap fuel stack precedence s
    else .ok s
termination_by structural fuel _ _ _ => fuel

/-- `expression` on the finite machine. -/
def expression_limited (strtod : String → V) (heap : Nat) :
    Nat → Nat → State V → Except Abort (State V)
  | 0, _, _ => .error (.fault .out_of_fuel)
  | _ + 1, 0, _ => .error .stack_overflow
  | fuel + 1, stack + 1, s => parse_precedence_limited strtod heap fuel stack PREC_ASSIGNMENT s
termination_by structural fuel _ _ => fuel

end

/-- The state of `compile` when it returns, on a machine whose native stack has
room for `stack` frames below that of `compile` and whose heap holds blocks of
at most `heap` cells. -/
def compile_state_limited (strtod : String → V) (stack heap : Nat) (source : Scanner)
    (chunk : Chunk V) : Except Abort (State V) :=
  let s := compile_init source chunk
  let s := advance s
  match expression_limited strtod heap (compile_fuel source.tokens.length) stack s with
  | .error a => .error a
  | .ok s =>
    let s := consume TOKEN_EOF "Expect end of expression." s
    end_compiler_limited heap s

/-- `compile` on the finite machine: the returned flag, `!parser.had_error`. -/
def compile_limited (strtod : String → V) (stack heap : Nat) (source : Scanner)
    (chunk : Chunk V) : Except Abort Bool :=
  match compile_state_limited strtod stack heap source chunk with
  | .error a => .error a
  | .ok s => .ok (!s.parser.had_error)

end Limited

/-- The expression `1` inside `n` pairs of parentheses. -/
def nested : Nat → Expr
  | 0 => .num ⟨"1", 1⟩
  | n + 1 => .group ⟨"(", 1⟩ (nested n) ⟨")", 1⟩

/-- The run on the finite machine ended as the run without limits did, in `r`,
or the process died: of a stack overflow, which takes a stack of fewer than
`fuel` frames, or of `exit(1)`, which takes a heap smaller than the arrays of
`r`. -/
def Ends {V : Type} (heap fuel stack : Nat) (r : State V) (x : Except Abort (State V)) :
    Prop :=
  x = .ok r ∨ (x = .error .stack_overflow ∧ stack < fuel) ∨
    (x = .error .exit_1 ∧ heap < r.compilingChunk.capacity)

/-! ## Facts about `write_chunk` and `add_constant` -/

theorem take_succ_set {α : Type} (xs : List α) (n : Nat) (b : α) (h : n < xs.length) :
    (xs.set n b).take (n + 1) = xs.take n ++ [b] := by
  induction xs generalizing n with
  | nil => simp at h
  | cons x xs ih =>
    cases n with
    | zero => simp
    | succ n =>
      simp only [List.length_cons, Nat.add_lt_add_iff_right] at h
      simp [ih n h]

theorem GROW_CAPACITY_gt (capacity : Nat) : capacity < GROW_CAPACITY capacity := by
  unfold GROW_CAPACITY
  split <;> omega

theorem GROW_ARRAY_length {α : Type} [Inhabited α] (xs : List α) (old new : Nat)
    (h : xs.length ≤ new) : (GROW_ARRAY xs old new).length = new := by
  unfold GROW_ARRAY reallocate
  split
  · simp; omega
  · simp [List.length_take]; omega

theorem GROW_ARRAY_take {α : Type} [Inhabited α] (xs : List α) (old new : Nat)
    (h : xs.length < new) : (GROW_ARRAY xs old new).take xs.length = xs := by
  unfold GROW_ARRAY reallocate
  have h0 : new ≠ 0 := by omega
  simp only [h0, if_false]
  rw [List.take_of_length_le (Nat.le_of_lt h)]
  simp

section ChunkFacts

variable {V : Type}

theorem write_chunk_count (c : Chunk V) (b : Byte) (l : Int) :
    (write_chunk c b l).count = c.count + 1 := by
  unfold write_chunk
  split <;> rfl

theorem write_chunk_constants (c : Chunk V) (b : Byte) (l : Int) :
    (write_chunk c b l).constants = c.constants := by
  unfold write_chunk
  split <;> rfl

theorem write_chunk_WF (c : Chunk V) (b : Byte) (l : Int) (h : c.WF) :
    (write_chunk c b l).WF := by
  obtain ⟨h1, h2, h3⟩ := h
  unfold write_chunk Chunk.WF
  by_cases hc : c.capacity < c.count + 1
  · have hg := GROW_CAPACITY_gt c.capacity
    simp only [hc, if_true, List.length_set]
    refine ⟨by omega, ?_, ?_⟩
    · exact GROW_ARRAY_length _ _ _ (by omega)
    · exact GROW_ARRAY_length _ _ _ (by omega)
  · simp only [hc, if_false, List.length_set]
    exact ⟨by omega, h2, h3⟩

theorem write_chunk_stream (c : Chunk V) (b : Byte) (l : Int) (h : c.WF) :
    (write_chunk c b l).stream = c.stream ++ [b] := by
  obtain ⟨h1, h2, h3⟩ := h
  unfold write_chunk Chunk.stream
  by_cases hc : c.capacity < c.count + 1
  · have hg := GROW_CAPACITY_gt c.capacity
    have hcount : c.count = c.code.length := by omega
    simp only [hc, if_true]
    rw [take_succ_set _ _ _ (by rw [GROW_ARRAY_length _ _ _ (by omega)]; omega)]
    rw [hcount, GROW_ARRAY_take _ _ _ (by omega)]
    simp
  · simp only [hc, if_false]
    rw [take_succ_set _ _ _ (by omega)]

theorem write_chunk_lineTable (c : Chunk V) (b : Byte) (l : Int) (h : c.WF) :
    (write_chunk c b l).lineTable = c.lineTable ++ [l] := by
  obtain ⟨h1, h2, h3⟩ := h
  unfold write_chunk Chunk.lineTable
  by_cases hc : c.capacity < c.count + 1
  · have hg := GROW_CAPACITY_gt c.capacity
    have hcount : c.count = c.lines.length := by omega
    simp only [hc, if_true]
    rw [take_succ_set _ _ _ (by rw [GROW_ARRAY_length _ _ _ (by omega)]; omega)]
    rw [hcount, GROW_ARRAY_take _ _ _ (by omega)]
    simp
  · simp only [hc, if_false]
    rw [take_succ_set _ _ _ (by omega)]

theorem init_chunk_WF : (init_chunk : Chunk V).WF := by
  simp [Chunk.WF, init_chunk]

theorem write_all_spec (c : Chunk V) (writes : List (Byte × Int)) (h : c.WF) :
    (write_all c writes).WF ∧
      (write_all c writes).count = c.count + writes.length ∧
      (write_all c writes).stream = c.stream ++ writes.map Prod.fst ∧
      (write_all c writes).lineTable = c.lineTable ++ writes.map Prod.snd ∧
      (write_all c writes).constants = c.constants := by
  induction writes generalizing c with
  | nil => simp [write_all, h]
  | cons w ws ih =>
    have hw := write_chunk_WF c w.1 w.2 h
    obtain ⟨i1, i2, i3, i4, i5⟩ := ih (write_chunk c w.1 w.2) hw
    simp only [write_all, List.foldl_cons] at i1 i2 i3 i4 i5 ⊢
    refine ⟨i1, ?_, ?_, ?_, ?_⟩
    · rw [i2, write_chunk_count]; simp; omega
    · rw [i3, write_chunk_stream c _ _ h]; simp
    · rw [i4, write_chunk_lineTable c _ _ h]; simp
    · rw [i5, write_chunk_constants]

theorem add_all_spec (c : Chunk V) (values : List V) :
    (add_all c values).2 =
        (List.range values.length).map (fun i => c.constants.count + i) ∧
      (add_all c values).1.constants.values = c.constants.values ++ values ∧
      (add_all c values).1.count = c.count ∧
      (add_all c values).1.capacity = c.capacity ∧
      (add_all c values).1.code = c.code ∧
      (add_all c values).1.lines = c.lines := by
  induction values generalizing c with
  | nil => simp [add_all]
  | cons v vs ih =>
    obtain ⟨i1, i2, i3, i4, i5, i6⟩ := ih (add_constant c v).1
    simp only [add_all]
    refine ⟨?_, ?_, ?_, ?_, ?_, ?_⟩
    · rw [i1]
      have hc : (add_constant c v).1.constants.count = c.constants.count + 1 := by
        simp [add_constant, write_value_array, ValueArray.count]
      have hr : (add_constant c v).2 = c.constants.count := by
        simp [add_constant, write_value_array, ValueArray.count]
      rw [hc, hr, List.length_cons, List.range_succ_eq_map, List.map_cons, List.map_map]
      congr 1
      apply List.map_congr_left
      intro i _
      simp only [Function.comp, Nat.succ_eq_add_one]
      omega
    · rw [i2]; simp [add_constant, write_value_array]
    · rw [i3]; rfl
    · rw [i4]; rfl
    · rw [i5]; rfl
    · rw [i6]; rfl

end ChunkFacts

/-! ## Fuel: more fuel never changes a result -/

section Fuel

variable {V : Type} (strtod : String → V)

/-- All six recursive functions keep their result when given one more unit of
fuel. -/
theorem fuel_step (f : Nat) :
    (∀ s r, binary strtod f s = .ok r → binary strtod (f + 1) s = .ok r) ∧
    (∀ s r, grouping strtod f s = .ok r → grouping strtod (f + 1) s = .ok r) ∧
    (∀ s r, unary strtod f s = .ok r → unary strtod (f + 1) s = .ok r) ∧
    (∀ fn s r, call_fn strtod f fn s = .ok r → call_fn strtod (f + 1) fn s = .ok r) ∧
    (∀ p s r, parse_precedence strtod f p s = .ok r →
      parse_precedence strtod (f + 1) p s = .ok r) ∧
    (∀ p s r, parse_loop strtod f p s = .ok r → parse_loop strtod (f + 1) p s = .ok r) ∧
    (∀ s r, expression strtod f s = .ok r → expression strtod (f + 1) s = .ok r) := by
  induction f with
  | zero =>
    refine ⟨?_, ?_, ?_, ?_, ?_, ?_, ?_⟩ <;> intros <;> simp_all [binary, grouping, unary,
      call_fn, parse_precedence, parse_loop, expression]
  | succ f ih =>
    obtain ⟨hb, hg, hu, hc, hp, hl, he⟩ := ih
    refine ⟨?_, ?_, ?_, ?_, ?_, ?_, ?_⟩
    · intro s r h
      rw [binary] at h ⊢
      cases hq : parse_precedence strtod f ((get_rule s.parser.previous.type).precedence + 1) s with
      | error e => simp [hq] at h
      | ok s2 => simp only [hq] at h; simp only [hp _ _ _ hq]; exact h
    · intro s r h
      rw [grouping] at h ⊢
      cases hq : expression strtod f s with
      | error e => simp [hq] at h
      | ok s2 => simp only [hq] at h; simp only [he _ _ hq]; exact h
    · intro s r h
      rw [unary] at h ⊢
      cases hq : parse_precedence strtod f PREC_UNARY s with
      | error e => simp [hq] at h
      | ok s2 => simp only [hq] at h; simp only [hp _ _ _ hq]; exact h
    · intro fn s r h
      cases fn with
      | grouping => rw [call_fn] at h ⊢; exact hg _ _ h
      | number => rw [call_fn] at h ⊢; exact h
      | unary => rw [call_fn] at h ⊢; exact hu _ _ h
      | binary => rw [call_fn] at h ⊢; exact hb _ _ h
    · intro p s r h
      rw [parse_precedence] at h ⊢
      cases hr : (get_rule (advance s).parser.previous.type).prefix_rule with
      | none => simp only [hr] at h ⊢; exact h
      | some fn =>
        simp only [hr] at h ⊢
        cases hq : call_fn strtod f fn (advance s) with
        | error e => simp [hq] at h
        | ok s2 => simp only [hq] at h; simp only [hc _ _ _ hq]; exact hl _ _ _ h
    · intro p s r h
      rw [parse_loop] at h ⊢
      by_cases hcond : p ≤ (get_rule s.parser.current.type).precedence
      · simp only [hcond, if_true] at h ⊢
        cases hr : (get_rule (advance s).parser.previous.type).infix_rule with
        | none => simp [hr] at h
        | some fn =>
          simp only [hr] at h ⊢
          cases hq : call_fn strtod f fn (advance s) with
          | error e => simp [hq] at h
          | ok s2 => simp only [hq] at h; simp only [hc _ _ _ hq]; exact hl _ _ _ h
      · simp only [hcond, if_false] at h ⊢; exact h
    · intro s r h
      rw [expression] at h ⊢
      exact hp _ _ _ h

theorem parse_precedence_mono {f f' : Nat} (h : f ≤ f') (p : Precedence) (s r : State V)
    (hr : parse_precedence strtod f p s = .ok r) : parse_precedence strtod f' p s = .ok r := by
  induction h with
  | refl => exact hr
  | step _ ih => exact (fuel_step strtod _).2.2.2.2.1 _ _ _ ih

theorem parse_loop_mono {f f' : Nat} (h : f ≤ f') (p : Precedence) (s r : State V)
    (hr : parse_loop strtod f p s = .ok r) : parse_loop strtod f' p s = .ok r := by
  induction h with
  | refl => exact hr
  | step _ ih => exact (fuel_step strtod _).2.2.2.2.2.1 _ _ _ ih

theorem call_fn_mono {f f' : Nat} (h : f ≤ f') (fn : ParseFn) (s r : State V)
    (hr : call_fn strtod f fn s = .ok r) : call_fn strtod f' fn s = .ok r := by
  induction h with
  | refl => exact hr
  | step _ ih => exact (fuel_step strtod _).2.2.2.1 _ _ _ ih

theorem expression_mono {f f' : Nat} (h : f ≤ f') (s r : State V)
    (hr : expression strtod f s = .ok r) : expression strtod f' s = .ok r := by
  induction h with
  | refl => exact hr
  | step _ ih => exact (fuel_step strtod _).2.2.2.2.2.2 _ _ ih

/-! ### Big-step rules: "some amount of fuel gives this result" -/

theorem run_parse_precedence (p : Precedence) (s s2 r : State V) (fn : ParseFn)
    (hfn : (get_rule (advance s).parser.previous.type).prefix_rule = some fn)
    (hcall : ∃ f, call_fn strtod f fn (advance s) = .ok s2)
    (hloop : ∃ f, parse_loop strtod f p s2 = .ok r) :
    ∃ f, parse_precedence strtod f p s = .ok r := by
  obtain ⟨f1, h1⟩ := hcall
  obtain ⟨f2, h2⟩ := hloop
  refine ⟨max f1 f2 + 1, ?_⟩
  rw [parse_precedence]
  simp only [hfn, call_fn_mono strtod (le_max_left f1 f2) _ _ _ h1]
  exact parse_loop_mono strtod (le_max_right f1 f2) _ _ _ h2

theorem run_parse_loop_exit (p : Precedence) (s : State V)
    (h : ¬ p ≤ (get_rule s.parser.current.type).precedence) :
    ∃ f, parse_loop strtod f p s = .ok s :=
  ⟨1, by rw [parse_loop]; simp only [h, if_false]⟩

theorem run_parse_loop_step (p : Precedence) (s s2 r : State V) (fn : ParseFn)
    (hp : p ≤ (get_rule s.parser.current.type).precedence)
    (hfn : (get_rule (advance s).parser.previous.type).infix_rule = some fn)
    (hcall : ∃ f, call_fn strtod f fn (advance s) = .ok s2)
    (hloop : ∃ f, parse_loop strtod f p s2 = .ok r) :
    ∃ f, parse_loop strtod f p s = .ok r := by
  obtain ⟨f1, h1⟩ := hcall
  obtain ⟨f2, h2⟩ := hloop
  refine ⟨max f1 f2 + 1, ?_⟩
  rw [parse_loop]
  simp only [hp, if_true, hfn, call_fn_mono strtod (le_max_left f1 f2) _ _ _ h1]
  exact parse_loop_mono strtod (le_max_right f1 f2) _ _ _ h2

theorem run_number (s : State V) : ∃ f, call_fn strtod f .number s = .ok (number strtod s) :=
  ⟨1, by rw [call_fn]⟩

theorem run_unary (s s2 : State V) (hm : s.parser.previous.type = TOKEN_MINUS)
    (h : ∃ f, parse_precedence strtod f PREC_UNARY s = .ok s2) :
    ∃ f, call_fn strtod f .unary s = .ok (emit_byte OP_NEGATE.toByte s2) := by
  obtain ⟨f, h⟩ := h
  refine ⟨f + 2, ?_⟩
  rw [call_fn, unary]
  simp only [h, hm]

theorem run_grouping (s s2 : State V)
    (h : ∃ f, parse_precedence strtod f PREC_ASSIGNMENT s = .ok s2) :
    ∃ f, call_fn strtod f .grouping s =
      .ok (consume TOKEN_RIGHT_PAREN "Expect ')' after expression." s2) := by
  obtain ⟨f, h⟩ := h
  refine ⟨f + 3, ?_⟩
  rw [call_fn, grouping, expression]
  simp only [h]

theorem run_binary (s s2 : State V)
    (h : ∃ f, parse_precedence strtod f
      ((get_rule s.parser.previous.type).precedence + 1) s = .ok s2) :
    ∃ f, call_fn strtod f .binary s = .ok
      (match s.parser.previous.type with
        | TOKEN_PLUS => emit_byte OP_ADD.toByte s2
        | TOKEN_MINUS => emit_byte OP_SUBTRACT.toByte s2
        | TOKEN_STAR => emit_byte OP_MULTIPLY.toByte s2
        | TOKEN_SLASH => emit_byte OP_DIVIDE.toByte s2
        | _ => s2) := by
  obtain ⟨f, h⟩ := h
  refine ⟨f + 2, ?_⟩
  rw [call_fn, binary]
  simp only [h]
  split <;> rfl

end Fuel

/-! ## The look-ahead and the writes commute -/

section Shift

variable {V : Type} (strtod : String → V)

theorem advance_shift (s : State V) (rest : List Token) (h : s.scanner.tokens = rest)
    (hok : ∀ t ∈ rest.head?, t.type ≠ TOKEN_ERROR) :
    advance s = (s.shift rest).setPrevious s.parser.current := by
  subst h
  obtain ⟨⟨ts, ln⟩, pa, ch, er⟩ := s
  unfold advance
  rw [advance_loop]
  cases ts with
  | nil =>
    simp [scan_token, State.shift, State.setPrevious, lookahead, Scanner.eof]
  | cons t ts =>
    have ht : t.type ≠ TOKEN_ERROR := hok t (by simp)
    simp [scan_token, State.shift, State.setPrevious, lookahead, ht]

theorem setPrevious_shift (s : State V) (t : Token) (rest : List Token) :
    (s.setPrevious t).shift rest = (s.shift rest).setPrevious t := rfl

theorem setPrevious_setPrevious (s : State V) (t u : Token) :
    (s.setPrevious t).setPrevious u = s.setPrevious u := rfl

theorem shift_shift (s : State V) (rest rest2 : List Token) :
    (s.shift rest).shift rest2 = s.shift rest2 := rfl

theorem emit_byte_shift (s : State V) (b : Byte) (rest : List Token) :
    (emit_byte b s).shift rest = emit_byte b (s.shift rest) := rfl

theorem error_at_shift (s : State V) (t : Token) (m : String) (rest : List Token) :
    (error_at t m s).shift rest = error_at t m (s.shift rest) := by
  unfold error_at
  by_cases h : s.parser.panic_mode
  · have h2 : (s.shift rest).parser.panic_mode = true := h
    simp only [h, h2, if_true]
  · have h2 : ¬ (s.shift rest).parser.panic_mode = true := h
    simp only [h, h2, if_false]
    rfl

theorem number_shift (s : State V) (rest : List Token) :
    (number strtod s).shift rest = number strtod (s.shift rest) := by
  unfold number emit_constant make_constant
  by_cases h : (add_constant s.compilingChunk (strtod s.parser.previous.start)).2 > 255
  · have h2 : (add_constant (s.shift rest).compilingChunk
        (strtod (s.shift rest).parser.previous.start)).2 > 255 := h
    simp only [h, h2, if_true]
    unfold emit_bytes
    rw [emit_byte_shift, emit_byte_shift]
    unfold error
    rw [error_at_shift]
    rfl
  · have h2 : ¬ (add_constant (s.shift rest).compilingChunk
        (strtod (s.shift rest).parser.previous.start)).2 > 255 := h
    simp only [h, h2, if_false]
    rfl

theorem emit_shift (e : Expr) (s : State V) (rest : List Token) :
    (e.emit strtod s).shift rest = e.emit strtod (s.shift rest) := by
  induction e generalizing s with
  | num x => simp only [Expr.emit, number_shift, setPrevious_shift]
  | neg m e ih => simp only [Expr.emit, emit_byte_shift, ih]
  | group l e r ih => simp only [Expr.emit, setPrevious_shift, ih]
  | bin op o l r ihl ihr => simp only [Expr.emit, emit_byte_shift, ihl, ihr]

theorem emit_setPrevious (e : Expr) (s : State V) (t : Token) :
    e.emit strtod (s.setPrevious t) = e.emit strtod s := by
  induction e generalizing s with
  | num x => simp only [Expr.emit, setPrevious_setPrevious]
  | neg m e ih => simp only [Expr.emit, ih]
  | group l e r ih => simp only [Expr.emit, ih]
  | bin op o l r ihl _ => simp only [Expr.emit, ihl]

theorem error_at_current_eq (s : State V) (t : Token) (m : String) :
    (error_at t m s).parser.current = s.parser.current ∧
      (error_at t m s).parser.previous = s.parser.previous ∧
      (error_at t m s).scanner = s.scanner ∧
      (error_at t m s).compilingChunk = s.compilingChunk := by
  unfold error_at
  split <;> simp

theorem number_frame (s : State V) :
    (number strtod s).parser.current = s.parser.current ∧
      (number strtod s).parser.previous = s.parser.previous ∧
      (number strtod s).scanner = s.scanner := by
  unfold number emit_constant make_constant
  by_cases h : (add_constant s.compilingChunk (strtod s.parser.previous.start)).2 > 255
  · simp only [h, if_true]
    simp only [emit_bytes, emit_byte, error]
    have := error_at_current_eq
      ({ s with compilingChunk := (add_constant s.compilingChunk
        (strtod s.parser.previous.start)).1 } : State V)
      s.parser.previous "Too many constants in one chunk."
    exact ⟨this.1, this.2.1, this.2.2.1⟩
  · simp only [h, if_false]
    exact ⟨rfl, rfl, rfl⟩

theorem emit_frame (e : Expr) (s : State V) :
    (e.emit strtod s).parser.current = s.parser.current ∧
      (e.emit strtod s).parser.previous = e.last ∧
      (e.emit strtod s).scanner = s.scanner := by
  induction e generalizing s with
  | num x =>
    obtain ⟨h1, h2, h3⟩ := number_frame strtod (s.setPrevious (x.token TOKEN_NUMBER))
    exact ⟨h1, h2, h3⟩
  | neg m e ih =>
    obtain ⟨h1, h2, h3⟩ := ih s
    exact ⟨h1, h2, h3⟩
  | group l e r ih =>
    obtain ⟨h1, _, h3⟩ := ih s
    exact ⟨h1, rfl, h3⟩
  | bin op o l r ihl ihr =>
    obtain ⟨h1, _, h3⟩ := ihl s
    obtain ⟨k1, k2, k3⟩ := ihr (l.emit strtod s)
    exact ⟨k1.trans h1, k2, k3.trans h3⟩

end Shift

/-! ## Tokens of a tree -/

theorem tokens_eq_first (e : Expr) : ∃ tl, e.tokens = e.first :: tl := by
  induction e with
  | num x => exact ⟨[], rfl⟩
  | neg m e _ => exact ⟨_, rfl⟩
  | group l e r _ => exact ⟨_, rfl⟩
  | bin op o l r ihl _ =>
    obtain ⟨tl, h⟩ := ihl
    exact ⟨tl ++ o.token op.type :: r.tokens, by simp [Expr.tokens, Expr.first, h]⟩

theorem first_not_error (e : Expr) : e.first.type ≠ TOKEN_ERROR := by
  induction e with
  | num x => simp [Expr.first, Lexeme.token]
  | neg m e _ => simp [Expr.first, Lexeme.token]
  | group l e r _ => simp [Expr.first, Lexeme.token]
  | bin op o l r ihl _ => exact ihl

theorem literals_eq_filter (e : Expr) :
    e.literals = e.tokens.filter (fun t => decide (t.type = TOKEN_NUMBER)) := by
  induction e with
  | num x => simp [Expr.literals, Expr.tokens, Lexeme.token]
  | neg m e ih => simp [Expr.literals, Expr.tokens, Lexeme.token, ih]
  | group l e r ih => simp [Expr.literals, Expr.tokens, Lexeme.token, ih, List.filter_append]
  | bin op o l r ihl ihr =>
    cases op <;>
      simp [Expr.literals, Expr.tokens, Lexeme.token, BinOp.type, ihl, ihr, List.filter_append]

theorem literals_pos (e : Expr) : 0 < e.literals.length := by
  induction e with
  | num x => simp [Expr.literals]
  | neg m e ih => exact ih
  | group l e r ih => exact ih
  | bin op o l r ihl _ => simp only [Expr.literals, List.length_append]; omega

theorem get_rule_precedence_le (t : TokenType) : (get_rule t).precedence ≤ PREC_FACTOR := by
  cases t <;> decide

theorem binOp_rule (op : BinOp) :
    (get_rule op.type).precedence = op.level ∧ (get_rule op.type).infix_rule = some .binary := by
  cases op <;> exact ⟨rfl, rfl⟩

theorem binOp_level_le (op : BinOp) : PREC_TERM ≤ op.level ∧ op.level ≤ PREC_FACTOR := by
  cases op <;> decide

theorem expr_level_ge (e : Expr) : PREC_TERM ≤ e.level := by
  cases e with
  | bin op _ _ _ => exact (binOp_level_le op).1
  | _ => simp only [Expr.level]; decide

/-! ## The parser on a sentence of the grammar -/

section Pratt

variable {V : Type} (strtod : String → V)

theorem loop_exit_after (e : Expr) (s : State V) (rest : List Token) (p : Precedence)
    (h : (get_rule (lookahead s.scanner rest).type).precedence < p) :
    ∃ f, parse_loop strtod f p (e.emit strtod (s.shift rest)) =
      .ok (e.emit strtod (s.shift rest)) := by
  apply run_parse_loop_exit
  rw [(emit_frame strtod e (s.shift rest)).1]
  exact Nat.not_le.mpr h

/-- Parsing at level `p` a well-formed tree `e` of level at least `p`, followed by
tokens `rest` whose first is no operator binding tighter than `e`: the prefix
part and the loop iterations that build `e` leave the loop in the state where
`e` has been written and the look-ahead is at `rest`. -/
theorem pratt (e : Expr) (hwf : e.wf = true) :
    ∀ (p : Precedence) (s : State V) (rest : List Token) (r : State V),
      p ≤ e.level →
      s.parser.current :: s.scanner.tokens = e.tokens ++ rest →
      (∀ t ∈ rest.head?, t.type ≠ TOKEN_ERROR) →
      (get_rule (lookahead s.scanner rest).type).precedence ≤ e.level →
      (∃ f, parse_loop strtod f p (e.emit strtod (s.shift rest)) = .ok r) →
      ∃ f, parse_precedence strtod f p s = .ok r := by
  induction e with
  | num x =>
    intro p s rest r _ htok hok _ hloop
    simp only [Expr.tokens, List.singleton_append, List.cons.injEq] at htok
    have adv : advance s = (s.shift rest).setPrevious (x.token TOKEN_NUMBER) := by
      rw [advance_shift s rest htok.2 hok, htok.1]
    refine run_parse_precedence strtod p s (number strtod (advance s)) r .number ?_
      (run_number strtod _) ?_
    · rw [adv]; rfl
    · rw [adv]; exact hloop
  | neg m e ih =>
    intro p s rest r _ htok hok _ hloop
    simp only [Expr.wf, Bool.and_eq_true, decide_eq_true_eq] at hwf
    obtain ⟨tl, htl⟩ := tokens_eq_first e
    simp only [Expr.tokens, List.cons_append, List.cons.injEq] at htok
    have adv : advance s = (s.shift (e.tokens ++ rest)).setPrevious (m.token TOKEN_MINUS) := by
      rw [advance_shift s _ htok.2, htok.1]
      intro t ht
      rw [htl] at ht
      simp only [List.cons_append, List.head?_cons, Option.mem_def, Option.some.injEq] at ht
      rw [← ht]
      exact first_not_error e
    have hfac := get_rule_precedence_le (lookahead s.scanner rest).type
    have hinner := ih hwf.1 PREC_UNARY (advance s) rest
      (e.emit strtod ((advance s).shift rest)) hwf.2
      (by rw [adv, htl]; rfl) hok
      (by rw [adv]; exact le_trans hfac (le_trans (by decide) hwf.2))
      (loop_exit_after strtod e (advance s) rest PREC_UNARY
        (by rw [adv]; exact Nat.lt_of_le_of_lt hfac (by decide)))
    have hcall := run_unary strtod (advance s) _ (by rw [adv]; rfl) hinner
    refine run_parse_precedence strtod p s _ r .unary (by rw [adv]; rfl) hcall ?_
    rw [adv, setPrevious_shift, shift_shift, emit_setPrevious]
    exact hloop
  | group l e rp ih =>
    intro p s rest r _ htok hok _ hloop
    simp only [Expr.wf] at hwf
    obtain ⟨tl, htl⟩ := tokens_eq_first e
    simp only [Expr.tokens, List.cons_append, List.cons.injEq, List.append_assoc,
      List.singleton_append, List.nil_append] at htok
    have adv : advance s = (s.shift (e.tokens ++ rp.token TOKEN_RIGHT_PAREN :: rest)).setPrevious
        (l.token TOKEN_LEFT_PAREN) := by
      rw [advance_shift s _ htok.2, htok.1]
      intro t ht
      rw [htl] at ht
      simp only [List.cons_append, List.head?_cons, Option.mem_def, Option.some.injEq] at ht
      rw [← ht]
      exact first_not_error e
    have hinner := ih hwf PREC_ASSIGNMENT (advance s) (rp.token TOKEN_RIGHT_PAREN :: rest)
      (e.emit strtod ((advance s).shift (rp.token TOKEN_RIGHT_PAREN :: rest)))
      (le_trans (by decide) (expr_level_ge e))
      (by rw [adv, htl]; rfl)
      (by intro t ht
          simp only [List.head?_cons, Option.mem_def, Option.some.injEq] at ht
          rw [← ht]; simp [Lexeme.token])
      (Nat.zero_le _)
      (loop_exit_after strtod e (advance s) _ PREC_ASSIGNMENT Nat.zero_lt_one)
    have hcall := run_grouping strtod (advance s) _ hinner
    refine run_parse_precedence strtod p s _ r .grouping (by rw [adv]; rfl) hcall ?_
    have hcons : consume TOKEN_RIGHT_PAREN "Expect ')' after expression."
        (e.emit strtod ((advance s).shift (rp.token TOKEN_RIGHT_PAREN :: rest))) =
        (Expr.group l e rp).emit strtod (s.shift rest) := by
      obtain ⟨f1, f2, f3⟩ := emit_frame strtod e
        ((advance s).shift (rp.token TOKEN_RIGHT_PAREN :: rest))
      unfold consume
      have hc : (e.emit strtod ((advance s).shift
          (rp.token TOKEN_RIGHT_PAREN :: rest))).parser.current.type = TOKEN_RIGHT_PAREN := by
        rw [f1]; rfl
      simp only [hc, if_true]
      rw [advance_shift _ rest (by rw [f3]; rfl) hok, f1, adv]
      simp only [emit_shift, setPrevious_shift, shift_shift, emit_setPrevious]
      rfl
    rw [hcons]
    exact hloop
  | bin op o l rt ihl ihr =>
    intro p s rest r hp htok hok hfollow hloop
    simp only [Expr.wf, Bool.and_eq_true, decide_eq_true_eq] at hwf
    obtain ⟨⟨⟨hwl, hwr⟩, hll⟩, hlr⟩ := hwf
    obtain ⟨tl, htl⟩ := tokens_eq_first rt
    simp only [Expr.level] at hp hfollow
    simp only [Expr.tokens, List.append_assoc, List.cons_append] at htok
    refine ihl hwl p s (o.token op.type :: (rt.tokens ++ rest)) r (le_trans hp hll) htok
      (by intro t ht
          simp only [List.head?_cons, Option.mem_def, Option.some.injEq] at ht
          rw [← ht]; cases op <;> simp [Lexeme.token, BinOp.type])
      (by rw [show (lookahead s.scanner (o.token op.type :: (rt.tokens ++ rest))).type = op.type
            from rfl, (binOp_rule op).1]; exact hll)
      ?_
    -- the loop iteration that consumes the operator and its right operand
    obtain ⟨f1, f2, f3⟩ := emit_frame strtod l
      (s.shift (o.token op.type :: (rt.tokens ++ rest)))
    have adv : advance (l.emit strtod (s.shift (o.token op.type :: (rt.tokens ++ rest)))) =
        ((l.emit strtod (s.shift rest)).shift (rt.tokens ++ rest)).setPrevious
          (o.token op.type) := by
      rw [advance_shift _ (rt.tokens ++ rest) (by rw [f3]; rfl), f1, emit_shift, shift_shift,
        emit_shift, shift_shift]
      · rfl
      · intro t ht
        rw [htl] at ht
        simp only [List.cons_append, List.head?_cons, Option.mem_def, Option.some.injEq] at ht
        rw [← ht]
        exact first_not_error rt
    have hla : lookahead (((l.emit strtod (s.shift rest)).shift (rt.tokens ++ rest)).setPrevious
        (o.token op.type)).scanner rest = lookahead s.scanner rest := by
      show lookahead ⟨_, (l.emit strtod (s.shift rest)).scanner.line⟩ rest = _
      rw [(emit_frame strtod l (s.shift rest)).2.2]
      rfl
    have hinner := ihr hwr (op.level + 1)
      (advance (l.emit strtod (s.shift (o.token op.type :: (rt.tokens ++ rest))))) rest
      (rt.emit strtod ((advance (l.emit strtod
        (s.shift (o.token op.type :: (rt.tokens ++ rest))))).shift rest)) hlr
      (by rw [adv, htl]; rfl) hok
      (by rw [adv, hla]
          exact le_trans hfollow (le_trans (Nat.le_succ _) hlr))
      (loop_exit_after strtod rt _ rest (op.level + 1)
        (by rw [adv, hla]; exact Nat.lt_succ_of_le hfollow))
    have hprev : (advance (l.emit strtod
        (s.shift (o.token op.type :: (rt.tokens ++ rest))))).parser.previous.type = op.type := by
      rw [adv]; rfl
    have hcall := run_binary strtod _ _ (by rw [hprev, (binOp_rule op).1]; exact hinner)
    refine run_parse_loop_step strtod p _ _ r .binary ?_ (by rw [hprev]; exact (binOp_rule op).2)
      hcall ?_
    · rw [f1]
      show p ≤ (get_rule op.type).precedence
      rw [(binOp_rule op).1]
      exact hp
    · have hfin : (match (advance (l.emit strtod
            (s.shift (o.token op.type :: (rt.tokens ++ rest))))).parser.previous.type with
          | TOKEN_PLUS => emit_byte OP_ADD.toByte (rt.emit strtod ((advance (l.emit strtod
              (s.shift (o.token op.type :: (rt.tokens ++ rest))))).shift rest))
          | TOKEN_MINUS => emit_byte OP_SUBTRACT.toByte (rt.emit strtod ((advance (l.emit strtod
              (s.shift (o.token op.type :: (rt.tokens ++ rest))))).shift rest))
          | TOKEN_STAR => emit_byte OP_MULTIPLY.toByte (rt.emit strtod ((advance (l.emit strtod
              (s.shift (o.token op.type :: (rt.tokens ++ rest))))).shift rest))
          | TOKEN_SLASH => emit_byte OP_DIVIDE.toByte (rt.emit strtod ((advance (l.emit strtod
              (s.shift (o.token op.type :: (rt.tokens ++ rest))))).shift rest))
          | _ => rt.emit strtod ((advance (l.emit strtod
              (s.shift (o.token op.type :: (rt.tokens ++ rest))))).shift rest)) =
          (Expr.bin op o l rt).emit strtod (s.shift rest) := by
        rw [hprev, adv, setPrevious_shift, shift_shift, emit_setPrevious, emit_shift, shift_shift]
        cases op <;> rfl
      rw [hfin]
      exact hloop

end Pratt

/-! ## Termination: the fuel `compile` supplies suffices -/

section Totality

variable {V : Type} (strtod : String → V)

theorem error_at_pending (t : Token) (m : String) (s : State V) :
    (error_at t m s).pending = s.pending := by
  obtain ⟨h1, _, h3, _⟩ := error_at_current_eq s t m
  simp only [State.pending, h1, h3]

theorem advance_loop_spec (n : Nat) (s : State V) (h : s.scanner.tokens.length < n) :
    (advance_loop n s).pending ≤ s.scanner.tokens.length ∧
      (advance_loop n s).parser.previous = s.parser.previous ∧
      (advance_loop n s).compilingChunk = s.compilingChunk ∧
      (advance_loop n s).parser.current.type ≠ TOKEN_ERROR := by
  induction n generalizing s with
  | zero => omega
  | succ n ih =>
    obtain ⟨⟨ts, ln⟩, pa, ch, er⟩ := s
    rw [advance_loop]
    cases ts with
    | nil =>
      simp [scan_token, State.pending, Scanner.eof]
    | cons t ts =>
      by_cases ht : t.type = TOKEN_ERROR
      · simp only [scan_token, ht, ne_eq, not_true_eq_false, if_false]
        simp only [List.length_cons, Nat.add_lt_add_iff_right] at h
        obtain ⟨i1, i2, i3, i4⟩ := ih (error_at_current t.start
          { scanner := { tokens := ts, line := ln }, parser := { pa with current := t },
            compilingChunk := ch, stderr := er })
          (by rw [error_at_current, (error_at_current_eq _ _ _).2.2.1]; exact h)
        simp only [error_at_current] at i1 i2 i3 i4
        rw [(error_at_current_eq _ _ _).2.2.1] at i1
        rw [(error_at_current_eq _ _ _).2.1] at i2
        rw [(error_at_current_eq _ _ _).2.2.2] at i3
        exact ⟨le_trans (show _ ≤ ts.length from i1) (by simp), i2, i3, i4⟩
      · simp only [scan_token, ne_eq, ht, not_false_eq_true, if_true, State.pending,
          List.length_cons, and_self, and_true]
        split <;> omega

theorem advance_spec (s : State V) :
    (advance s).pending ≤ s.scanner.tokens.length ∧
      (advance s).parser.previous = s.parser.current ∧
      (advance s).compilingChunk = s.compilingChunk ∧
      (advance s).parser.current.type ≠ TOKEN_ERROR :=
  advance_loop_spec _ _ (Nat.lt_succ_self _)

theorem advance_pending_le (s : State V) : (advance s).pending ≤ s.pending :=
  le_trans (advance_spec s).1 (Nat.le_add_right _ _)

theorem advance_pending_lt (s : State V) (h : s.parser.current.type ≠ TOKEN_EOF) :
    (advance s).pending + 1 ≤ s.pending := by
  have := (advance_spec s).1
  simp only [State.pending, h, if_false] at this ⊢
  omega

theorem emit_byte_pending (b : Byte) (s : State V) : (emit_byte b s).pending = s.pending := rfl

theorem number_pending (s : State V) : (number strtod s).pending = s.pending := by
  obtain ⟨h1, _, h3⟩ := number_frame strtod s
  simp only [State.pending, h1, h3]

theorem consume_pending_le (t : TokenType) (m : String) (s : State V) :
    (consume t m s).pending ≤ s.pending := by
  unfold consume
  split
  · exact advance_pending_le s
  · exact le_of_eq (error_at_pending _ _ _)

theorem prefix_rule_not_eof (t : TokenType) (fn : ParseFn)
    (h : (get_rule t).prefix_rule = some fn) : t ≠ TOKEN_EOF := by
  intro h2; subst h2; simp [get_rule] at h

theorem precedence_pos_operator (t : TokenType) (h : 1 ≤ (get_rule t).precedence) :
    t ≠ TOKEN_EOF ∧ (get_rule t).infix_rule = some .binary := by
  cases t <;> first | exact absurd h (by decide) | exact ⟨by decide, rfl⟩

/-- With fuel for four steps per pending token, every function returns, and
leaves no more tokens pending than it found. -/
theorem total_step (f : Nat) :
    (∀ s : State V, 4 * s.pending + 2 ≤ f →
      ∃ r, binary strtod f s = .ok r ∧ r.pending ≤ s.pending) ∧
    (∀ s : State V, 4 * s.pending + 3 ≤ f →
      ∃ r, grouping strtod f s = .ok r ∧ r.pending ≤ s.pending) ∧
    (∀ s : State V, 4 * s.pending + 2 ≤ f →
      ∃ r, unary strtod f s = .ok r ∧ r.pending ≤ s.pending) ∧
    (∀ fn (s : State V), 4 * s.pending + 4 ≤ f →
      ∃ r, call_fn strtod f fn s = .ok r ∧ r.pending ≤ s.pending) ∧
    (∀ p (s : State V), 1 ≤ p → 4 * s.pending + 1 ≤ f →
      ∃ r, parse_precedence strtod f p s = .ok r ∧ r.pending ≤ s.pending) ∧
    (∀ p (s : State V), 1 ≤ p → 4 * s.pending + 1 ≤ f →
      ∃ r, parse_loop strtod f p s = .ok r ∧ r.pending ≤ s.pending) ∧
    (∀ s : State V, 4 * s.pending + 2 ≤ f →
      ∃ r, expression strtod f s = .ok r ∧ r.pending ≤ s.pending) := by
  induction f with
  | zero =>
    refine ⟨?_, ?_, ?_, ?_, ?_, ?_, ?_⟩ <;> intros <;> omega
  | succ f ih =>
    obtain ⟨hb, hg, hu, hc, hp, hl, he⟩ := ih
    refine ⟨?_, ?_, ?_, ?_, ?_, ?_, ?_⟩
    · intro s hf
      obtain ⟨r, h1, h2⟩ := hp ((get_rule s.parser.previous.type).precedence + 1) s
        (Nat.le_add_left _ _) (by omega)
      rw [binary]
      simp only [h1]
      split <;> exact ⟨_, rfl, h2⟩
    · intro s hf
      obtain ⟨r, h1, h2⟩ := he s (by omega)
      rw [grouping]
      simp only [h1]
      exact ⟨_, rfl, le_trans (consume_pending_le _ _ _) h2⟩
    · intro s hf
      obtain ⟨r, h1, h2⟩ := hp PREC_UNARY s (by decide) (by omega)
      rw [unary]
      simp only [h1]
      split <;> exact ⟨_, rfl, h2⟩
    · intro fn s hf
      cases fn with
      | grouping => rw [call_fn]; exact hg s (by omega)
      | number => rw [call_fn]; exact ⟨_, rfl, le_of_eq (number_pending strtod s)⟩
      | unary => rw [call_fn]; exact hu s (by omega)
      | binary => rw [call_fn]; exact hb s (by omega)
    · intro p s h1p hf
      rw [parse_precedence]
      cases hr : (get_rule (advance s).parser.previous.type).prefix_rule with
      | none =>
        exact ⟨_, rfl, by rw [error, error_at_pending]; exact advance_pending_le s⟩
      | some fn =>
        rw [(advance_spec s).2.1] at hr
        have hlt := advance_pending_lt s (prefix_rule_not_eof _ _ hr)
        obtain ⟨r2, c1, c2⟩ := hc fn (advance s) (by omega)
        obtain ⟨r, l1, l2⟩ := hl p r2 h1p (by omega)
        simp only [c1]
        exact ⟨r, l1, by omega⟩
    · intro p s h1p hf
      rw [parse_loop]
      by_cases hcond : p ≤ (get_rule s.parser.current.type).precedence
      · obtain ⟨hne, hin⟩ := precedence_pos_operator _ (le_trans h1p hcond)
        have hlt := advance_pending_lt s hne
        simp only [hcond, if_true, (advance_spec s).2.1, hin]
        obtain ⟨r2, c1, c2⟩ := hc .binary (advance s) (by omega)
        obtain ⟨r, l1, l2⟩ := hl p r2 h1p (by omega)
        simp only [c1]
        exact ⟨r, l1, by omega⟩
      · simp only [hcond, if_false]
        exact ⟨s, rfl, le_refl _⟩
    · intro s hf
      rw [expression]
      exact hp PREC_ASSIGNMENT s (by decide) (by omega)

theorem expression_total (s : State V) (f : Nat) (h : 4 * s.pending + 2 ≤ f) :
    ∃ r, expression strtod f s = .ok r :=
  let ⟨r, h1, _⟩ := (total_step strtod f).2.2.2.2.2.2 s h
  ⟨r, h1⟩

end Totality

/-! ## What compiling a tree writes -/

section Emit

variable {V : Type} (strtod : String → V)

theorem error_at_flags (t : Token) (m : String) (s : State V) :
    ((error_at t m s).parser.panic_mode = true) ∧
      ((error_at t m s).parser.had_error = true ↔
        (s.parser.had_error = true ∨ s.parser.panic_mode = false)) ∧
      (s.parser.panic_mode = true → (error_at t m s).stderr = s.stderr) ∧
      (s.parser.panic_mode = false →
        (error_at t m s).stderr = s.stderr ++ [{ token := t, message := m }]) := by
  unfold error_at
  cases h : s.parser.panic_mode <;> simp [h]

theorem number_spec (s : State V) (hwf : s.compilingChunk.WF) :
    (number strtod s).compilingChunk.WF ∧
      (number strtod s).compilingChunk.stream = s.compilingChunk.stream ++
        [OP_CONSTANT.toByte, degraded_operand s.compilingChunk.constants.count] ∧
      (number strtod s).compilingChunk.lineTable = s.compilingChunk.lineTable ++
        [s.parser.previous.line, s.parser.previous.line] ∧
      (number strtod s).compilingChunk.constants.values =
        s.compilingChunk.constants.values ++ [strtod s.parser.previous.start] ∧
      ((number strtod s).parser.panic_mode = true ↔
        (s.parser.panic_mode = true ∨ 255 < s.compilingChunk.constants.count)) ∧
      ((number strtod s).parser.had_error = true ↔
        (s.parser.had_error = true ∨
          (s.parser.panic_mode = false ∧ 255 < s.compilingChunk.constants.count))) ∧
      (s.parser.panic_mode = true → (number strtod s).stderr = s.stderr) ∧
      (s.parser.panic_mode = false → (number strtod s).stderr = s.stderr ++
        (if 255 < s.compilingChunk.constants.count
          then [too_many_constants s.parser.previous] else [])) := by
  have hidx : (add_constant s.compilingChunk (strtod s.parser.previous.start)).2 =
      s.compilingChunk.constants.count := by
    simp [add_constant, write_value_array, ValueArray.count]
  have hwf1 : (add_constant s.compilingChunk (strtod s.parser.previous.start)).1.WF := hwf
  have hw1 := write_chunk_WF _ OP_CONSTANT.toByte s.parser.previous.line hwf1
  unfold number emit_constant make_constant
  simp only [hidx]
  by_cases hk : s.compilingChunk.constants.count > 255
  · simp only [hk, if_true]
    obtain ⟨e1, e2, e3, e4⟩ := error_at_current_eq
      ({ s with compilingChunk := (add_constant s.compilingChunk
        (strtod s.parser.previous.start)).1 } : State V)
      s.parser.previous "Too many constants in one chunk."
    obtain ⟨g1, g2, g3, g4⟩ := error_at_flags s.parser.previous
      "Too many constants in one chunk."
      ({ s with compilingChunk := (add_constant s.compilingChunk
        (strtod s.parser.previous.start)).1 } : State V)
    simp only [emit_bytes, emit_byte, error, e2, e4]
    refine ⟨write_chunk_WF _ _ _ hw1, ?_, ?_, ?_, ?_, ?_, ?_, ?_⟩
    · rw [write_chunk_stream _ _ _ hw1, write_chunk_stream _ _ _ hwf1]
      simp [degraded_operand, hk, Chunk.stream, add_constant]
    · rw [write_chunk_lineTable _ _ _ hw1, write_chunk_lineTable _ _ _ hwf1]
      simp [Chunk.lineTable, add_constant]
    · rw [write_chunk_constants, write_chunk_constants]
      simp [add_constant, write_value_array]
    · simp only [g1, true_iff]; exact Or.inr trivial
    · rw [g2]
      constructor
      · rintro (h | h)
        · exact Or.inl h
        · exact Or.inr ⟨h, trivial⟩
      · rintro (h | h)
        · exact Or.inl h
        · exact Or.inr h.1
    · exact g3
    · intro h
      rw [g4 h]
      simp [too_many_constants, hk]
  · simp only [hk, if_false]
    simp only [emit_bytes, emit_byte]
    refine ⟨write_chunk_WF _ _ _ hw1, ?_, ?_, ?_, ?_, ?_, ?_, ?_⟩
    · rw [write_chunk_stream _ _ _ hw1, write_chunk_stream _ _ _ hwf1]
      simp [degraded_operand, hk, Chunk.stream, add_constant]
    · rw [write_chunk_lineTable _ _ _ hw1, write_chunk_lineTable _ _ _ hwf1]
      simp [Chunk.lineTable, add_constant]
    · rw [write_chunk_constants, write_chunk_constants]
      simp [add_constant, write_value_array]
    · simp [show ¬ 255 < s.compilingChunk.constants.count from hk]
    · simp [show ¬ 255 < s.compilingChunk.constants.count from hk]
    · intro _; trivial
    · intro _; simp [show ¬ 255 < s.compilingChunk.constants.count from hk]

theorem emit_byte_spec (b : Byte) (s : State V) (hwf : s.compilingChunk.WF) :
    (emit_byte b s).compilingChunk.WF ∧
      (emit_byte b s).compilingChunk.stream = s.compilingChunk.stream ++ [b] ∧
      (emit_byte b s).compilingChunk.lineTable =
        s.compilingChunk.lineTable ++ [s.parser.previous.line] ∧
      (emit_byte b s).compilingChunk.constants = s.compilingChunk.constants ∧
      (emit_byte b s).parser = s.parser ∧ (emit_byte b s).stderr = s.stderr ∧
      (emit_byte b s).scanner = s.scanner :=
  ⟨write_chunk_WF _ _ _ hwf, write_chunk_stream _ _ _ hwf, write_chunk_lineTable _ _ _ hwf,
    write_chunk_constants _ _ _, rfl, rfl, rfl⟩

theorem drop_take_one_append {α : Type} (xs ys : List α) (j : Nat) :
    ((xs ++ ys).drop j).take 1 =
      if j < xs.length then (xs.drop j).take 1 else (ys.drop (j - xs.length)).take 1 := by
  split
  · rename_i h
    rw [List.drop_append_of_le_length (Nat.le_of_lt h)]
    cases hd : xs.drop j with
    | nil =>
      have := congrArg List.length hd
      simp at this
      omega
    | cons a as => rfl
  · rename_i h
    rw [List.drop_append_eq_append_drop, List.drop_of_length_le (Nat.le_of_not_lt h)]
    rfl

/-- The writes of a tree, in closed form: the bytes and lines appended, the
constants appended, and the one diagnostic of the first literal that finds the
pool full. -/
theorem emit_spec (e : Expr) : ∀ (s : State V), s.compilingChunk.WF →
    (e.emit strtod s).compilingChunk.WF ∧
      (e.emit strtod s).compilingChunk.stream = s.compilingChunk.stream ++
        e.code degraded_operand s.compilingChunk.constants.count ∧
      (e.emit strtod s).compilingChunk.lineTable = s.compilingChunk.lineTable ++ e.lines ∧
      (e.emit strtod s).compilingChunk.constants.values =
        s.compilingChunk.constants.values ++ e.literals.map (fun t => strtod t.start) ∧
      ((e.emit strtod s).parser.panic_mode = true ↔
        (s.parser.panic_mode = true ∨
          256 < s.compilingChunk.constants.count + e.literals.length)) ∧
      ((e.emit strtod s).parser.had_error = true ↔
        (s.parser.had_error = true ∨ (s.parser.panic_mode = false ∧
          256 < s.compilingChunk.constants.count + e.literals.length))) ∧
      (s.parser.panic_mode = true → (e.emit strtod s).stderr = s.stderr) ∧
      (s.parser.panic_mode = false → (e.emit strtod s).stderr = s.stderr ++
        ((e.literals.drop (256 - s.compilingChunk.constants.count)).take 1).map
          too_many_constants) := by
  induction e with
  | num x =>
    intro s hwf
    obtain ⟨h1, h2, h3, h4, h5, h6, h7, h8⟩ :=
      number_spec strtod (s.setPrevious (x.token TOKEN_NUMBER)) hwf
    refine ⟨h1, h2, h3, h4, ?_, ?_, h7, ?_⟩
    · rw [Expr.emit, h5]
      simp only [State.setPrevious, Expr.literals, List.length_singleton]
      constructor <;> rintro (h | h) <;> first | exact Or.inl h | exact Or.inr (by omega)
    · rw [Expr.emit, h6]
      simp only [State.setPrevious, Expr.literals, List.length_singleton]
      constructor <;> rintro (h | h) <;>
        first | exact Or.inl h | exact Or.inr ⟨h.1, by omega⟩
    · intro hp
      rw [Expr.emit, h8 hp]
      simp only [State.setPrevious, Expr.literals]
      by_cases hk : 255 < s.compilingChunk.constants.count
      · have h0 : 256 - s.compilingChunk.constants.count = 0 := by omega
        simp [hk, h0]
      · have h0 : 256 - s.compilingChunk.constants.count =
            (256 - s.compilingChunk.constants.count - 1) + 1 := by omega
        rw [h0]
        simp [hk]
  | neg m e ih =>
    intro s hwf
    obtain ⟨h1, h2, h3, h4, h5, h6, h7, h8⟩ := ih s hwf
    obtain ⟨b1, b2, b3, b4, b5, b6, _⟩ := emit_byte_spec OP_NEGATE.toByte (e.emit strtod s) h1
    simp only [Expr.emit, Expr.code, Expr.lines, Expr.literals]
    refine ⟨b1, ?_, ?_, ?_, ?_, ?_, ?_, ?_⟩
    · rw [b2, h2, List.append_assoc]
    · rw [b3, h3, (emit_frame strtod e s).2.1, List.append_assoc]
    · rw [b4, h4]
    · rw [b5]; exact h5
    · rw [b5]; exact h6
    · rw [b6]; exact h7
    · rw [b6]; exact h8
  | group l e r ih =>
    intro s hwf
    exact ih s hwf
  | bin op o l r ihl ihr =>
    intro s hwf
    obtain ⟨h1, h2, h3, h4, h5, h6, h7, h8⟩ := ihl s hwf
    obtain ⟨g1, g2, g3, g4, g5, g6, g7, g8⟩ := ihr (l.emit strtod s) h1
    obtain ⟨b1, b2, b3, b4, b5, b6, _⟩ :=
      emit_byte_spec op.opcode.toByte (r.emit strtod (l.emit strtod s)) g1
    have hk : (l.emit strtod s).compilingChunk.constants.count =
        s.compilingChunk.constants.count + l.literals.length := by
      simp [ValueArray.count, h4]
    rw [hk] at g2 g5 g6 g8
    simp only [Expr.emit, Expr.code, Expr.lines, Expr.literals, List.length_append,
      List.map_append]
    refine ⟨b1, ?_, ?_, ?_, ?_, ?_, ?_, ?_⟩
    · rw [b2, g2, h2]; simp only [List.append_assoc]
    · rw [b3, g3, h3, (emit_frame strtod r (l.emit strtod s)).2.1]
      simp only [List.append_assoc]
    · rw [b4, g4, h4, List.append_assoc]
    · rw [b5, g5, h5]
      constructor
      · rintro ((h | h) | h)
        · exact Or.inl h
        · exact Or.inr (by omega)
        · exact Or.inr (by omega)
      · rintro (h | h)
        · exact Or.inl (Or.inl h)
        · exact Or.inr (by omega)
    · rw [b5, g6, h6]
      constructor
      · rintro ((h | h) | h)
        · exact Or.inl h
        · exact Or.inr ⟨h.1, by omega⟩
        · obtain ⟨hp, hn⟩ := h
          cases hq : s.parser.panic_mode with
          | true =>
            have : (l.emit strtod s).parser.panic_mode = true := h5.mpr (Or.inl hq)
            rw [this] at hp
            exact absurd hp (by decide)
          | false => exact Or.inr ⟨rfl, by omega⟩
      · rintro (h | ⟨hp, hn⟩)
        · exact Or.inl (Or.inl h)
        · by_cases hl : 256 < s.compilingChunk.constants.count + l.literals.length
          · exact Or.inl (Or.inr ⟨hp, hl⟩)
          · refine Or.inr ⟨?_, by omega⟩
            cases hq : (l.emit strtod s).parser.panic_mode with
            | false => rfl
            | true =>
              rcases h5.mp hq with h | h
              · rw [hp] at h; exact absurd h (by decide)
              · exact absurd h hl
    · intro hp
      rw [b6, g7 (h5.mpr (Or.inl hp)), h7 hp]
    · intro hp
      rw [b6, h8 hp] at *
      rw [drop_take_one_append]
      by_cases hl : 256 < s.compilingChunk.constants.count + l.literals.length
      · have hlt : 256 - s.compilingChunk.constants.count < l.literals.length := by
          have := literals_pos l
          omega
        rw [g7 (h5.mpr (Or.inr hl)), h8 hp]
        simp only [hlt, if_true]
      · have hlt : ¬ 256 - s.compilingChunk.constants.count < l.literals.length := by omega
        have hq : (l.emit strtod s).parser.panic_mode = false := by
          cases hq : (l.emit strtod s).parser.panic_mode with
          | false => rfl
          | true =>
            rcases h5.mp hq with h | h
            · rw [hp] at h; exact absurd h (by decide)
            · exact absurd h hl
        rw [g8 hq, h8 hp]
        simp only [hlt, if_false]
        have hd : l.literals.drop (256 - s.compilingChunk.constants.count) = [] :=
          List.drop_of_length_le (by omega)
        have hsub : 256 - (s.compilingChunk.constants.count + l.literals.length) =
            256 - s.compilingChunk.constants.count - l.literals.length := by omega
        rw [hd, hsub]
        simp

end Emit

/-! ## `compile` on a sentence of the grammar -/

section Sentence

variable {V : Type} (strtod : String → V)

theorem expression_of_run (s r : State V) (f : Nat) (hf : 4 * s.pending + 2 ≤ f)
    (h : ∃ g, parse_precedence strtod g PREC_ASSIGNMENT s = .ok r) :
    expression strtod f s = .ok r := by
  obtain ⟨g, hg⟩ := h
  obtain ⟨r2, h2⟩ := expression_total strtod s f hf
  have h3 : expression strtod (g + 1) s = .ok r := by rw [expression]; exact hg
  have a := expression_mono strtod (le_max_left f (g + 1)) _ _ h2
  have b := expression_mono strtod (le_max_right f (g + 1)) _ _ h3
  rw [a] at b
  rw [h2]
  exact b

/-- The final state of `compile` on the tokens of a well-formed tree. -/
theorem compile_state_sentence (e : Expr) (hwf : e.wf = true) (line : Int) (chunk : Chunk V) :
    compile_state strtod { tokens := e.tokens, line := line } chunk =
      .ok (emit_return ((e.emit strtod
        ((compile_init { tokens := e.tokens, line := line } chunk).shift [])).setPrevious
          { type := TOKEN_EOF, start := "", line := line })) := by
  obtain ⟨tl, htl⟩ := tokens_eq_first e
  have adv : advance (compile_init { tokens := e.tokens, line := line } chunk) =
      ((compile_init { tokens := e.tokens, line := line } chunk).shift e.tokens).setPrevious
        Parser.zero.current := by
    rw [advance_shift _ e.tokens rfl]
    · rfl
    · intro t ht
      rw [htl] at ht
      simp only [List.head?_cons, Option.mem_def, Option.some.injEq] at ht
      rw [← ht]
      exact first_not_error e
  have hrun := pratt strtod e hwf PREC_ASSIGNMENT
    (advance (compile_init { tokens := e.tokens, line := line } chunk)) []
    (e.emit strtod ((advance (compile_init { tokens := e.tokens, line := line } chunk)).shift []))
    (le_trans (by decide) (expr_level_ge e))
    (by rw [adv, htl]; simp [State.shift, State.setPrevious, lookahead])
    (by simp) (Nat.zero_le _)
    (loop_exit_after strtod e _ [] PREC_ASSIGNMENT Nat.zero_lt_one)
  have hexp := expression_of_run strtod _ _ (compile_fuel e.tokens.length)
    (by have := (advance_spec (compile_init { tokens := e.tokens, line := line } chunk)).1
        simp only [compile_init] at this
        simp only [compile_fuel, compile_init]
        omega) hrun
  unfold compile_state
  simp only [hexp]
  obtain ⟨f1, f2, f3⟩ := emit_frame strtod e
    ((advance (compile_init { tokens := e.tokens, line := line } chunk)).shift [])
  have hc : (e.emit strtod ((advance (compile_init { tokens := e.tokens, line := line }
      chunk)).shift [])).parser.current.type = TOKEN_EOF := by
    rw [f1]; rfl
  unfold consume
  simp only [hc, if_true]
  rw [advance_shift _ [] (by rw [f3]; rfl) (by simp), f1, adv]
  simp only [emit_shift, setPrevious_shift, shift_shift, emit_setPrevious]
  rfl

/-- The result of `compile` on the tokens of a well-formed tree, in closed form. -/
theorem compile_sentence (e : Expr) (hwf : e.wf = true) (line : Int) :
    ∃ s : State V, compile_state strtod { tokens := e.tokens, line := line } init_chunk = .ok s ∧
      s.compilingChunk.stream = e.code degraded_operand 0 ++ [OP_RETURN.toByte] ∧
      s.compilingChunk.lineTable = e.lines ++ [line] ∧
      s.compilingChunk.constants.values = e.literals.map (fun t => strtod t.start) ∧
      (s.parser.had_error = true ↔ 256 < e.literals.length) ∧
      s.stderr = ((e.literals.drop 256).take 1).map too_many_constants := by
  refine ⟨_, compile_state_sentence strtod e hwf line init_chunk, ?_⟩
  obtain ⟨h1, h2, h3, h4, _, h6, _, h8⟩ := emit_spec strtod e
    ((compile_init { tokens := e.tokens, line := line } (init_chunk : Chunk V)).shift [])
    init_chunk_WF
  have h8 := h8 rfl
  obtain ⟨b1, b2, b3, b4, b5, b6, _⟩ := emit_byte_spec OP_RETURN.toByte
    ((e.emit strtod ((compile_init { tokens := e.tokens, line := line }
      (init_chunk : Chunk V)).shift [])).setPrevious
        { type := TOKEN_EOF, start := "", line := line }) h1
  unfold emit_return
  refine ⟨?_, ?_, ?_, ?_, ?_⟩
  · rw [b2]
    simp only [State.setPrevious]
    rw [h2]
    rfl
  · rw [b3]
    simp only [State.setPrevious]
    rw [h3]
    rfl
  · rw [b4]
    simp only [State.setPrevious]
    rw [h4]
    rfl
  · rw [b5]
    simp only [State.setPrevious]
    rw [h6]
    simp [compile_init, State.shift, init_chunk, init_value_array, ValueArray.count]
  · rw [b6]
    simp only [State.setPrevious]
    rw [h8]
    simp [compile_init, State.shift, init_chunk, init_value_array, ValueArray.count]

theorem compile_of_state (source : Scanner) (chunk : Chunk V) (s : State V)
    (h : compile_state strtod source chunk = .ok s) :
    compile strtod source chunk = .ok (!s.parser.had_error) := by
  unfold compile
  rw [h]

theorem code_congr (e : Expr) (f g : Nat → Byte) (k : Nat)
    (h : ∀ i, i < k + e.literals.length → f i = g i) : e.code f k = e.code g k := by
  induction e generalizing k with
  | num x => simp only [Expr.code]; rw [h k (by simp [Expr.literals])]
  | neg m e ih => simp only [Expr.code]; rw [ih k h]
  | group l e r ih => simp only [Expr.code]; exact ih k h
  | bin op o l r ihl ihr =>
    simp only [Expr.code]
    simp only [Expr.literals, List.length_append] at h
    rw [ihl k (fun i hi => h i (by omega)), ihr (k + l.literals.length) (fun i hi => h i (by omega))]

theorem had_error_false_of_le (s : State V) (n : Nat)
    (h : s.parser.had_error = true ↔ 256 < n) (hn : n ≤ 256) : s.parser.had_error = false := by
  cases hs : s.parser.had_error with
  | false => rfl
  | true => exact absurd (h.mp hs) (by omega)

/-- What `compile` returns and leaves in the chunk for a well-formed tree with at
most 256 literals. -/
theorem compile_small_sentence (e : Expr) (hwf : e.wf = true) (hn : e.literals.length ≤ 256)
    (line : Int) :
    compile strtod { tokens := e.tokens, line := line } init_chunk = .ok true ∧
      ∃ s : State V,
        compile_state strtod { tokens := e.tokens, line := line } init_chunk = .ok s ∧
        s.compilingChunk.constants.values = e.literals.map (fun t => strtod t.start) ∧
        s.compilingChunk.stream = e.code (fun i => Fin.ofNat i) 0 ++ [OP_RETURN.toByte] ∧
        s.stderr = [] := by
  obtain ⟨s, h1, h2, _, h4, h5, h6⟩ := compile_sentence strtod e hwf line
  have hne := had_error_false_of_le s _ h5 hn
  refine ⟨?_, s, h1, h4, ?_, ?_⟩
  · rw [compile_of_state strtod _ _ s h1, hne]; rfl
  · rw [h2, code_congr e degraded_operand (fun i => Fin.ofNat i) 0]
    intro i hi
    have : ¬ i > 255 := by omega
    simp only [degraded_operand, this, if_false]
  · rw [h6, List.drop_of_length_le hn]; rfl

theorem advance_loop_panic (n : Nat) (s : State V) (h : s.parser.panic_mode = true) :
    (advance_loop n s).stderr = s.stderr ∧
      (advance_loop n s).parser.had_error = s.parser.had_error ∧
      (advance_loop n s).parser.panic_mode = true := by
  induction n generalizing s with
  | zero => exact ⟨rfl, rfl, h⟩
  | succ n ih =>
    rw [advance_loop]
    simp only
    split
    · exact ⟨rfl, rfl, h⟩
    · have he : ∀ (m : String) (s2 : State V), s2.parser.panic_mode = true →
          error_at_current m s2 = s2 := by
        intro m s2 h2
        simp [error_at_current, error_at, h2]
      rw [he]
      · exact ih _ h
      · exact h

theorem advance_panic (s : State V) (h : s.parser.panic_mode = true) :
    (advance s).stderr = s.stderr ∧ (advance s).parser.had_error = s.parser.had_error ∧
      (advance s).parser.panic_mode = true :=
  advance_loop_panic _ _ h

theorem consume_panic (t : TokenType) (m : String) (s : State V)
    (h : s.parser.panic_mode = true) :
    (consume t m s).stderr = s.stderr ∧
      (consume t m s).parser.had_error = s.parser.had_error ∧
      (consume t m s).parser.panic_mode = true := by
  unfold consume
  split
  · exact advance_panic s h
  · simp [error_at_current, error_at, h]

/-- The final state of `compile` on `'(' e rest` when the token after `e` can
neither close the group nor continue the expression. -/
theorem compile_state_unterminated (e : Expr) (hwf : e.wf = true) (left : Lexeme)
    (rest : List Token) (line : Int) (chunk : Chunk V)
    (hne : (lookahead { tokens := rest, line := line } rest).type ≠ TOKEN_ERROR)
    (hnp : (lookahead { tokens := rest, line := line } rest).type ≠ TOKEN_RIGHT_PAREN)
    (hprec : (get_rule (lookahead { tokens := rest, line := line } rest).type).precedence = 0) :
    compile_state strtod
        { tokens := left.token TOKEN_LEFT_PAREN :: (e.tokens ++ rest), line := line } chunk =
      .ok (end_compiler (consume TOKEN_EOF "Expect end of expression."
        (error_at (lookahead { tokens := rest, line := line } rest)
          "Expect ')' after expression."
          (e.emit strtod ((compile_init
            { tokens := left.token TOKEN_LEFT_PAREN :: (e.tokens ++ rest), line := line }
              chunk).shift rest))))) := by
  obtain ⟨tl, htl⟩ := tokens_eq_first e
  have hok : ∀ t ∈ rest.head?, t.type ≠ TOKEN_ERROR := by
    intro t ht
    cases rest with
    | nil => simp at ht
    | cons a as =>
      simp only [List.head?_cons, Option.mem_def, Option.some.injEq] at ht
      subst ht
      exact hne
  generalize hs0 : compile_init
    { tokens := left.token TOKEN_LEFT_PAREN :: (e.tokens ++ rest), line := line } chunk = s0
  have hl0 : ∀ xs, lookahead s0.scanner xs = lookahead { tokens := rest, line := line } xs := by
    intro xs; rw [← hs0]; rfl
  have adv1 : advance s0 = (s0.shift (left.token TOKEN_LEFT_PAREN :: (e.tokens ++ rest))).setPrevious
      Parser.zero.current := by
    rw [advance_shift s0 (left.token TOKEN_LEFT_PAREN :: (e.tokens ++ rest))
      (by rw [← hs0]; rfl)]
    · rw [← hs0]; rfl
    · intro t ht
      simp only [List.head?_cons, Option.mem_def, Option.some.injEq] at ht
      rw [← ht]; simp [Lexeme.token]
  have adv2 : advance (advance s0) =
      (s0.shift (e.tokens ++ rest)).setPrevious (left.token TOKEN_LEFT_PAREN) := by
    rw [advance_shift (advance s0) (e.tokens ++ rest) (by rw [adv1]; rfl)]
    · rw [adv1]; rfl
    · intro t ht
      rw [htl] at ht
      simp only [List.cons_append, List.head?_cons, Option.mem_def, Option.some.injEq] at ht
      rw [← ht]
      exact first_not_error e
  have hinner := pratt strtod e hwf PREC_ASSIGNMENT (advance (advance s0)) rest
    (e.emit strtod ((advance (advance s0)).shift rest))
    (le_trans (by decide) (expr_level_ge e))
    (by rw [adv2, htl]; rfl) hok
    (by rw [adv2]
        show (get_rule (lookahead s0.scanner rest).type).precedence ≤ _
        rw [hl0, hprec]; exact Nat.zero_le _)
    (loop_exit_after strtod e _ rest PREC_ASSIGNMENT
      (by rw [adv2]
          show (get_rule (lookahead s0.scanner rest).type).precedence < _
          rw [hl0, hprec]; exact Nat.zero_lt_one))
  have hcall := run_grouping strtod (advance (advance s0)) _ hinner
  have hemit : e.emit strtod ((advance (advance s0)).shift rest) =
      e.emit strtod (s0.shift rest) := by
    rw [adv2]
    simp only [setPrevious_shift, shift_shift, emit_setPrevious]
  have hcur : (e.emit strtod (s0.shift rest)).parser.current =
      lookahead { tokens := rest, line := line } rest := by
    rw [(emit_frame strtod e (s0.shift rest)).1]
    exact hl0 rest
  have hcons : consume TOKEN_RIGHT_PAREN "Expect ')' after expression."
      (e.emit strtod ((advance (advance s0)).shift rest)) =
      error_at (lookahead { tokens := rest, line := line } rest) "Expect ')' after expression."
        (e.emit strtod (s0.shift rest)) := by
    rw [hemit]
    unfold consume
    rw [hcur]
    simp only [hnp, if_false]
    rw [error_at_current, hcur]
  rw [hcons] at hcall
  have hrun : ∃ g, parse_precedence strtod g PREC_ASSIGNMENT (advance s0) = .ok
      (error_at (lookahead { tokens := rest, line := line } rest) "Expect ')' after expression."
        (e.emit strtod (s0.shift rest))) := by
    refine run_parse_precedence strtod _ _ _ _ .grouping (by rw [adv2]; rfl) hcall ?_
    apply run_parse_loop_exit
    rw [(error_at_current_eq _ _ _).1, hcur, hprec]
    decide
  have hexp := expression_of_run strtod _ _
    (compile_fuel (left.token TOKEN_LEFT_PAREN :: (e.tokens ++ rest)).length)
    (by have := (advance_spec s0).1
        rw [← hs0] at this ⊢
        simp only [compile_init] at this
        simp only [compile_fuel, compile_init]
        omega) hrun
  unfold compile_state
  simp only [hs0, hexp]

end Sentence

/-! ## Decoding and the stack discipline -/

theorem decode_from_append (a b : List Byte) :
    ∀ (flag : Bool) (ia : List Instr), decode_from flag a = some ia →
      decode_from flag (a ++ b) = (decode_from false b).map (fun ib => ia ++ ib) := by
  induction a with
  | nil =>
    intro flag ia h
    cases flag with
    | false =>
      simp only [decode_from, Option.some.injEq] at h
      subst h
      cases hb : decode_from false b <;> simp [hb]
    | true => simp [decode_from] at h
  | cons x xs ih =>
    intro flag ia h
    have key : ∀ (c : Instr) (ia : List Instr),
        (decode_from false xs).map (fun is => c :: is) = some ia →
        (decode_from false (xs ++ b)).map (fun is => c :: is) =
          (decode_from false b).map (fun ib => ia ++ ib) := by
      intro c ia h
      cases hx : decode_from false xs with
      | none => simp [hx] at h
      | some ix =>
        simp only [hx, Option.map_some', Option.some.injEq] at h
        subst h
        rw [ih false ix hx]
        cases hb : decode_from false b <;> simp
    cases flag with
    | true =>
      simp only [decode_from, List.cons_append] at h ⊢
      exact key _ _ h
    | false =>
      simp only [decode_from, List.cons_append] at h ⊢
      split
      · rename_i h0
        simp only [h0, if_true] at h
        exact ih true ia h
      · rename_i h0
        simp only [h0, if_false] at h
        split
        · rename_i h1; simp only [h1, if_true] at h; exact key _ _ h
        · rename_i h1
          simp only [h1, if_false] at h
          split
          · rename_i h2; simp only [h2, if_true] at h; exact key _ _ h
          · rename_i h2
            simp only [h2, if_false] at h
            split
            · rename_i h3; simp only [h3, if_true] at h; exact key _ _ h
            · rename_i h3
              simp only [h3, if_false] at h
              split
              · rename_i h4; simp only [h4, if_true] at h; exact key _ _ h
              · rename_i h4
                simp only [h4, if_false] at h
                split
                · rename_i h5; simp only [h5, if_true] at h; exact key _ _ h
                · rename_i h5
                  simp only [h5, if_false] at h
                  split
                  · rename_i h6; simp only [h6, if_true] at h; exact key _ _ h
                  · rename_i h6
                    simp only [h6, if_false] at h
                    exact absurd h (by simp)

theorem stack_after_append (pool : Nat) (a b : List Instr) :
    ∀ d d1, stack_after pool a d = some d1 →
      stack_after pool (a ++ b) d = stack_after pool b d1 := by
  induction a with
  | nil => intro d d1 h; simp only [stack_after, Option.some.injEq] at h; subst h; rfl
  | cons x xs ih =>
    intro d d1 h
    cases x <;> simp only [stack_after, List.cons_append] at h ⊢ <;>
      first
      | (split at h
         · rename_i hc; simp only [hc, if_true]; exact ih _ _ h
         · exact absurd h (by simp))
      | exact absurd h (by simp)

theorem stack_after_mono (pool pool2 : Nat) (hp : pool ≤ pool2) (a : List Instr) :
    ∀ d d1, stack_after pool a d = some d1 → stack_after pool2 a d = some d1 := by
  induction a with
  | nil => intro d d1 h; exact h
  | cons x xs ih =>
    intro d d1 h
    cases x <;> simp only [stack_after] at h ⊢ <;>
      first
      | (split at h
         · rename_i hc
           first
           | (have hc2 := Nat.lt_of_lt_of_le hc hp
              simp only [hc2, if_true]; exact ih _ _ h)
           | (simp only [hc, if_true]; exact ih _ _ h)
         · exact absurd h (by simp))
      | exact absurd h (by simp)

theorem effect_append {pool : Nat} {a b : List Byte} {d d1 d2 : Nat}
    (ha : Effect pool a d d1) (hb : Effect pool b d1 d2) : Effect pool (a ++ b) d d2 := by
  obtain ⟨ia, a1, a2⟩ := ha
  obtain ⟨ib, b1, b2⟩ := hb
  refine ⟨ia ++ ib, ?_, ?_⟩
  · unfold decode at *
    rw [decode_from_append a b false ia a1, b1]; rfl
  · rw [stack_after_append pool ia ib d d1 a2]; exact b2

theorem effect_mono {pool pool2 : Nat} (hp : pool ≤ pool2) {a : List Byte} {d d1 : Nat}
    (ha : Effect pool a d d1) : Effect pool2 a d d1 := by
  obtain ⟨ia, a1, a2⟩ := ha
  exact ⟨ia, a1, stack_after_mono pool pool2 hp ia d d1 a2⟩

theorem exprCode_mono {pool pool2 : Nat} (hp : pool ≤ pool2) {a : List Byte}
    (ha : ExprCode pool a) : ExprCode pool2 a :=
  fun d => effect_mono hp (ha d)

theorem loopCode_mono {pool pool2 : Nat} (hp : pool ≤ pool2) {a : List Byte}
    (ha : LoopCode pool a) : LoopCode pool2 a :=
  fun d hd => effect_mono hp (ha d hd)

theorem exprCode_constant (pool : Nat) (i : Byte) (h : i.val < pool) :
    ExprCode pool [OP_CONSTANT.toByte, i] := by
  intro d
  refine ⟨[Instr.CONSTANT i], rfl, ?_⟩
  simp [stack_after, h]

theorem exprCode_negate {pool : Nat} {a : List Byte} (ha : ExprCode pool a) :
    ExprCode pool (a ++ [OP_NEGATE.toByte]) := by
  intro d
  refine effect_append (ha d) ⟨[Instr.NEGATE], rfl, ?_⟩
  simp [stack_after]

theorem loopCode_nil (pool : Nat) : LoopCode pool [] :=
  fun _ _ => ⟨[], rfl, rfl⟩

theorem loopCode_binary {pool : Nat} {a : List Byte} (ha : ExprCode pool a) (op : BinOp) :
    LoopCode pool (a ++ [op.opcode.toByte]) := by
  intro d hd
  refine effect_append (ha d) ?_
  have h2 : 2 ≤ d + 1 := by omega
  cases op
  · exact ⟨[Instr.ADD], rfl, by simp [stack_after, h2]⟩
  · exact ⟨[Instr.SUBTRACT], rfl, by simp [stack_after, h2]⟩
  · exact ⟨[Instr.MULTIPLY], rfl, by simp [stack_after, h2]⟩
  · exact ⟨[Instr.DIVIDE], rfl, by simp [stack_after, h2]⟩

theorem loopCode_append {pool : Nat} {a b : List Byte} (ha : LoopCode pool a)
    (hb : LoopCode pool b) : LoopCode pool (a ++ b) :=
  fun d hd => effect_append (ha d hd) (hb d hd)

theorem exprCode_loop {pool : Nat} {a b : List Byte} (ha : ExprCode pool a)
    (hb : LoopCode pool b) : ExprCode pool (a ++ b) :=
  fun d => effect_append (ha d) (hb (d + 1) (Nat.le_add_left 1 d))

/-! ## Every successful compilation is safe to execute -/

section Sound

variable {V : Type} (strtod : String → V)

theorem grow_expr_loop {c c2 r : Chunk V} (h1 : Grow ExprCode c c2) (h2 : Grow LoopCode c2 r) :
    Grow ExprCode c r := by
  obtain ⟨b1, e1, p1, k1⟩ := h1
  obtain ⟨b2, e2, p2, k2⟩ := h2
  exact ⟨b1 ++ b2, by rw [e2, e1, List.append_assoc], le_trans p1 p2, exprCode_loop (exprCode_mono p2 k1) k2⟩

theorem grow_loop_loop {c c2 r : Chunk V} (h1 : Grow LoopCode c c2) (h2 : Grow LoopCode c2 r) :
    Grow LoopCode c r := by
  obtain ⟨b1, e1, p1, k1⟩ := h1
  obtain ⟨b2, e2, p2, k2⟩ := h2
  exact ⟨b1 ++ b2, by rw [e2, e1, List.append_assoc], le_trans p1 p2, loopCode_append (loopCode_mono p2 k1) k2⟩

theorem grow_loop_refl (c : Chunk V) : Grow LoopCode c c :=
  ⟨[], by simp, le_refl _, loopCode_nil _⟩

theorem grow_negate {c c2 : Chunk V} (h : Grow ExprCode c c2) (hwf : c2.WF) (line : Int) :
    Grow ExprCode c (write_chunk c2 OP_NEGATE.toByte line) := by
  obtain ⟨b1, e1, p1, k1⟩ := h
  refine ⟨b1 ++ [OP_NEGATE.toByte], ?_, ?_, ?_⟩
  · rw [write_chunk_stream _ _ _ hwf, e1, List.append_assoc]
  · rw [write_chunk_constants]; exact p1
  · rw [write_chunk_constants]; exact exprCode_negate k1

theorem grow_binary {c c2 : Chunk V} (h : Grow ExprCode c c2) (hwf : c2.WF) (op : BinOp)
    (line : Int) : Grow LoopCode c (write_chunk c2 op.opcode.toByte line) := by
  obtain ⟨b1, e1, p1, k1⟩ := h
  refine ⟨b1 ++ [op.opcode.toByte], ?_, ?_, ?_⟩
  · rw [write_chunk_stream _ _ _ hwf, e1, List.append_assoc]
  · rw [write_chunk_constants]; exact p1
  · rw [write_chunk_constants]; exact loopCode_binary k1 op

theorem error_at_inv (t : Token) (m : String) (s : State V) (h : s.Inv) :
    (error_at t m s).Inv ∧ (error_at t m s).parser.had_error = true := by
  obtain ⟨h1, h2, h3⟩ := h
  unfold error_at
  by_cases hp : s.parser.panic_mode = true
  · simp only [hp, if_true]
    exact ⟨⟨h1, h2, h3⟩, h2 hp⟩
  · simp only [hp, if_false]
    exact ⟨⟨h1, fun _ => rfl, fun hc => absurd hc (by simp)⟩, rfl⟩

theorem advance_loop_inv (n : Nat) (s : State V) (h : s.Inv) :
    (advance_loop n s).Inv ∧
      ((advance_loop n s).parser.had_error = false → s.parser.had_error = false) ∧
      (advance_loop n s).compilingChunk = s.compilingChunk := by
  induction n generalizing s with
  | zero => exact ⟨h, fun x => x, rfl⟩
  | succ n ih =>
    rw [advance_loop]
    simp only
    split
    · exact ⟨h, fun x => x, rfl⟩
    · obtain ⟨e1, e2⟩ := error_at_inv (scan_token s.scanner).1 (scan_token s.scanner).1.start
        (State.mk (scan_token s.scanner).2
          (Parser.mk (scan_token s.scanner).1 s.parser.previous s.parser.had_error
            s.parser.panic_mode) s.compilingChunk s.stderr) h
      obtain ⟨i1, i2, i3⟩ := ih _ e1
      refine ⟨i1, ?_, ?_⟩
      · intro hc
        have := i2 hc
        simp only [error_at_current] at this
        rw [e2] at this
        exact absurd this (by simp)
      · exact i3.trans (error_at_current_eq _ _ _).2.2.2

theorem advance_inv (s : State V) (h : s.Inv) :
    (advance s).Inv ∧ ((advance s).parser.had_error = false → s.parser.had_error = false) ∧
      (advance s).compilingChunk = s.compilingChunk :=
  advance_loop_inv _ _ h

theorem consume_inv (t : TokenType) (m : String) (s : State V) (h : s.Inv) :
    (consume t m s).Inv ∧
      ((consume t m s).parser.had_error = false → s.parser.had_error = false) ∧
      (consume t m s).compilingChunk = s.compilingChunk := by
  unfold consume
  split
  · exact advance_inv s h
  · obtain ⟨e1, e2⟩ := error_at_inv s.parser.current m s h
    refine ⟨e1, ?_, (error_at_current_eq _ _ _).2.2.2⟩
    intro hc
    simp only [error_at_current] at hc
    rw [e2] at hc
    exact absurd hc (by simp)

theorem emit_byte_inv (b : Byte) (s : State V) (h : s.Inv) : (emit_byte b s).Inv := by
  obtain ⟨h1, h2, h3⟩ := h
  refine ⟨write_chunk_WF _ _ _ h1, h2, ?_⟩
  intro hc
  show (write_chunk _ _ _).constants.count ≤ 256
  rw [write_chunk_constants]
  exact h3 hc

theorem number_inv (s : State V) (h : s.Inv) :
    (number strtod s).Inv ∧ ((number strtod s).parser.had_error = false →
      s.parser.had_error = false ∧
        Grow ExprCode s.compilingChunk (number strtod s).compilingChunk) := by
  obtain ⟨h1, h2, h3⟩ := h
  obtain ⟨n1, n2, n3, n4, n5, n6, _, _⟩ := number_spec strtod s h1
  have hcount : (number strtod s).compilingChunk.constants.count =
      s.compilingChunk.constants.count + 1 := by
    simp [ValueArray.count, n4]
  have hclean : (number strtod s).parser.had_error = false →
      s.parser.had_error = false ∧ s.compilingChunk.constants.count ≤ 255 := by
    intro hc
    have hs : s.parser.had_error = false := by
      cases hq : s.parser.had_error with
      | false => rfl
      | true => rw [n6.mpr (Or.inl hq)] at hc; exact absurd hc (by simp)
    have hp : s.parser.panic_mode = false := by
      cases hq : s.parser.panic_mode with
      | false => rfl
      | true => rw [h2 hq] at hs; exact absurd hs (by simp)
    refine ⟨hs, ?_⟩
    by_contra hk
    rw [n6.mpr (Or.inr ⟨hp, by omega⟩)] at hc
    exact absurd hc (by simp)
  refine ⟨⟨n1, ?_, ?_⟩, ?_⟩
  · intro hp
    rcases n5.mp hp with hq | hq
    · exact n6.mpr (Or.inl (h2 hq))
    · cases hq2 : s.parser.panic_mode with
      | true => exact n6.mpr (Or.inl (h2 hq2))
      | false => exact n6.mpr (Or.inr ⟨hq2, hq⟩)
  · intro hc
    rw [hcount]
    have := (hclean hc).2
    omega
  · intro hc
    obtain ⟨hs, hk⟩ := hclean hc
    refine ⟨hs, _, n2, by rw [hcount]; omega, ?_⟩
    rw [hcount]
    apply exprCode_constant
    have hk2 : ¬ s.compilingChunk.constants.count > 255 := by omega
    simp only [degraded_operand, hk2, if_false, Fin.ofNat]
    show s.compilingChunk.constants.count % 256 < _
    rw [Nat.mod_eq_of_lt (by omega)]
    omega

theorem prefix_rule_ne_binary (t : TokenType) (fn : ParseFn)
    (h : (get_rule t).prefix_rule = some fn) : fn ≠ .binary := by
  cases t <;> simp [get_rule] at h <;> subst h <;> simp

theorem precedence_pos_is_operator (t : TokenType) (h : 1 ≤ (get_rule t).precedence) :
    is_operator t := by
  cases t <;> first | exact absurd h (by decide) | simp [is_operator]

/-- Every function keeps the invariant, and if it returns with the error flag
still clear, the flag was clear before and what it wrote is expression code
(for the operator loop and `binary`: code that keeps the stack depth). -/
theorem sound_step (f : Nat) :
    (∀ s r : State V, binary strtod f s = .ok r → s.Inv →
      is_operator s.parser.previous.type →
      r.Inv ∧ (r.parser.had_error = false → s.parser.had_error = false ∧
        Grow LoopCode s.compilingChunk r.compilingChunk)) ∧
    (∀ s r : State V, grouping strtod f s = .ok r → s.Inv →
      r.Inv ∧ (r.parser.had_error = false → s.parser.had_error = false ∧
        Grow ExprCode s.compilingChunk r.compilingChunk)) ∧
    (∀ s r : State V, unary strtod f s = .ok r → s.Inv →
      r.Inv ∧ (r.parser.had_error = false → s.parser.had_error = false ∧
        Grow ExprCode s.compilingChunk r.compilingChunk)) ∧
    (∀ fn (s r : State V), call_fn strtod f fn s = .ok r → s.Inv →
      (fn = .binary → is_operator s.parser.previous.type) →
      r.Inv ∧ (r.parser.had_error = false → s.parser.had_error = false ∧
        (fn = .binary → Grow LoopCode s.compilingChunk r.compilingChunk) ∧
        (fn ≠ .binary → Grow ExprCode s.compilingChunk r.compilingChunk))) ∧
    (∀ p (s r : State V), parse_precedence strtod f p s = .ok r → 1 ≤ p → s.Inv →
      r.Inv ∧ (r.parser.had_error = false → s.parser.had_error = false ∧
        Grow ExprCode s.compilingChunk r.compilingChunk)) ∧
    (∀ p (s r : State V), parse_loop strtod f p s = .ok r → 1 ≤ p → s.Inv →
      r.Inv ∧ (r.parser.had_error = false → s.parser.had_error = false ∧
        Grow LoopCode s.compilingChunk r.compilingChunk)) ∧
    (∀ s r : State V, expression strtod f s = .ok r → s.Inv →
      r.Inv ∧ (r.parser.had_error = false → s.parser.had_error = false ∧
        Grow ExprCode s.compilingChunk r.compilingChunk)) := by
  induction f with
  | zero =>
    refine ⟨?_, ?_, ?_, ?_, ?_, ?_, ?_⟩ <;> intros <;> simp_all [binary, grouping, unary,
      call_fn, parse_precedence, parse_loop, expression]
  | succ f ih =>
    obtain ⟨hb, hg, hu, hc, hp, hl, he⟩ := ih
    refine ⟨?_, ?_, ?_, ?_, ?_, ?_, ?_⟩
    · intro s r h hinv hop
      rw [binary] at h
      cases hq : parse_precedence strtod f ((get_rule s.parser.previous.type).precedence + 1) s with
      | error e => simp [hq] at h
      | ok s2 =>
        simp only [hq] at h
        obtain ⟨i1, i2⟩ := hp _ _ _ hq (Nat.le_add_left _ _) hinv
        rcases hop with ho | ho | ho | ho <;> simp only [ho, Except.ok.injEq] at h <;> subst h
        · exact ⟨emit_byte_inv _ _ i1, fun hc2 =>
            ⟨(i2 hc2).1, grow_binary (i2 hc2).2 i1.1 .add _⟩⟩
        · exact ⟨emit_byte_inv _ _ i1, fun hc2 =>
            ⟨(i2 hc2).1, grow_binary (i2 hc2).2 i1.1 .sub _⟩⟩
        · exact ⟨emit_byte_inv _ _ i1, fun hc2 =>
            ⟨(i2 hc2).1, grow_binary (i2 hc2).2 i1.1 .mul _⟩⟩
        · exact ⟨emit_byte_inv _ _ i1, fun hc2 =>
            ⟨(i2 hc2).1, grow_binary (i2 hc2).2 i1.1 .div _⟩⟩
    · intro s r h hinv
      rw [grouping] at h
      cases hq : expression strtod f s with
      | error e => simp [hq] at h
      | ok s2 =>
        simp only [hq, Except.ok.injEq] at h
        subst h
        obtain ⟨i1, i2⟩ := he _ _ hq hinv
        obtain ⟨c1, c2, c3⟩ := consume_inv TOKEN_RIGHT_PAREN "Expect ')' after expression." s2 i1
        refine ⟨c1, fun hc2 => ?_⟩
        rw [c3]
        exact i2 (c2 hc2)
    · intro s r h hinv
      rw [unary] at h
      cases hq : parse_precedence strtod f PREC_UNARY s with
      | error e => simp [hq] at h
      | ok s2 =>
        simp only [hq] at h
        obtain ⟨i1, i2⟩ := hp _ _ _ hq (by decide) hinv
        split at h
        · simp only [Except.ok.injEq] at h
          subst h
          exact ⟨emit_byte_inv _ _ i1, fun hc2 => ⟨(i2 hc2).1, grow_negate (i2 hc2).2 i1.1 _⟩⟩
        · simp only [Except.ok.injEq] at h
          subst h
          exact ⟨i1, i2⟩
    · intro fn s r h hinv hop
      cases fn with
      | grouping =>
        rw [call_fn] at h
        obtain ⟨i1, i2⟩ := hg _ _ h hinv
        exact ⟨i1, fun hc2 => ⟨(i2 hc2).1, fun hx => absurd hx (by simp), fun _ => (i2 hc2).2⟩⟩
      | number =>
        rw [call_fn] at h
        simp only [Except.ok.injEq] at h
        subst h
        obtain ⟨i1, i2⟩ := number_inv strtod s hinv
        exact ⟨i1, fun hc2 => ⟨(i2 hc2).1, fun hx => absurd hx (by simp), fun _ => (i2 hc2).2⟩⟩
      | unary =>
        rw [call_fn] at h
        obtain ⟨i1, i2⟩ := hu _ _ h hinv
        exact ⟨i1, fun hc2 => ⟨(i2 hc2).1, fun hx => absurd hx (by simp), fun _ => (i2 hc2).2⟩⟩
      | binary =>
        rw [call_fn] at h
        obtain ⟨i1, i2⟩ := hb _ _ h hinv (hop rfl)
        exact ⟨i1, fun hc2 => ⟨(i2 hc2).1, fun _ => (i2 hc2).2, fun hx => absurd rfl hx⟩⟩
    · intro p s r h h1p hinv
      rw [parse_precedence] at h
      obtain ⟨a1, a2, a3⟩ := advance_inv s hinv
      cases hr : (get_rule (advance s).parser.previous.type).prefix_rule with
      | none =>
        simp only [hr, Except.ok.injEq] at h
        subst h
        obtain ⟨e1, e2⟩ := error_at_inv (advance s).parser.previous "Expect expression."
          (advance s) a1
        refine ⟨e1, fun hc2 => ?_⟩
        simp only [error] at hc2
        rw [e2] at hc2
        exact absurd hc2 (by simp)
      | some fn =>
        simp only [hr] at h
        cases hq : call_fn strtod f fn (advance s) with
        | error e => simp [hq] at h
        | ok s2 =>
          simp only [hq] at h
          have hnb := prefix_rule_ne_binary _ _ hr
          obtain ⟨i1, i2⟩ := hc _ _ _ hq a1 (fun hx => absurd hx hnb)
          obtain ⟨j1, j2⟩ := hl _ _ _ h h1p i1
          refine ⟨j1, fun hc2 => ?_⟩
          obtain ⟨k1, k2⟩ := j2 hc2
          obtain ⟨m1, _, m3⟩ := i2 k1
          have m3 := m3 hnb
          rw [a3] at m3
          exact ⟨a2 m1, grow_expr_loop m3 k2⟩
    · intro p s r h h1p hinv
      rw [parse_loop] at h
      by_cases hcond : p ≤ (get_rule s.parser.current.type).precedence
      · simp only [hcond, if_true] at h
        obtain ⟨a1, a2, a3⟩ := advance_inv s hinv
        have hprev := (advance_spec s).2.1
        have hin := (precedence_pos_operator _ (le_trans h1p hcond)).2
        have hop := precedence_pos_is_operator _ (le_trans h1p hcond)
        rw [hprev, hin] at h
        simp only at h
        cases hq : call_fn strtod f .binary (advance s) with
        | error e => simp [hq] at h
        | ok s2 =>
          simp only [hq] at h
          obtain ⟨i1, i2⟩ := hc _ _ _ hq a1 (fun _ => by rw [hprev]; exact hop)
          obtain ⟨j1, j2⟩ := hl _ _ _ h h1p i1
          refine ⟨j1, fun hc2 => ?_⟩
          obtain ⟨k1, k2⟩ := j2 hc2
          obtain ⟨m1, m2, _⟩ := i2 k1
          have m2 := m2 rfl
          rw [a3] at m2
          exact ⟨a2 m1, grow_loop_loop m2 k2⟩
      · simp only [hcond, if_false, Except.ok.injEq] at h
        subst h
        exact ⟨hinv, fun hc2 => ⟨hc2, grow_loop_refl _⟩⟩
    · intro s r h hinv
      rw [expression] at h
      exact hp _ _ _ h (by decide) hinv

theorem compile_init_inv (source : Scanner) :
    (compile_init source (init_chunk : Chunk V)).Inv :=
  ⟨init_chunk_WF, fun h => absurd h (by simp [compile_init]), fun _ => Nat.zero_le _⟩

theorem compile_state_total (source : Scanner) (chunk : Chunk V) :
    ∃ s, compile_state strtod source chunk = .ok s := by
  obtain ⟨r, hr⟩ := expression_total strtod (advance (compile_init source chunk))
    (compile_fuel source.tokens.length)
    (by have : (advance (compile_init source chunk)).pending ≤ source.tokens.length :=
          (advance_spec (compile_init source chunk)).1
        simp only [compile_fuel]
        omega)
  unfold compile_state
  simp only [hr]
  exact ⟨_, rfl⟩

/-- A successful `compile` into an empty chunk leaves a chunk that is safe to
execute and a pool of at most 256 constants. -/
theorem compile_true_safe (source : Scanner) (s : State V)
    (hs : compile_state strtod source init_chunk = .ok s)
    (hok : s.parser.had_error = false) :
    safe_to_execute s.compilingChunk ∧ s.compilingChunk.constants.count ≤ 256 := by
  unfold compile_state at hs
  cases hq : expression strtod (compile_fuel source.tokens.length)
      (advance (compile_init source init_chunk)) with
  | error e => simp [hq] at hs
  | ok r =>
    simp only [hq, Except.ok.injEq] at hs
    subst hs
    obtain ⟨a1, a2, a3⟩ := advance_inv _ (compile_init_inv (V := V) source)
    obtain ⟨i1, i2⟩ := (sound_step strtod _).2.2.2.2.2.2 _ _ hq a1
    obtain ⟨c1, c2, c3⟩ := consume_inv TOKEN_EOF "Expect end of expression." r i1
    have hr : r.parser.had_error = false := c2 hok
    obtain ⟨_, bytes, g1, _, g3⟩ := i2 hr
    rw [a3] at g1
    have hstream : (end_compiler (consume TOKEN_EOF "Expect end of expression."
        r)).compilingChunk.stream = bytes ++ [OP_RETURN.toByte] := by
      show (write_chunk _ _ _).stream = _
      rw [write_chunk_stream _ _ _ c1.1, c3, g1]
      rfl
    have hpool : (end_compiler (consume TOKEN_EOF "Expect end of expression."
        r)).compilingChunk.constants = r.compilingChunk.constants := by
      show (write_chunk _ _ _).constants = _
      rw [write_chunk_constants, c3]
    refine ⟨?_, ?_⟩
    · obtain ⟨is, d1, d2⟩ := g3 0
      refine ⟨is, ?_, ?_⟩
      · rw [hstream]
        unfold decode at d1 ⊢
        rw [decode_from_append bytes _ false is d1]
        simp [decode_from, OpCode.toByte]
      · rw [hpool]; exact d2
    · rw [hpool]; exact i1.2.2 hr

end Sound

/-! ## The claims on sentences of the grammar -/

section Claims

variable {V : Type} (strtod : String → V)

/-- C1: for every sentence of the grammar (the tokens of a well-formed parse tree
`e`, followed by end-of-stream) with at most 256 `NUMBER` tokens, `compile` into
an empty chunk returns true, the constant pool is the list of the values of the
`NUMBER` tokens in source order, and the instruction stream is the post-order
translation of `e` (`CONSTANT i` for the `i`-th literal, `NEGATE` after the
operand, the operator's instruction after both operands, nothing for
parentheses) followed by one `RETURN`. -/
theorem compile_sentence_rpn (e : Expr) (line : Int) (hwf : e.wf = true)
    (hn : (e.tokens.filter (fun t => decide (t.type = TOKEN_NUMBER))).length ≤ 256) :
    compile strtod { tokens := e.tokens, line := line } init_chunk = .ok true ∧
      ∃ s : State V,
        compile_state strtod { tokens := e.tokens, line := line } init_chunk = .ok s ∧
        s.compilingChunk.constants.values =
          (e.tokens.filter (fun t => decide (t.type = TOKEN_NUMBER))).map
            (fun t => strtod t.start) ∧
        s.compilingChunk.stream = e.code (fun i => Fin.ofNat i) 0 ++ [OP_RETURN.toByte] := by
  rw [← literals_eq_filter] at hn ⊢
  obtain ⟨h, s, h1, h2, h3, _⟩ := compile_small_sentence strtod e hwf hn line
  exact ⟨h, s, h1, h2, h3⟩

/-- Witness of C1: "1 + 2" gives constants [1, 2] and CONSTANT 0, CONSTANT 1,
ADD, RETURN. -/
theorem compile_sentence_rpn_witness :
    (Expr.bin .add ⟨"+", 1⟩ (.num ⟨"1", 1⟩) (.num ⟨"2", 1⟩)).wf = true ∧
      ((Expr.bin .add ⟨"+", 1⟩ (.num ⟨"1", 1⟩) (.num ⟨"2", 1⟩)).tokens.filter
        (fun t => decide (t.type = TOKEN_NUMBER))).length ≤ 256 ∧
      compile (fun x => x)
        { tokens := [⟨TOKEN_NUMBER, "1", 1⟩, ⟨TOKEN_PLUS, "+", 1⟩, ⟨TOKEN_NUMBER, "2", 1⟩],
          line := 1 } init_chunk = .ok true ∧
      ∃ s : State String,
        compile_state (fun x => x)
          { tokens := [⟨TOKEN_NUMBER, "1", 1⟩, ⟨TOKEN_PLUS, "+", 1⟩, ⟨TOKEN_NUMBER, "2", 1⟩],
            line := 1 } init_chunk = .ok s ∧
        s.compilingChunk.constants.values = ["1", "2"] ∧
        s.compilingChunk.stream = [0, 0, 0, 1, 1, 6] :=
  ⟨rfl, by decide,
    compile_sentence_rpn (fun x => x) (.bin .add ⟨"+", 1⟩ (.num ⟨"1", 1⟩) (.num ⟨"2", 1⟩)) 1
      rfl (by decide)⟩

/-- C3: factor operators bind tighter than term operators whatever their order:
for `NUMBER` tokens `a b c`, `op1` one of `+ -` and `op2` one of `* /`,
`a op1 b op2 c` compiles to constants `[a, b, c]` and `CONSTANT 0, CONSTANT 1,
CONSTANT 2, OP(op2), OP(op1), RETURN`, and `a op2 b op1 c` to `CONSTANT 0,
CONSTANT 1, OP(op2), CONSTANT 2, OP(op1), RETURN`; both compilations succeed. -/
theorem factor_binds_tighter (a b c o1 o2 : Lexeme) (op1 op2 : BinOp) (line : Int)
    (h1 : op1 = .add ∨ op1 = .sub) (h2 : op2 = .mul ∨ op2 = .div) :
    (compile strtod
        { tokens := [a.token TOKEN_NUMBER, o1.token op1.type, b.token TOKEN_NUMBER,
            o2.token op2.type, c.token TOKEN_NUMBER], line := line } init_chunk = .ok true ∧
      ∃ s : State V,
        compile_state strtod
          { tokens := [a.token TOKEN_NUMBER, o1.token op1.type, b.token TOKEN_NUMBER,
              o2.token op2.type, c.token TOKEN_NUMBER], line := line } init_chunk = .ok s ∧
        s.compilingChunk.constants.values = [strtod a.start, strtod b.start, strtod c.start] ∧
        s.compilingChunk.stream = [OP_CONSTANT.toByte, 0, OP_CONSTANT.toByte, 1,
          OP_CONSTANT.toByte, 2, op2.opcode.toByte, op1.opcode.toByte, OP_RETURN.toByte]) ∧
    (compile strtod
        { tokens := [a.token TOKEN_NUMBER, o2.token op2.type, b.token TOKEN_NUMBER,
            o1.token op1.type, c.token TOKEN_NUMBER], line := line } init_chunk = .ok true ∧
      ∃ s : State V,
        compile_state strtod
          { tokens := [a.token TOKEN_NUMBER, o2.token op2.type, b.token TOKEN_NUMBER,
              o1.token op1.type, c.token TOKEN_NUMBER], line := line } init_chunk = .ok s ∧
        s.compilingChunk.constants.values = [strtod a.start, strtod b.start, strtod c.start] ∧
        s.compilingChunk.stream = [OP_CONSTANT.toByte, 0, OP_CONSTANT.toByte, 1,
          op2.opcode.toByte, OP_CONSTANT.toByte, 2, op1.opcode.toByte, OP_RETURN.toByte]) := by
  constructor
  · obtain ⟨h, s, e1, e2, e3, _⟩ := compile_small_sentence strtod
      (.bin op1 o1 (.num a) (.bin op2 o2 (.num b) (.num c)))
      (by rcases h1 with h | h <;> rcases h2 with g | g <;> subst h <;> subst g <;> rfl)
      (by simp [Expr.literals]) line
    exact ⟨h, s, e1, e2, e3⟩
  · obtain ⟨h, s, e1, e2, e3, _⟩ := compile_small_sentence strtod
      (.bin op1 o1 (.bin op2 o2 (.num a) (.num b)) (.num c))
      (by rcases h1 with h | h <;> rcases h2 with g | g <;> subst h <;> subst g <;> rfl)
      (by simp [Expr.literals]) line
    exact ⟨h, s, e1, e2, e3⟩

/-- Witness of C3: "1 + 2 * 3" and "1 * 2 + 3". -/
theorem factor_binds_tighter_witness :
    (BinOp.add = .add ∨ BinOp.add = .sub) ∧ (BinOp.mul = .mul ∨ BinOp.mul = .div) ∧
    (∃ s : State String,
      compile_state (fun x => x)
        { tokens := [⟨TOKEN_NUMBER, "1", 1⟩, ⟨TOKEN_PLUS, "+", 1⟩, ⟨TOKEN_NUMBER, "2", 1⟩,
            ⟨TOKEN_STAR, "*", 1⟩, ⟨TOKEN_NUMBER, "3", 1⟩], line := 1 } init_chunk = .ok s ∧
      s.compilingChunk.constants.values = ["1", "2", "3"] ∧
      s.compilingChunk.stream = [0, 0, 0, 1, 0, 2, 3, 1, 6]) ∧
    (∃ s : State String,
      compile_state (fun x => x)
        { tokens := [⟨TOKEN_NUMBER, "1", 1⟩, ⟨TOKEN_STAR, "*", 1⟩, ⟨TOKEN_NUMBER, "2", 1⟩,
            ⟨TOKEN_PLUS, "+", 1⟩, ⟨TOKEN_NUMBER, "3", 1⟩], line := 1 } init_chunk = .ok s ∧
      s.compilingChunk.constants.values = ["1", "2", "3"] ∧
      s.compilingChunk.stream = [0, 0, 0, 1, 3, 0, 2, 1, 6]) :=
  ⟨Or.inl rfl, Or.inl rfl,
    (factor_binds_tighter (fun x => x) ⟨"1", 1⟩ ⟨"2", 1⟩ ⟨"3", 1⟩ ⟨"+", 1⟩ ⟨"*", 1⟩ .add .mul 1
      (Or.inl rfl) (Or.inl rfl)).1.2,
    (factor_binds_tighter (fun x => x) ⟨"1", 1⟩ ⟨"2", 1⟩ ⟨"3", 1⟩ ⟨"+", 1⟩ ⟨"*", 1⟩ .add .mul 1
      (Or.inl rfl) (Or.inl rfl)).2.2⟩

/-- C4: binary operators of one level are left-associative: for `NUMBER` tokens
`a b c` and operators `op1 op2` of the same level, `a op1 b op2 c` compiles
successfully to constants `[a, b, c]` and `CONSTANT 0, CONSTANT 1, OP(op1),
CONSTANT 2, OP(op2), RETURN`. -/
theorem same_level_left_assoc (a b c o1 o2 : Lexeme) (op1 op2 : BinOp) (line : Int)
    (h : op1.level = op2.level) :
    compile strtod
        { tokens := [a.token TOKEN_NUMBER, o1.token op1.type, b.token TOKEN_NUMBER,
            o2.token op2.type, c.token TOKEN_NUMBER], line := line } init_chunk = .ok true ∧
      ∃ s : State V,
        compile_state strtod
          { tokens := [a.token TOKEN_NUMBER, o1.token op1.type, b.token TOKEN_NUMBER,
              o2.token op2.type, c.token TOKEN_NUMBER], line := line } init_chunk = .ok s ∧
        s.compilingChunk.constants.values = [strtod a.start, strtod b.start, strtod c.start] ∧
        s.compilingChunk.stream = [OP_CONSTANT.toByte, 0, OP_CONSTANT.toByte, 1,
          op1.opcode.toByte, OP_CONSTANT.toByte, 2, op2.opcode.toByte, OP_RETURN.toByte] := by
  obtain ⟨h, s, e1, e2, e3, _⟩ := compile_small_sentence strtod
    (.bin op2 o2 (.bin op1 o1 (.num a) (.num b)) (.num c))
    (by cases op1 <;> cases op2 <;> first | rfl | exact absurd h (by decide))
    (by simp [Expr.literals]) line
  exact ⟨h, s, e1, e2, e3⟩

/-- Witness of C4: "1 - 2 - 3" compiles as (1 - 2) - 3. -/
theorem same_level_left_assoc_witness :
    BinOp.sub.level = BinOp.sub.level ∧
    ∃ s : State String,
      compile_state (fun x => x)
        { tokens := [⟨TOKEN_NUMBER, "1", 1⟩, ⟨TOKEN_MINUS, "-", 1⟩, ⟨TOKEN_NUMBER, "2", 1⟩,
            ⟨TOKEN_MINUS, "-", 1⟩, ⟨TOKEN_NUMBER, "3", 1⟩], line := 1 } init_chunk = .ok s ∧
      s.compilingChunk.constants.values = ["1", "2", "3"] ∧
      s.compilingChunk.stream = [0, 0, 0, 1, 2, 0, 2, 2, 6] :=
  ⟨rfl, (same_level_left_assoc (fun x => x) ⟨"1", 1⟩ ⟨"2", 1⟩ ⟨"3", 1⟩ ⟨"-", 1⟩ ⟨"-", 1⟩
    .sub .sub 1 rfl).2⟩

/-- C5: negating a parenthesised expression adds exactly one `NEGATE`: if the
well-formed tree `e` (at most 256 literals) compiles into an empty chunk to
constants `K` and instructions `C` followed by `RETURN`, then `'-' '(' e ')'`
compiles successfully to the same constants `K` and to `C, NEGATE, RETURN`. -/
theorem negate_group_adds_negate (e : Expr) (minus left right : Lexeme) (line line2 : Int)
    (K : List V) (C : List Byte) (s : State V) (hwf : e.wf = true)
    (hn : e.literals.length ≤ 256)
    (hs : compile_state strtod { tokens := e.tokens, line := line } init_chunk = .ok s)
    (hK : s.compilingChunk.constants.values = K)
    (hC : s.compilingChunk.stream = C ++ [OP_RETURN.toByte]) :
    compile strtod
        { tokens := minus.token TOKEN_MINUS :: left.token TOKEN_LEFT_PAREN ::
            (e.tokens ++ [right.token TOKEN_RIGHT_PAREN]), line := line2 } init_chunk
        = .ok true ∧
      ∃ s2 : State V,
        compile_state strtod
          { tokens := minus.token TOKEN_MINUS :: left.token TOKEN_LEFT_PAREN ::
              (e.tokens ++ [right.token TOKEN_RIGHT_PAREN]), line := line2 } init_chunk
          = .ok s2 ∧
        s2.compilingChunk.constants.values = K ∧
        s2.compilingChunk.stream = C ++ [OP_NEGATE.toByte, OP_RETURN.toByte] := by
  obtain ⟨_, s1, a1, a2, a3, _⟩ := compile_small_sentence strtod e hwf hn line
  rw [hs] at a1
  cases a1
  have hCe : C = e.code (fun i => Fin.ofNat i) 0 :=
    List.append_cancel_right (hC.symm.trans a3)
  obtain ⟨h, s2, b1, b2, b3, _⟩ := compile_small_sentence strtod
    (.neg minus (.group left e right))
    (by simp only [Expr.wf, hwf, Expr.level, Bool.true_and]; rfl) hn line2
  refine ⟨h, s2, b1, ?_, ?_⟩
  · rw [b2, ← hK, a2]; rfl
  · rw [b3, hCe]; simp [Expr.code]

/-- Witness of C5: "-(3)" gives constants [3] and CONSTANT 0, NEGATE, RETURN. -/
theorem negate_group_adds_negate_witness :
    (Expr.num ⟨"3", 1⟩).wf = true ∧ (Expr.num ⟨"3", 1⟩).literals.length ≤ 256 ∧
    compile (fun x => x)
      { tokens := [⟨TOKEN_MINUS, "-", 1⟩, ⟨TOKEN_LEFT_PAREN, "(", 1⟩, ⟨TOKEN_NUMBER, "3", 1⟩,
          ⟨TOKEN_RIGHT_PAREN, ")", 1⟩], line := 1 } init_chunk = .ok true ∧
    ∃ s2 : State String,
      compile_state (fun x => x)
        { tokens := [⟨TOKEN_MINUS, "-", 1⟩, ⟨TOKEN_LEFT_PAREN, "(", 1⟩, ⟨TOKEN_NUMBER, "3", 1⟩,
            ⟨TOKEN_RIGHT_PAREN, ")", 1⟩], line := 1 } init_chunk = .ok s2 ∧
      s2.compilingChunk.constants.values = ["3"] ∧
      s2.compilingChunk.stream = [0, 0, 5, 6] :=
  ⟨rfl, by decide,
    negate_group_adds_negate (fun x => x) (.num ⟨"3", 1⟩) ⟨"-", 1⟩ ⟨"(", 1⟩ ⟨")", 1⟩ 1 1
      ["3"] [0, 0]
      (emit_return ((Expr.emit (fun x => x) (.num ⟨"3", 1⟩)
        ((compile_init { tokens := [⟨TOKEN_NUMBER, "3", 1⟩], line := 1 } init_chunk).shift
          [])).setPrevious { type := TOKEN_EOF, start := "", line := 1 }))
      rfl (by decide) rfl rfl rfl⟩

/-- C2: whenever `compile` into an empty chunk returns true, the chunk is safe
to execute: the instruction stream decodes completely, every `CONSTANT` operand
is an index into the constant pool, no instruction finds too few values on the
stack, and the stream holds exactly one `RETURN`, as its last instruction,
reached with exactly one value on the stack. -/
theorem compile_true_safe_to_execute (source : Scanner)
    (h : compile strtod source init_chunk = .ok true) :
    ∃ s : State V, compile_state strtod source init_chunk = .ok s ∧
      safe_to_execute s.compilingChunk := by
  obtain ⟨s, hs⟩ := compile_state_total strtod source (init_chunk : Chunk V)
  rw [compile_of_state strtod _ _ s hs] at h
  simp only [Except.ok.injEq, Bool.not_eq_true'] at h
  exact ⟨s, hs, (compile_true_safe strtod source s hs h).1⟩

/-- Witness of C2: "1 + 2". -/
theorem compile_true_safe_to_execute_witness :
    compile (fun x => x)
      { tokens := [⟨TOKEN_NUMBER, "1", 1⟩, ⟨TOKEN_PLUS, "+", 1⟩, ⟨TOKEN_NUMBER, "2", 1⟩],
        line := 1 } init_chunk = .ok true ∧
    ∃ s : State String,
      compile_state (fun x => x)
        { tokens := [⟨TOKEN_NUMBER, "1", 1⟩, ⟨TOKEN_PLUS, "+", 1⟩, ⟨TOKEN_NUMBER, "2", 1⟩],
          line := 1 } init_chunk = .ok s ∧
      safe_to_execute s.compilingChunk :=
  ⟨rfl, compile_true_safe_to_execute (fun x => x) _ rfl⟩

theorem drop_take_one_getElem {α : Type} (xs : List α) (j : Nat) (h : j < xs.length) :
    ∃ t, xs[j]? = some t ∧ (xs.drop j).take 1 = [t] := by
  refine ⟨xs[j], List.getElem?_eq_getElem h, ?_⟩
  rw [List.drop_eq_getElem_cons h]
  rfl

/-- C8: constant-pool overflow is a compile error with degrade-and-continue: on
a well-formed expression every literal is written as `CONSTANT`, with operand
`i` for the `i`-th literal while `i < 256` and operand 0 from the 257th literal
on; with more than 256 literals `compile` returns false and reports "Too many
constants in one chunk." (at the 257th literal), with at most 256 it returns
true and reports nothing. -/
theorem constant_pool_overflow (e : Expr) (line : Int) (hwf : e.wf = true) :
    ∃ s : State V,
      compile_state strtod { tokens := e.tokens, line := line } init_chunk = .ok s ∧
      s.compilingChunk.stream =
        e.code (fun i => if i < 256 then Fin.ofNat i else 0) 0 ++ [OP_RETURN.toByte] ∧
      (256 < e.literals.length →
        compile strtod { tokens := e.tokens, line := line } init_chunk = .ok false ∧
        ∃ t, e.literals[256]? = some t ∧
          s.stderr = [{ token := t, message := "Too many constants in one chunk." }]) ∧
      (e.literals.length ≤ 256 →
        compile strtod { tokens := e.tokens, line := line } init_chunk = .ok true ∧
        s.stderr = []) := by
  obtain ⟨s, h1, h2, _, _, h5, h6⟩ := compile_sentence strtod e hwf line
  refine ⟨s, h1, ?_, ?_, ?_⟩
  · rw [h2, code_congr e degraded_operand (fun i => if i < 256 then Fin.ofNat i else 0) 0]
    intro i _
    by_cases hi : i < 256
    · have : ¬ i > 255 := by omega
      simp only [degraded_operand, this, hi, if_true, if_false]
    · have : i > 255 := by omega
      simp only [degraded_operand, this, hi, if_true, if_false]
  · intro hn
    refine ⟨?_, ?_⟩
    · rw [compile_of_state strtod _ _ s h1, h5.mpr hn]; rfl
    · obtain ⟨t, t1, t2⟩ := drop_take_one_getElem e.literals 256 hn
      exact ⟨t, t1, by rw [h6, t2]; rfl⟩
  · intro hn
    refine ⟨?_, ?_⟩
    · rw [compile_of_state strtod _ _ s h1, had_error_false_of_le s _ h5 hn]; rfl
    · rw [h6, List.drop_of_length_le hn]; rfl

theorem sum_chain_wf (n : Nat) : (sum_chain n).wf = true := by
  induction n with
  | zero => rfl
  | succ n ih =>
    have := expr_level_ge (sum_chain n)
    simp only [sum_chain, Expr.wf, ih, Bool.true_and, Bool.and_eq_true, decide_eq_true_eq,
      BinOp.level, Expr.level]
    exact ⟨this, by decide⟩

theorem sum_chain_literals (n : Nat) : (sum_chain n).literals.length = n + 1 := by
  induction n with
  | zero => rfl
  | succ n ih => simp only [sum_chain, Expr.literals, List.length_append, ih]; rfl

/-- Witness of C8: `1 + 1 + ... + 1` with 257 literals. -/
theorem constant_pool_overflow_witness :
    (sum_chain 256).wf = true ∧
    ∃ s : State String,
      compile_state (fun x => x) { tokens := (sum_chain 256).tokens, line := 1 } init_chunk
        = .ok s ∧
      s.compilingChunk.stream =
        (sum_chain 256).code (fun i => if i < 256 then Fin.ofNat i else 0) 0 ++
          [OP_RETURN.toByte] ∧
      (256 < (sum_chain 256).literals.length →
        compile (fun x => x) { tokens := (sum_chain 256).tokens, line := 1 } init_chunk
          = .ok false ∧
        ∃ t, (sum_chain 256).literals[256]? = some t ∧
          s.stderr = [{ token := t, message := "Too many constants in one chunk." }]) ∧
      ((sum_chain 256).literals.length ≤ 256 →
        compile (fun x => x) { tokens := (sum_chain 256).tokens, line := 1 } init_chunk
          = .ok true ∧
        s.stderr = []) :=
  ⟨sum_chain_wf 256, constant_pool_overflow (fun x => x) (sum_chain 256) 1 (sum_chain_wf 256)⟩

/-- C9, as stated, fails: compiling `1 + 1 + ... + 1` with 257 literals into an
empty chunk leaves 257 entries in the constant pool. -/
theorem pool_exceeds_256 :
    ∃ s : State String,
      compile_state (fun x => x) { tokens := (sum_chain 256).tokens, line := 1 } init_chunk
        = .ok s ∧
      s.compilingChunk.constants.count = 257 ∧ ¬ s.compilingChunk.constants.count ≤ 256 := by
  obtain ⟨s, h1, _, _, h4, _, _⟩ :=
    compile_sentence (fun x => x) (sum_chain 256) (sum_chain_wf 256) 1
  have hc : s.compilingChunk.constants.count = 257 := by
    simp only [ValueArray.count, h4, List.length_map, sum_chain_literals]
  exact ⟨s, h1, hc, by rw [hc]; decide⟩

/-- C9, amended: whenever `compile` into an empty chunk returns true, the
constant pool holds at most 256 entries. -/
theorem pool_bounded_on_success (source : Scanner)
    (h : compile strtod source init_chunk = .ok true) :
    ∃ s : State V, compile_state strtod source init_chunk = .ok s ∧
      s.compilingChunk.constants.count ≤ 256 := by
  obtain ⟨s, hs⟩ := compile_state_total strtod source (init_chunk : Chunk V)
  rw [compile_of_state strtod _ _ s hs] at h
  simp only [Except.ok.injEq, Bool.not_eq_true'] at h
  exact ⟨s, hs, (compile_true_safe strtod source s hs h).2⟩

/-- Witness of the amended C9: "1 + 2". -/
theorem pool_bounded_on_success_witness :
    compile (fun x => x)
      { tokens := [⟨TOKEN_NUMBER, "1", 1⟩, ⟨TOKEN_PLUS, "+", 1⟩, ⟨TOKEN_NUMBER, "2", 1⟩],
        line := 1 } init_chunk = .ok true ∧
    ∃ s : State String,
      compile_state (fun x => x)
        { tokens := [⟨TOKEN_NUMBER, "1", 1⟩, ⟨TOKEN_PLUS, "+", 1⟩, ⟨TOKEN_NUMBER, "2", 1⟩],
          line := 1 } init_chunk = .ok s ∧
      s.compilingChunk.constants.count ≤ 256 :=
  ⟨rfl, pool_bounded_on_success (fun x => x) _ rfl⟩

theorem precedence_zero_of_not_operator (t : TokenType) (h : ¬ is_operator t) :
    (get_rule t).precedence = 0 := by
  cases t <;> first | rfl | exact absurd (by simp [is_operator]) h

/-- C10: an unterminated group is rejected: on `'(' e t ...`, with `e` a
well-formed expression of at most 256 literals and `t` (the next token, or
end-of-stream if there is none) no error token, no `')'` and none of `+ - * /`,
`compile` returns false and the one diagnostic reported is "Expect ')' after
expression." at `t`. -/
theorem unterminated_group_rejected (e : Expr) (left : Lexeme) (rest : List Token)
    (line : Int) (hwf : e.wf = true) (hn : e.literals.length ≤ 256)
    (hne : (lookahead { tokens := rest, line := line } rest).type ≠ TOKEN_ERROR)
    (hnp : (lookahead { tokens := rest, line := line } rest).type ≠ TOKEN_RIGHT_PAREN)
    (hno : ¬ is_operator (lookahead { tokens := rest, line := line } rest).type) :
    compile strtod
        { tokens := left.token TOKEN_LEFT_PAREN :: (e.tokens ++ rest), line := line }
        init_chunk = .ok false ∧
      ∃ s : State V,
        compile_state strtod
          { tokens := left.token TOKEN_LEFT_PAREN :: (e.tokens ++ rest), line := line }
          init_chunk = .ok s ∧
        s.stderr = [{ token := lookahead { tokens := rest, line := line } rest,
                      message := "Expect ')' after expression." }] := by
  have hs := compile_state_unterminated strtod e hwf left rest line (init_chunk : Chunk V)
    hne hnp (precedence_zero_of_not_operator _ hno)
  obtain ⟨_, _, _, _, h5, _, _, h8⟩ := emit_spec strtod e
    ((compile_init { tokens := left.token TOKEN_LEFT_PAREN :: (e.tokens ++ rest), line := line }
      (init_chunk : Chunk V)).shift rest) init_chunk_WF
  have h8 := h8 rfl
  have hp : (e.emit strtod ((compile_init
      { tokens := left.token TOKEN_LEFT_PAREN :: (e.tokens ++ rest), line := line }
      (init_chunk : Chunk V)).shift rest)).parser.panic_mode = false := by
    cases hq : (e.emit strtod ((compile_init
      { tokens := left.token TOKEN_LEFT_PAREN :: (e.tokens ++ rest), line := line }
      (init_chunk : Chunk V)).shift rest)).parser.panic_mode with
    | false => rfl
    | true =>
      rcases h5.mp hq with hx | hx
      · exact absurd hx (by simp [compile_init, State.shift])
      · simp only [compile_init, State.shift, init_chunk, init_value_array, ValueArray.count,
          List.length_nil, Nat.zero_add] at hx
        omega
  have hst : (e.emit strtod ((compile_init
      { tokens := left.token TOKEN_LEFT_PAREN :: (e.tokens ++ rest), line := line }
      (init_chunk : Chunk V)).shift rest)).stderr = [] := by
    rw [h8, List.drop_of_length_le (by
      simp only [compile_init, State.shift, init_chunk, init_value_array, ValueArray.count,
        List.length_nil]
      omega)]
    rfl
  obtain ⟨g1, g2, _, g4⟩ := error_at_flags (lookahead { tokens := rest, line := line } rest)
    "Expect ')' after expression." (e.emit strtod ((compile_init
      { tokens := left.token TOKEN_LEFT_PAREN :: (e.tokens ++ rest), line := line }
      (init_chunk : Chunk V)).shift rest))
  obtain ⟨c1, c2, _⟩ := consume_panic TOKEN_EOF "Expect end of expression." _ g1
  refine ⟨?_, _, hs, ?_⟩
  · rw [compile_of_state strtod _ _ _ hs]
    show Except.ok (!(consume _ _ _).parser.had_error) = _
    rw [c2, g2.mpr (Or.inr hp)]
    rfl
  · show (consume _ _ _).stderr = _
    rw [c1, g4 hp, hst]
    rfl

/-- Witness of C10: "(1", where the token after the expression is end-of-stream. -/
theorem unterminated_group_rejected_witness :
    (Expr.num ⟨"1", 1⟩).wf = true ∧ (Expr.num ⟨"1", 1⟩).literals.length ≤ 256 ∧
    (lookahead { tokens := [], line := 1 } []).type ≠ TOKEN_ERROR ∧
    (lookahead { tokens := [], line := 1 } []).type ≠ TOKEN_RIGHT_PAREN ∧
    ¬ is_operator (lookahead { tokens := [], line := 1 } []).type ∧
    compile (fun x => x)
      { tokens := [⟨TOKEN_LEFT_PAREN, "(", 1⟩, ⟨TOKEN_NUMBER, "1", 1⟩], line := 1 }
      init_chunk = .ok false ∧
    ∃ s : State String,
      compile_state (fun x => x)
        { tokens := [⟨TOKEN_LEFT_PAREN, "(", 1⟩, ⟨TOKEN_NUMBER, "1", 1⟩], line := 1 }
        init_chunk = .ok s ∧
      s.stderr = [{ token := ⟨TOKEN_EOF, "", 1⟩, message := "Expect ')' after expression." }] :=
  ⟨rfl, by decide, by decide, by decide, by simp [is_operator, lookahead, Scanner.eof],
    unterminated_group_rejected (fun x => x) (.num ⟨"1", 1⟩) ⟨"(", 1⟩ [] 1 rfl (by decide)
      (by decide) (by decide) (by simp [is_operator, lookahead, Scanner.eof])⟩

end Claims

/-! ## The claims on the chunk -/

section ChunkClaims

variable {V : Type}

/-- C6: `N` calls `write_chunk(b_i, l_i)` on a freshly initialised chunk leave
`count = N`, an instruction stream and a line table of length `N` whose `i`-th
entries are `b_i` and `l_i` (so no growth of the arrays loses or alters an
earlier byte or line), and the two arrays of equal length. -/
theorem write_chunk_sequence (writes : List (Byte × Int)) :
    (write_all (init_chunk : Chunk V) writes).count = writes.length ∧
      (write_all (init_chunk : Chunk V) writes).stream = writes.map Prod.fst ∧
      (write_all (init_chunk : Chunk V) writes).lineTable = writes.map Prod.snd ∧
      (write_all (init_chunk : Chunk V) writes).stream.length = writes.length ∧
      (write_all (init_chunk : Chunk V) writes).lineTable.length = writes.length ∧
      (write_all (init_chunk : Chunk V) writes).code.length =
        (write_all (init_chunk : Chunk V) writes).lines.length ∧
      ∀ (i : Nat) (b : Byte) (l : Int), writes[i]? = some (b, l) →
        (write_all (init_chunk : Chunk V) writes).code[i]? = some b ∧
        (write_all (init_chunk : Chunk V) writes).lines[i]? = some l := by
  obtain ⟨⟨_, w2, w3⟩, h2, h3, h4, _⟩ := write_all_spec (init_chunk : Chunk V) writes init_chunk_WF
  have h3 : (write_all (init_chunk : Chunk V) writes).stream = writes.map Prod.fst := by
    rw [h3]; rfl
  have h4 : (write_all (init_chunk : Chunk V) writes).lineTable = writes.map Prod.snd := by
    rw [h4]; rfl
  have h2 : (write_all (init_chunk : Chunk V) writes).count = writes.length := by
    rw [h2]; simp [init_chunk]
  refine ⟨h2, h3, h4, by rw [h3, List.length_map], by rw [h4, List.length_map],
    by rw [w2, w3], ?_⟩
  intro i b l hi
  have hlt : i < writes.length := by
    by_contra hc
    rw [List.getElem?_eq_none (Nat.le_of_not_lt hc)] at hi
    exact absurd hi (by simp)
  constructor
  · have := congrArg (fun xs : List Byte => xs[i]?) h3
    simp only [Chunk.stream, h2, List.getElem?_map, hi, Option.map_some'] at this
    rw [List.getElem?_take_of_lt hlt] at this
    exact this
  · have := congrArg (fun xs : List Int => xs[i]?) h4
    simp only [Chunk.lineTable, h2, List.getElem?_map, hi, Option.map_some'] at this
    rw [List.getElem?_take_of_lt hlt] at this
    exact this

/-- C7: `K` successive `add_constant` calls on a freshly initialised chunk
return `0, 1, ..., K-1` in that order and leave the passed values in the pool at
those indices; a further call appends exactly its value at the end, returns the
pool size before the call and changes no earlier entry; the instruction stream
and the line table are untouched throughout. -/
theorem add_constant_sequence (values : List V) (value : V) :
    (add_all (init_chunk : Chunk V) values).2 = List.range values.length ∧
      (add_all (init_chunk : Chunk V) values).1.constants.values = values ∧
      (add_constant (add_all (init_chunk : Chunk V) values).1 value).2 = values.length ∧
      (add_constant (add_all (init_chunk : Chunk V) values).1 value).1.constants.values =
        values ++ [value] ∧
      (add_all (init_chunk : Chunk V) values).1.count = 0 ∧
      (add_all (init_chunk : Chunk V) values).1.capacity = 0 ∧
      (add_all (init_chunk : Chunk V) values).1.code = [] ∧
      (add_all (init_chunk : Chunk V) values).1.lines = [] ∧
      (add_all (init_chunk : Chunk V) values).1.stream = [] ∧
      (add_all (init_chunk : Chunk V) values).1.lineTable = [] := by
  obtain ⟨h1, h2, h3, h4, h5, h6⟩ := add_all_spec (init_chunk : Chunk V) values
  have h2 : (add_all (init_chunk : Chunk V) values).1.constants.values = values := by
    rw [h2]; rfl
  refine ⟨?_, h2, ?_, ?_, h3, h4, h5, h6, ?_, ?_⟩
  · rw [h1]
    simp [init_chunk, init_value_array, ValueArray.count]
  · simp [add_constant, write_value_array, ValueArray.count, h2]
  · simp [add_constant, write_value_array, h2]
  · rw [Chunk.stream, h5, h3]; rfl
  · rw [Chunk.lineTable, h6, h3]; rfl

end ChunkClaims

/-! ## Every run is a sequence of primitive steps -/

section Run

variable {V : Type} (strtod : String → V)

theorem steps_trans {a b c : State V} (h1 : Steps a b) (h2 : Steps b c) : Steps a c :=
  Relation.ReflTransGen.trans h1 h2

theorem steps_prim {a b : State V} (h : Prim a b) : Steps a b :=
  Relation.ReflTransGen.single h

theorem steps_refl (a : State V) : Steps a a :=
  Relation.ReflTransGen.refl

theorem steps_consume (t : TokenType) (m : String) (s : State V) :
    Steps s (consume t m s) := by
  unfold consume
  split
  · exact steps_prim (Prim.advance s)
  · exact steps_prim (Prim.error_at _ _ s)

theorem steps_number (s : State V) : Steps s (number strtod s) := by
  unfold number emit_constant make_constant emit_bytes
  have h0 : Steps s (s.addConstant (strtod s.parser.previous.start)) :=
    steps_prim (Prim.add_constant _ s)
  by_cases h : (add_constant s.compilingChunk (strtod s.parser.previous.start)).2 > 255
  · simp only [h, if_true]
    exact steps_trans h0 (steps_trans (steps_prim (Prim.error_at _ _ _))
      (steps_trans (steps_prim (Prim.emit_byte _ _)) (steps_prim (Prim.emit_byte _ _))))
  · simp only [h, if_false]
    exact steps_trans h0
      (steps_trans (steps_prim (Prim.emit_byte _ _)) (steps_prim (Prim.emit_byte _ _)))

/-- Whatever a function returns is reached by primitive steps. -/
theorem steps_all (f : Nat) :
    (∀ s r : State V, binary strtod f s = .ok r → Steps s r) ∧
    (∀ s r : State V, grouping strtod f s = .ok r → Steps s r) ∧
    (∀ s r : State V, unary strtod f s = .ok r → Steps s r) ∧
    (∀ fn (s r : State V), call_fn strtod f fn s = .ok r → Steps s r) ∧
    (∀ p (s r : State V), parse_precedence strtod f p s = .ok r → Steps s r) ∧
    (∀ p (s r : State V), parse_loop strtod f p s = .ok r → Steps s r) ∧
    (∀ s r : State V, expression strtod f s = .ok r → Steps s r) := by
  induction f with
  | zero =>
    refine ⟨?_, ?_, ?_, ?_, ?_, ?_, ?_⟩ <;> intros <;> simp_all [binary, grouping, unary,
      call_fn, parse_precedence, parse_loop, expression]
  | succ f ih =>
    obtain ⟨hb, hg, hu, hc, hp, hl, he⟩ := ih
    refine ⟨?_, ?_, ?_, ?_, ?_, ?_, ?_⟩
    · intro s r h
      rw [binary] at h
      cases hq : parse_precedence strtod f ((get_rule s.parser.previous.type).precedence + 1) s with
      | error e => simp [hq] at h
      | ok s2 =>
        simp only [hq] at h
        have h2 := hp _ _ _ hq
        split at h <;> simp only [Except.ok.injEq] at h <;> subst h <;>
          first
          | exact steps_trans h2 (steps_prim (Prim.emit_byte _ _))
          | exact h2
    · intro s r h
      rw [grouping] at h
      cases hq : expression strtod f s with
      | error e => simp [hq] at h
      | ok s2 =>
        simp only [hq, Except.ok.injEq] at h
        subst h
        exact steps_trans (he _ _ hq) (steps_consume _ _ _)
    · intro s r h
      rw [unary] at h
      cases hq : parse_precedence strtod f PREC_UNARY s with
      | error e => simp [hq] at h
      | ok s2 =>
        simp only [hq] at h
        have h2 := hp _ _ _ hq
        split at h <;> simp only [Except.ok.injEq] at h <;> subst h <;>
          first
          | exact steps_trans h2 (steps_prim (Prim.emit_byte _ _))
          | exact h2
    · intro fn s r h
      cases fn with
      | grouping => rw [call_fn] at h; exact hg _ _ h
      | number =>
        rw [call_fn] at h
        simp only [Except.ok.injEq] at h
        subst h
        exact steps_number strtod s
      | unary => rw [call_fn] at h; exact hu _ _ h
      | binary => rw [call_fn] at h; exact hb _ _ h
    · intro p s r h
      rw [parse_precedence] at h
      cases hr : (get_rule (advance s).parser.previous.type).prefix_rule with
      | none =>
        simp only [hr, Except.ok.injEq] at h
        subst h
        exact steps_trans (steps_prim (Prim.advance s)) (steps_prim (Prim.error_at _ _ _))
      | some fn =>
        simp only [hr] at h
        cases hq : call_fn strtod f fn (advance s) with
        | error e => simp [hq] at h
        | ok s2 =>
          simp only [hq] at h
          exact steps_trans (steps_prim (Prim.advance s))
            (steps_trans (hc _ _ _ hq) (hl _ _ _ h))
    · intro p s r h
      rw [parse_loop] at h
      by_cases hcond : p ≤ (get_rule s.parser.current.type).precedence
      · simp only [hcond, if_true] at h
        cases hr : (get_rule (advance s).parser.previous.type).infix_rule with
        | none => simp [hr] at h
        | some fn =>
          simp only [hr] at h
          cases hq : call_fn strtod f fn (advance s) with
          | error e => simp [hq] at h
          | ok s2 =>
            simp only [hq] at h
            exact steps_trans (steps_prim (Prim.advance s))
              (steps_trans (hc _ _ _ hq) (hl _ _ _ h))
      · simp only [hcond, if_false, Except.ok.injEq] at h
        subst h
        exact steps_refl _
    · intro s r h
      rw [expression] at h
      exact hp _ _ _ h

/-- `compile` reaches its final state from its initial state by primitive
steps. -/
theorem steps_compile (source : Scanner) (chunk : Chunk V) (s : State V)
    (h : compile_state strtod source chunk = .ok s) :
    Steps (compile_init source chunk) s := by
  unfold compile_state at h
  cases hq : expression strtod (compile_fuel source.tokens.length)
      (advance (compile_init source chunk)) with
  | error e => simp [hq] at h
  | ok r =>
    simp only [hq, Except.ok.injEq] at h
    subst h
    exact steps_trans (steps_prim (Prim.advance _))
      (steps_trans ((steps_all strtod _).2.2.2.2.2.2 _ _ hq)
        (steps_trans (steps_consume _ _ _) (steps_prim (Prim.emit_byte _ _))))

/-- An invariant `I` and a reflexive, transitive relation `R` that every
primitive step respects hold along every run. -/
theorem steps_induction (I : State V → Prop) (R : State V → State V → Prop)
    (hrefl : ∀ s, R s s) (htrans : ∀ a b c, R a b → R b c → R a c)
    (hprim : ∀ a b, I a → Prim a b → I b ∧ R a b) {s r : State V}
    (h : Steps s r) (hs : I s) : I r ∧ R s r := by
  induction h with
  | refl => exact ⟨hs, hrefl s⟩
  | tail _ hbc ih =>
    obtain ⟨i1, i2⟩ := ih
    obtain ⟨j1, j2⟩ := hprim _ _ i1 hbc
    exact ⟨j1, htrans _ _ _ i2 j2⟩

/-! ### The flags and the diagnostics along a run -/

theorem error_at_reported (t : Token) (m : String) (s : State V) (h : s.Reported) :
    (error_at t m s).Reported ∧ (error_at t m s).parser.had_error = true := by
  obtain ⟨h1, h2⟩ := h
  unfold error_at
  cases hp : s.parser.panic_mode with
  | true =>
    simp only [if_true]
    rw [hp] at h1
    exact ⟨⟨by rw [hp]; exact h1, h2⟩, h1.symm⟩
  | false =>
    rw [hp] at h1
    rw [← h1] at h2
    simp only [Bool.false_eq_true, if_false] at h2
    rw [if_neg (by simp)]
    refine ⟨⟨rfl, ?_⟩, rfl⟩
    simp [h2]

theorem advance_loop_reported (n : Nat) (s : State V) (h : s.Reported) :
    (advance_loop n s).Reported ∧
      (s.parser.had_error = true → (advance_loop n s).parser.had_error = true) := by
  induction n generalizing s with
  | zero => exact ⟨h, fun x => x⟩
  | succ n ih =>
    rw [advance_loop]
    simp only
    split
    · exact ⟨h, fun x => x⟩
    · obtain ⟨e1, e2⟩ := error_at_reported (scan_token s.scanner).1
        (scan_token s.scanner).1.start
        (State.mk (scan_token s.scanner).2
          (Parser.mk (scan_token s.scanner).1 s.parser.previous s.parser.had_error
            s.parser.panic_mode) s.compilingChunk s.stderr) h
      obtain ⟨i1, i2⟩ := ih _ e1
      exact ⟨i1, fun _ => i2 e2⟩

theorem prim_reported (a b : State V) (ha : a.Reported) (h : Prim a b) :
    b.Reported ∧ (a.parser.had_error = true → b.parser.had_error = true) := by
  cases h with
  | advance => exact advance_loop_reported _ _ ha
  | error_at t m => exact ⟨(error_at_reported t m a ha).1, fun _ => (error_at_reported t m a ha).2⟩
  | emit_byte b => exact ⟨ha, fun x => x⟩
  | add_constant v => exact ⟨ha, fun x => x⟩

theorem steps_reported {s r : State V} (h : Steps s r) (hs : s.Reported) :
    r.Reported ∧ (s.parser.had_error = true → r.parser.had_error = true) :=
  steps_induction State.Reported (fun a b => a.parser.had_error = true → b.parser.had_error = true)
    (fun _ x => x) (fun _ _ _ f g x => g (f x)) prim_reported h hs

/-! ### The look-ahead along a run -/

theorem advance_loop_eofLast (n : Nat) (s : State V)
    (h : ∀ t ∈ s.scanner.tokens, t.type ≠ TOKEN_EOF) (hn : s.scanner.tokens.length < n) :
    (advance_loop n s).EofLast := by
  induction n generalizing s with
  | zero => omega
  | succ n ih =>
    obtain ⟨⟨ts, ln⟩, pa, ch, er⟩ := s
    rw [advance_loop]
    cases ts with
    | nil =>
      simp [scan_token, Scanner.eof, State.EofLast]
    | cons t ts =>
      have ht : t.type ≠ TOKEN_EOF := h t (by simp)
      have hts : ∀ u ∈ ts, u.type ≠ TOKEN_EOF := fun u hu => h u (by simp [hu])
      by_cases hte : t.type = TOKEN_ERROR
      · simp only [scan_token, hte, ne_eq, not_true_eq_false, if_false]
        apply ih
        · rw [error_at_current, (error_at_current_eq _ _ _).2.2.1]; exact hts
        · rw [error_at_current, (error_at_current_eq _ _ _).2.2.1]
          simp only [List.length_cons, Nat.add_lt_add_iff_right] at hn
          exact hn
      · simp only [scan_token, ne_eq, hte, not_false_eq_true, if_true]
        exact ⟨hts, fun hc => absurd hc ht⟩

theorem prim_eofLast (a b : State V) (ha : a.EofLast) (h : Prim a b) : b.EofLast := by
  cases h with
  | advance => exact advance_loop_eofLast _ _ ha.1 (Nat.lt_succ_self _)
  | error_at t m =>
    obtain ⟨e1, _, e3, _⟩ := error_at_current_eq a t m
    unfold State.EofLast
    rw [e1, e3]
    exact ha
  | emit_byte b => exact ha
  | add_constant v => exact ha

theorem steps_eofLast {s r : State V} (h : Steps s r) (hs : s.EofLast) : r.EofLast :=
  (steps_induction State.EofLast (fun _ _ => True) (fun _ => trivial)
    (fun _ _ _ _ _ => trivial) (fun a b ha hp => ⟨prim_eofLast a b ha hp, trivial⟩) h hs).1

/-! ### The chunk along a run -/

theorem appended_refl (c : Chunk V) : Appended c c :=
  ⟨List.prefix_refl _, List.prefix_refl _, List.prefix_refl _⟩

theorem appended_trans (a b c : Chunk V) (h1 : Appended a b) (h2 : Appended b c) :
    Appended a c :=
  ⟨h1.1.trans h2.1, h1.2.1.trans h2.2.1, h1.2.2.trans h2.2.2⟩

theorem prim_appended (a b : State V) (ha : a.compilingChunk.WF) (h : Prim a b) :
    b.compilingChunk.WF ∧ Appended a.compilingChunk b.compilingChunk := by
  cases h with
  | advance =>
    rw [(advance_spec a).2.2.1]
    exact ⟨ha, appended_refl _⟩
  | error_at t m =>
    rw [(error_at_current_eq a t m).2.2.2]
    exact ⟨ha, appended_refl _⟩
  | emit_byte b =>
    refine ⟨write_chunk_WF _ _ _ ha, ?_, ?_, ?_⟩
    · show _ <+: (write_chunk _ _ _).stream
      rw [write_chunk_stream _ _ _ ha]; exact List.prefix_append _ _
    · show _ <+: (write_chunk _ _ _).lineTable
      rw [write_chunk_lineTable _ _ _ ha]; exact List.prefix_append _ _
    · show _ <+: (write_chunk _ _ _).constants.values
      rw [write_chunk_constants]
  | add_constant v =>
    exact ⟨ha, List.prefix_refl _, List.prefix_refl _, List.prefix_append _ _⟩

theorem steps_appended {s r : State V} (h : Steps s r) (hs : s.compilingChunk.WF) :
    r.compilingChunk.WF ∧ Appended s.compilingChunk r.compilingChunk :=
  steps_induction (fun s => s.compilingChunk.WF)
    (fun a b => Appended a.compilingChunk b.compilingChunk)
    (fun _ => appended_refl _) (fun _ _ _ => appended_trans _ _ _) prim_appended h hs

theorem error_at_stderr_grows (t : Token) (m : String) (s : State V) :
    s.stderr <+: (error_at t m s).stderr := by
  unfold error_at
  split
  · exact List.prefix_refl _
  · exact List.prefix_append _ _

theorem advance_loop_stderr_grows (n : Nat) (s : State V) :
    s.stderr <+: (advance_loop n s).stderr := by
  induction n generalizing s with
  | zero => exact List.prefix_refl _
  | succ n ih =>
    rw [advance_loop]
    simp only
    split
    · exact List.prefix_refl _
    · exact (error_at_stderr_grows (scan_token s.scanner).1 (scan_token s.scanner).1.start
        (State.mk (scan_token s.scanner).2
          (Parser.mk (scan_token s.scanner).1 s.parser.previous s.parser.had_error
            s.parser.panic_mode) s.compilingChunk s.stderr)).trans (ih _)

theorem advance_stderr_grows (s : State V) : s.stderr <+: (advance s).stderr :=
  advance_loop_stderr_grows (s.scanner.tokens.length + 1)
    (State.mk s.scanner (Parser.mk s.parser.current s.parser.current s.parser.had_error
      s.parser.panic_mode) s.compilingChunk s.stderr)

theorem steps_stderr_grows {s r : State V} (h : Steps s r) : s.stderr <+: r.stderr :=
  (steps_induction (fun _ => True) (fun a b => a.stderr <+: b.stderr)
    (fun _ => List.prefix_refl _) (fun _ _ _ f g => f.trans g)
    (fun a b _ hp => ⟨trivial, by
      cases hp with
      | advance => exact advance_stderr_grows a
      | error_at t m => exact error_at_stderr_grows t m a
      | emit_byte b => exact List.prefix_refl _
      | add_constant v => exact List.prefix_refl _⟩) h trivial).2

theorem compile_init_reported (source : Scanner) (chunk : Chunk V) :
    (compile_init source chunk).Reported :=
  ⟨rfl, rfl⟩

/-- No function ever returns the fault of a call through a `NULL` handler, as
long as `parse_precedence` is entered at `PREC_ASSIGNMENT` or above. -/
theorem no_null_step (f : Nat) :
    (∀ s : State V, binary strtod f s ≠ .error .null_call) ∧
    (∀ s : State V, grouping strtod f s ≠ .error .null_call) ∧
    (∀ s : State V, unary strtod f s ≠ .error .null_call) ∧
    (∀ fn (s : State V), call_fn strtod f fn s ≠ .error .null_call) ∧
    (∀ p (s : State V), 1 ≤ p → parse_precedence strtod f p s ≠ .error .null_call) ∧
    (∀ p (s : State V), 1 ≤ p → parse_loop strtod f p s ≠ .error .null_call) ∧
    (∀ s : State V, expression strtod f s ≠ .error .null_call) := by
  induction f with
  | zero =>
    refine ⟨?_, ?_, ?_, ?_, ?_, ?_, ?_⟩ <;> intros <;> simp [binary, grouping, unary,
      call_fn, parse_precedence, parse_loop, expression]
  | succ f ih =>
    obtain ⟨hb, hg, hu, hc, hp, hl, he⟩ := ih
    refine ⟨?_, ?_, ?_, ?_, ?_, ?_, ?_⟩
    · intro s h
      rw [binary] at h
      cases hq : parse_precedence strtod f ((get_rule s.parser.previous.type).precedence + 1) s with
      | error e =>
        simp only [hq, Except.error.injEq] at h
        subst h
        exact hp _ _ (Nat.le_add_left _ _) hq
      | ok s2 =>
        simp only [hq] at h
        split at h <;> exact absurd h (by simp)
    · intro s h
      rw [grouping] at h
      cases hq : expression strtod f s with
      | error e =>
        simp only [hq, Except.error.injEq] at h
        subst h
        exact he _ hq
      | ok s2 => simp [hq] at h
    · intro s h
      rw [unary] at h
      cases hq : parse_precedence strtod f PREC_UNARY s with
      | error e =>
        simp only [hq, Except.error.injEq] at h
        subst h
        exact hp _ _ (by decide) hq
      | ok s2 =>
        simp only [hq] at h
        split at h <;> exact absurd h (by simp)
    · intro fn s h
      cases fn with
      | grouping => rw [call_fn] at h; exact hg _ h
      | number => rw [call_fn] at h; exact absurd h (by simp)
      | unary => rw [call_fn] at h; exact hu _ h
      | binary => rw [call_fn] at h; exact hb _ h
    · intro p s h1p h
      rw [parse_precedence] at h
      cases hr : (get_rule (advance s).parser.previous.type).prefix_rule with
      | none => simp [hr] at h
      | some fn =>
        simp only [hr] at h
        cases hq : call_fn strtod f fn (advance s) with
        | error e =>
          simp only [hq, Except.error.injEq] at h
          subst h
          exact hc _ _ hq
        | ok s2 =>
          simp only [hq] at h
          exact hl _ _ h1p h
    · intro p s h1p h
      rw [parse_loop] at h
      by_cases hcond : p ≤ (get_rule s.parser.current.type).precedence
      · have hin := (precedence_pos_operator _ (le_trans h1p hcond)).2
        simp only [hcond, if_true, (advance_spec s).2.1, hin] at h
        cases hq : call_fn strtod f .binary (advance s) with
        | error e =>
          simp only [hq, Except.error.injEq] at h
          subst h
          exact hc _ _ hq
        | ok s2 =>
          simp only [hq] at h
          exact hl _ _ h1p h
      · simp [hcond] at h
    · intro s h
      rw [expression] at h
      exact hp _ _ (by decide) h

end Run

/-! ## The run on a finite machine -/

section Machine

variable {V : Type} (strtod : String → V)

theorem write_chunk_capacity_le (c : Chunk V) (b : Byte) (l : Int) :
    c.capacity ≤ (write_chunk c b l).capacity := by
  unfold write_chunk
  by_cases h : c.capacity < c.count + 1
  · simp only [h, if_true]
    exact (GROW_CAPACITY_gt _).le
  · simp only [h, if_false]
    exact le_refl _

theorem steps_capacity {s r : State V} (h : Steps s r) :
    s.compilingChunk.capacity ≤ r.compilingChunk.capacity :=
  (steps_induction (fun _ => True)
    (fun a b => a.compilingChunk.capacity ≤ b.compilingChunk.capacity)
    (fun _ => le_refl _) (fun _ _ _ f g => le_trans f g)
    (fun a b _ hp => ⟨trivial, by
      cases hp with
      | advance => rw [(advance_spec a).2.2.1]
      | error_at t m => rw [(error_at_current_eq a t m).2.2.2]
      | emit_byte b => exact write_chunk_capacity_le _ _ _
      | add_constant v => exact le_refl _⟩) h trivial).2

/-- On a heap that holds the grown arrays `write_chunk_limited` is
`write_chunk`; otherwise the process ends with `exit(1)`, and then the heap is
smaller than the arrays `write_chunk` asks for. -/
theorem write_chunk_limited_cases (heap : Nat) (c : Chunk V) (b : Byte) (l : Int) :
    write_chunk_limited heap c b l = .ok (write_chunk c b l) ∨
      (write_chunk_limited heap c b l = .error .exit_1 ∧
        heap < (write_chunk c b l).capacity) := by
  unfold write_chunk
  unfold write_chunk_limited GROW_ARRAY_limited reallocate_limited realloc GROW_ARRAY reallocate
  by_cases hc : c.capacity < c.count + 1
  · have hg := GROW_CAPACITY_gt c.capacity
    have h0 : GROW_CAPACITY c.capacity ≠ 0 := by omega
    simp only [hc, if_true, h0, if_false]
    by_cases h : heap < GROW_CAPACITY c.capacity
    · right
      simp only [h, if_true, and_self]
    · left
      simp only [h, if_false]
  · left
    simp only [hc, if_false]

theorem ends_weaken {heap f g st : Nat} {r : State V} {x : Except Abort (State V)}
    (h : Ends heap f st r x) (hfg : f ≤ g) : Ends heap g st r x := by
  rcases h with h | ⟨h, hlt⟩ | h
  · exact Or.inl h
  · exact Or.inr (Or.inl ⟨h, lt_of_lt_of_le hlt hfg⟩)
  · exact Or.inr (Or.inr h)

theorem emit_byte_ends (heap f st : Nat) (b : Byte) (s : State V) :
    Ends heap f st (emit_byte b s) (emit_byte_limited heap b s) := by
  unfold emit_byte_limited
  rcases write_chunk_limited_cases heap s.compilingChunk b s.parser.previous.line with
    h | ⟨h, hlt⟩
  · rw [h]
    exact Or.inl rfl
  · rw [h]
    exact Or.inr (Or.inr ⟨rfl, hlt⟩)

theorem number_ends (heap f st : Nat) (s : State V) :
    Ends heap f st (number strtod s) (number_limited strtod heap s) := by
  unfold number_limited emit_constant_limited emit_bytes_limited number emit_constant emit_bytes
  simp only
  rcases emit_byte_ends heap f st OP_CONSTANT.toByte
      (make_constant (strtod s.parser.previous.start) s).1 with h | ⟨h, _⟩ | ⟨h, hlt⟩
  · rw [h]
    exact emit_byte_ends heap f st _ _
  · rw [h]
    unfold emit_byte_limited at h
    split at h <;> simp at h
    rename_i a heq
    subst h
    rcases write_chunk_limited_cases heap
        (make_constant (strtod s.parser.previous.start) s).1.compilingChunk OP_CONSTANT.toByte
        (make_constant (strtod s.parser.previous.start) s).1.parser.previous.line with
      h2 | ⟨h2, _⟩ <;> rw [h2] at heq <;> simp at heq
  · rw [h]
    exact Or.inr (Or.inr ⟨rfl, lt_of_lt_of_le hlt (write_chunk_capacity_le _ _ _)⟩)

/-- Where the run without limits ends in `r`, the run on the finite machine
ends in `r` too or the process dies of one of the two resource failures. -/
theorem ends_all (heap : Nat) (f : Nat) :
    (∀ stack (s r : State V), binary strtod f s = .ok r →
      Ends heap f stack r (binary_limited strtod heap f stack s)) ∧
    (∀ stack (s r : State V), grouping strtod f s = .ok r →
      Ends heap f stack r (grouping_limited strtod heap f stack s)) ∧
    (∀ stack (s r : State V), unary strtod f s = .ok r →
      Ends heap f stack r (unary_limited strtod heap f stack s)) ∧
    (∀ stack fn (s r : State V), call_fn strtod f fn s = .ok r →
      Ends heap f stack r (call_fn_limited strtod heap f stack fn s)) ∧
    (∀ stack p (s r : State V), parse_precedence strtod f p s = .ok r →
      Ends heap f stack r (parse_precedence_limited strtod heap f stack p s)) ∧
    (∀ stack p (s r : State V), parse_loop strtod f p s = .ok r →
      Ends heap f stack r (parse_loop_limited strtod heap f stack p s)) ∧
    (∀ stack (s r : State V), expression strtod f s = .ok r →
      Ends heap f stack r (expression_limited strtod heap f stack s)) := by
  induction f with
  | zero =>
    refine ⟨?_, ?_, ?_, ?_, ?_, ?_, ?_⟩ <;> intros <;> simp_all [binary, grouping, unary,
      call_fn, parse_precedence, parse_loop, expression]
  | succ f ih =>
    obtain ⟨hb, hg, hu, hc, hp, hl, he⟩ := ih
    have hover : ∀ r : State V,
        Ends heap (f + 1) 0 r (.error .stack_overflow) :=
      fun r => Or.inr (Or.inl ⟨rfl, Nat.succ_pos _⟩)
    refine ⟨?_, ?_, ?_, ?_, ?_, ?_, ?_⟩
    · intro stack s r h
      rw [binary] at h
      cases hq : parse_precedence strtod f ((get_rule s.parser.previous.type).precedence + 1) s with
      | error e => simp [hq] at h
      | ok s2 =>
        simp only [hq] at h
        have hcap : s2.compilingChunk.capacity ≤ r.compilingChunk.capacity := by
          split at h <;> simp only [Except.ok.injEq] at h <;> subst h <;>
            first
            | exact write_chunk_capacity_le _ _ _
            | exact le_refl _
        cases stack with
        | zero => rw [binary_limited]; exact hover r
        | succ st =>
          rw [binary_limited]
          rcases hp st _ s s2 hq with h1 | ⟨h1, hlt⟩ | ⟨h1, hlt⟩
          · simp only [h1]
            generalize s.parser.previous.type = ty at h ⊢
            cases ty <;> simp only [Except.ok.injEq] at h <;> subst h <;>
              first
              | exact emit_byte_ends _ _ _ _ _
              | exact Or.inl rfl
          · simp only [h1]
            exact Or.inr (Or.inl ⟨rfl, Nat.succ_lt_succ hlt⟩)
          · simp only [h1]
            exact Or.inr (Or.inr ⟨rfl, lt_of_lt_of_le hlt hcap⟩)
    · intro stack s r h
      rw [grouping] at h
      cases hq : expression strtod f s with
      | error e => simp [hq] at h
      | ok s2 =>
        simp only [hq, Except.ok.injEq] at h
        subst h
        have hcap := steps_capacity
          (steps_consume TOKEN_RIGHT_PAREN "Expect ')' after expression." s2)
        cases stack with
        | zero => rw [grouping_limited]; exact hover _
        | succ st =>
          rw [grouping_limited]
          rcases he st s s2 hq with h1 | ⟨h1, hlt⟩ | ⟨h1, hlt⟩
          · simp only [h1]
            exact Or.inl rfl
          · simp only [h1]
            exact Or.inr (Or.inl ⟨rfl, Nat.succ_lt_succ hlt⟩)
          · simp only [h1]
            exact Or.inr (Or.inr ⟨rfl, lt_of_lt_of_le hlt hcap⟩)
    · intro stack s r h
      rw [unary] at h
      cases hq : parse_precedence strtod f PREC_UNARY s with
      | error e => simp [hq] at h
      | ok s2 =>
        simp only [hq] at h
        have hcap : s2.compilingChunk.capacity ≤ r.compilingChunk.capacity := by
          split at h <;> simp only [Except.ok.injEq] at h <;> subst h <;>
            first
            | exact write_chunk_capacity_le _ _ _
            | exact le_refl _
        cases stack with
        | zero => rw [unary_limited]; exact hover r
        | succ st =>
          rw [unary_limited]
          rcases hp st _ s s2 hq with h1 | ⟨h1, hlt⟩ | ⟨h1, hlt⟩
          · simp only [h1]
            generalize s.parser.previous.type = ty at h ⊢
            cases ty <;> simp only [Except.ok.injEq] at h <;> subst h <;>
              first
              | exact emit_byte_ends _ _ _ _ _
              | exact Or.inl rfl
          · simp only [h1]
            exact Or.inr (Or.inl ⟨rfl, Nat.succ_lt_succ hlt⟩)
          · simp only [h1]
            exact Or.inr (Or.inr ⟨rfl, lt_of_lt_of_le hlt hcap⟩)
    · intro stack fn s r h
      cases fn with
      | grouping =>
        rw [call_fn] at h; rw [call_fn_limited]
        exact ends_weaken (hg stack _ _ h) (Nat.le_succ f)
      | number =>
        rw [call_fn] at h
        simp only [Except.ok.injEq] at h
        subst h
        rw [call_fn_limited]
        exact number_ends strtod _ _ _ _
      | unary =>
        rw [call_fn] at h; rw [call_fn_limited]
        exact ends_weaken (hu stack _ _ h) (Nat.le_succ f)
      | binary =>
        rw [call_fn] at h; rw [call_fn_limited]
        exact ends_weaken (hb stack _ _ h) (Nat.le_succ f)
    · intro stack p s r h
      rw [parse_precedence] at h
      cases stack with
      | zero => rw [parse_precedence_limited]; exact hover r
      | succ st =>
        rw [parse_precedence_limited]
        cases hr : (get_rule (advance s).parser.previous.type).prefix_rule with
        | none =>
          simp only [hr, Except.ok.injEq] at h ⊢
          subst h
          exact Or.inl rfl
        | some fn =>
          simp only [hr] at h ⊢
          cases hq : call_fn strtod f fn (advance s) with
          | error e => simp [hq] at h
          | ok s2 =>
            simp only [hq] at h
            have hcap := steps_capacity ((steps_all strtod f).2.2.2.2.2.1 _ _ _ h)
            rcases hc st fn _ s2 hq with h1 | ⟨h1, hlt⟩ | ⟨h1, hlt⟩
            · simp only [h1]
              rcases hl st p s2 r h with h2 | ⟨h2, hlt⟩ | h2
              · exact Or.inl h2
              · exact Or.inr (Or.inl ⟨h2, Nat.succ_lt_succ hlt⟩)
              · exact Or.inr (Or.inr h2)
            · simp only [h1]
              exact Or.inr (Or.inl ⟨rfl, Nat.succ_lt_succ hlt⟩)
            · simp only [h1]
              exact Or.inr (Or.inr ⟨rfl, lt_of_lt_of_le hlt hcap⟩)
    · intro stack p s r h
      rw [parse_loop] at h
      rw [parse_loop_limited]
      by_cases hcond : p ≤ (get_rule s.parser.current.type).precedence
      · simp only [hcond, if_true] at h ⊢
        cases hr : (get_rule (advance s).parser.previous.type).infix_rule with
        | none => simp [hr] at h
        | some fn =>
          simp only [hr] at h ⊢
          cases hq : call_fn strtod f fn (advance s) with
          | error e => simp [hq] at h
          | ok s2 =>
            simp only [hq] at h
            have hcap := steps_capacity ((steps_all strtod f).2.2.2.2.2.1 _ _ _ h)
            rcases hc stack fn _ s2 hq with h1 | ⟨h1, hlt⟩ | ⟨h1, hlt⟩
            · simp only [h1]
              exact ends_weaken (hl stack p s2 r h) (Nat.le_succ f)
            · simp only [h1]
              exact Or.inr (Or.inl ⟨rfl, Nat.lt_succ_of_lt hlt⟩)
            · simp only [h1]
              exact Or.inr (Or.inr ⟨rfl, lt_of_lt_of_le hlt hcap⟩)
      · simp only [hcond, if_false, Except.ok.injEq] at h ⊢
        subst h
        exact Or.inl rfl
    · intro stack s r h
      rw [expression] at h
      cases stack with
      | zero => rw [expression_limited]; exact hover r
      | succ st =>
        rw [expression_limited]
        rcases hp st _ s r h with h2 | ⟨h2, hlt⟩ | h2
        · exact Or.inl h2
        · exact Or.inr (Or.inl ⟨h2, Nat.succ_lt_succ hlt⟩)
        · exact Or.inr (Or.inr h2)

/-- The run of `compile` on the finite machine, against the run without
limits. -/
theorem compile_state_ends (stack heap : Nat) (source : Scanner) (chunk : Chunk V)
    (s : State V) (hs : compile_state strtod source chunk = .ok s) :
    Ends heap (compile_fuel source.tokens.length) stack s
      (compile_state_limited strtod stack heap source chunk) := by
  unfold compile_state at hs
  unfold compile_state_limited end_compiler_limited emit_return_limited
  cases hq : expression strtod (compile_fuel source.tokens.length)
      (advance (compile_init source chunk)) with
  | error e => simp [hq] at hs
  | ok r =>
    simp only [hq, Except.ok.injEq] at hs
    subst hs
    have hcap : r.compilingChunk.capacity ≤
        (end_compiler (consume TOKEN_EOF "Expect end of expression." r)).compilingChunk.capacity :=
      steps_capacity (steps_trans (steps_consume _ _ _) (steps_prim (Prim.emit_byte _ _)))
    rcases (ends_all strtod heap _).2.2.2.2.2.2 stack _ r hq with h1 | ⟨h1, hlt⟩ | ⟨h1, hlt⟩
    · simp only [h1]
      exact emit_byte_ends _ _ _ _ _
    · simp only [h1]
      exact Or.inr (Or.inl ⟨rfl, hlt⟩)
    · simp only [h1]
      exact Or.inr (Or.inr ⟨rfl, lt_of_lt_of_le hlt hcap⟩)

theorem compile_limited_of_state (stack heap : Nat) (source : Scanner) (chunk : Chunk V) :
    compile_limited strtod stack heap source chunk =
      match compile_state_limited strtod stack heap source chunk with
      | .error a => .error a
      | .ok s => .ok (!s.parser.had_error) := rfl

theorem nested_tokens_length (k : Nat) : (nested k).tokens.length = 2 * k + 1 := by
  induction k with
  | zero => rfl
  | succ k ih =>
    simp only [nested, Expr.tokens, List.length_cons, List.length_append, ih, List.length_nil]
    omega

theorem nested_tokens_head (k : Nat) :
    ∃ t ts, (nested k).tokens = t :: ts ∧ t.type ≠ TOKEN_ERROR := by
  cases k with
  | zero => exact ⟨(⟨"1", 1⟩ : Lexeme).token TOKEN_NUMBER, [], rfl, by decide⟩
  | succ k =>
    exact ⟨(⟨"(", 1⟩ : Lexeme).token TOKEN_LEFT_PAREN, _, rfl, by decide⟩

theorem advance_cons (s : State V) (t : Token) (ts : List Token)
    (h : s.scanner.tokens = t :: ts) (ht : t.type ≠ TOKEN_ERROR) :
    (advance s).parser.previous = s.parser.current ∧ (advance s).parser.current = t ∧
      (advance s).scanner.tokens = ts := by
  rw [advance_shift s _ h (by simpa using ht)]
  exact ⟨rfl, rfl, rfl⟩

/-- Parsing `1` inside `k` pairs of parentheses nests three calls for each
pair: with room for at most `3 * k` frames `parse_precedence` overflows. -/
theorem nested_overflow (heap : Nat) (k : Nat) :
    ∀ (fuel stack : Nat) (p : Precedence) (s : State V) (rest : List Token),
      4 * k + 1 ≤ fuel → stack ≤ 3 * k →
      s.parser.current :: s.scanner.tokens = (nested k).tokens ++ rest →
      parse_precedence_limited strtod heap fuel stack p s = .error .stack_overflow := by
  induction k with
  | zero =>
    intro fuel stack p s rest hf hs _
    obtain ⟨f, rfl⟩ : ∃ f, fuel = f + 1 := ⟨fuel - 1, by omega⟩
    obtain rfl : stack = 0 := by omega
    rw [parse_precedence_limited]
  | succ k ih =>
    intro fuel stack p s rest hf hs htok
    obtain ⟨f, rfl⟩ : ∃ f, fuel = f + 4 := ⟨fuel - 4, by omega⟩
    obtain ⟨t, ts, hts, hte⟩ := nested_tokens_head k
    have e : (nested (k + 1)).tokens ++ rest =
        (⟨"(", 1⟩ : Lexeme).token TOKEN_LEFT_PAREN ::
          ((nested k).tokens ++ ((⟨")", 1⟩ : Lexeme).token TOKEN_RIGHT_PAREN :: rest)) := by
      simp [nested, Expr.tokens]
    rw [e] at htok
    injection htok with hcur hrest
    obtain ⟨hprev, hcur2, htoks2⟩ := advance_cons s t
      (ts ++ ((⟨")", 1⟩ : Lexeme).token TOKEN_RIGHT_PAREN :: rest))
      (by rw [hrest, hts]; rfl) hte
    have hnext : (advance s).parser.current :: (advance s).scanner.tokens =
        (nested k).tokens ++ ((⟨")", 1⟩ : Lexeme).token TOKEN_RIGHT_PAREN :: rest) := by
      rw [hcur2, htoks2, hts]; rfl
    have hrule : (get_rule (advance s).parser.previous.type).prefix_rule = some .grouping := by
      rw [hprev, hcur]; rfl
    rcases stack with _ | _ | _ | st
    · rw [parse_precedence_limited]
    · rw [parse_precedence_limited]
      simp only [hrule]
      rw [call_fn_limited, grouping_limited]
    · rw [parse_precedence_limited]
      simp only [hrule]
      rw [call_fn_limited, grouping_limited, expression_limited]
    · rw [parse_precedence_limited]
      simp only [hrule]
      rw [call_fn_limited, grouping_limited, expression_limited,
        ih f st _ (advance s) _ (by omega) (by omega) hnext]

/-- With room for at most `3 * k + 1` frames below `compile`, compiling `1`
inside `k` pairs of parentheses overflows the stack. -/
theorem nested_exhausts_stack (k stack heap : Nat) (line : Int) (chunk : Chunk V)
    (h : stack ≤ 3 * k + 1) :
    compile_limited strtod stack heap { tokens := (nested k).tokens, line := line } chunk =
      .error .stack_overflow := by
  obtain ⟨t, ts, hts, hte⟩ := nested_tokens_head k
  obtain ⟨_, hcur, htoks⟩ := advance_cons
    (compile_init { tokens := (nested k).tokens, line := line } chunk) t ts hts hte
  have hnext : (advance (compile_init { tokens := (nested k).tokens, line := line }
        chunk)).parser.current ::
      (advance (compile_init { tokens := (nested k).tokens, line := line }
        chunk)).scanner.tokens = (nested k).tokens ++ [] := by
    rw [hcur, htoks, hts, List.append_nil]
  rw [compile_limited_of_state]
  unfold compile_state_limited
  simp only [compile_fuel, nested_tokens_length]
  cases stack with
  | zero => rw [expression_limited]
  | succ st =>
    rw [expression_limited,
      nested_overflow strtod heap k _ st _ _ [] (by omega) (by omega) hnext]

end Machine

/-! ## The claims on every token stream -/

section StreamClaims

variable {V : Type} (strtod : String → V)

/-- Without resource limits the recursion is well founded: for every finite
token stream and every chunk `compile` returns a boolean, and the result of the
recursion does not depend on the fuel once the fuel is the amount `compile`
supplies. -/
theorem expression_fuel_irrelevant (source : Scanner) (chunk : Chunk V) :
    (∃ b : Bool, compile strtod source chunk = .ok b) ∧
      ∃ r : State V, ∀ f, compile_fuel source.tokens.length ≤ f →
        expression strtod f (advance (compile_init source chunk)) = .ok r := by
  obtain ⟨s, hs⟩ := compile_state_total strtod source chunk
  refine ⟨⟨_, compile_of_state strtod _ _ s hs⟩, ?_⟩
  obtain ⟨r, hr⟩ := expression_total strtod (advance (compile_init source chunk))
    (compile_fuel source.tokens.length)
    (by have : (advance (compile_init source chunk)).pending ≤ source.tokens.length :=
          (advance_spec (compile_init source chunk)).1
        simp only [compile_fuel]
        omega)
  exact ⟨r, fun f hf => expression_mono strtod hf _ _ hr⟩

/-- C16, as stated, fails: the recursion runs on the native stack and nothing
limits its depth, and `reallocate` ends the process when `realloc` fails. With
room for 7 frames below `compile`, "((1))" overflows the stack; with room for
600001 frames, `1` inside 200000 pairs of parentheses does; and on a heap that
cannot hold an array of 8 cells, "1" ends in `exit(1)`. In none of these runs
does `compile` return. -/
theorem deep_nesting_overflows_stack :
    compile_limited (fun x => x) 7 8
        { tokens := [⟨TOKEN_LEFT_PAREN, "(", 1⟩, ⟨TOKEN_LEFT_PAREN, "(", 1⟩,
            ⟨TOKEN_NUMBER, "1", 1⟩, ⟨TOKEN_RIGHT_PAREN, ")", 1⟩,
            ⟨TOKEN_RIGHT_PAREN, ")", 1⟩],
          line := 1 }
        (init_chunk : Chunk String) = .error .stack_overflow ∧
      compile_limited (fun x => x) 600001 8
        { tokens := (nested 200000).tokens, line := 1 }
        (init_chunk : Chunk String) = .error .stack_overflow ∧
      compile_limited (fun x => x) 8 7
        { tokens := [⟨TOKEN_NUMBER, "1", 1⟩], line := 1 }
        (init_chunk : Chunk String) = .error .exit_1 :=
  ⟨rfl, nested_exhausts_stack (fun x => x) 200000 600001 8 1 init_chunk (by decide), rfl⟩

/-- C16, amended: the recursion is well founded, and `compile` returns whenever
the resources of the machine suffice. For every finite token stream and every
chunk the run without resource limits returns, in a state `s`. On a machine
whose native stack has room for `stack` frames and whose heap holds arrays of at
most `heap` cells, `compile` returns the same boolean, `!s.parser.had_error`, or
the process dies of a stack overflow or of the `exit(1)` of `reallocate`, and
nothing else happens; `compile` does return when `stack` is at least
`4 * n + 8` for a stream of `n` tokens and `heap` is at least the capacity of
the chunk in `s`. -/
theorem compile_returns_unless_resources_fail (source : Scanner) (chunk : Chunk V) :
    ∃ s : State V, compile_state strtod source chunk = .ok s ∧
      ∀ stack heap : Nat,
        (compile_limited strtod stack heap source chunk = .ok (!s.parser.had_error) ∨
          compile_limited strtod stack heap source chunk = .error .stack_overflow ∨
          compile_limited strtod stack heap source chunk = .error .exit_1) ∧
        (compile_fuel source.tokens.length ≤ stack → s.compilingChunk.capacity ≤ heap →
          compile_limited strtod stack heap source chunk = .ok (!s.parser.had_error)) := by
  obtain ⟨s, hs⟩ := compile_state_total strtod source chunk
  refine ⟨s, hs, fun stack heap => ?_⟩
  rw [compile_limited_of_state]
  rcases compile_state_ends strtod stack heap source chunk s hs with
    h | ⟨h, hlt⟩ | ⟨h, hlt⟩
  · rw [h]
    exact ⟨Or.inl rfl, fun _ _ => rfl⟩
  · rw [h]
    exact ⟨Or.inr (Or.inl rfl), fun h1 _ => absurd hlt (not_lt.mpr h1)⟩
  · rw [h]
    exact ⟨Or.inr (Or.inr rfl), fun _ h2 => absurd hlt (not_lt.mpr h2)⟩

/-- On "(1 + 2)", 28 frames and a heap of 8 cells suffice: `compile` returns
true. -/
theorem compile_returns_unless_resources_fail_witness :
    compile_fuel 5 ≤ 28 ∧
      compile_limited (fun x => x) 28 8
        { tokens := [⟨TOKEN_LEFT_PAREN, "(", 1⟩, ⟨TOKEN_NUMBER, "1", 1⟩,
            ⟨TOKEN_PLUS, "+", 1⟩, ⟨TOKEN_NUMBER, "2", 1⟩, ⟨TOKEN_RIGHT_PAREN, ")", 1⟩],
          line := 1 }
        (init_chunk : Chunk String) = .ok true := by
  refine ⟨by decide, ?_⟩
  obtain ⟨s, hs, h⟩ := compile_returns_unless_resources_fail (fun x => x)
    { tokens := [⟨TOKEN_LEFT_PAREN, "(", 1⟩, ⟨TOKEN_NUMBER, "1", 1⟩,
        ⟨TOKEN_PLUS, "+", 1⟩, ⟨TOKEN_NUMBER, "2", 1⟩, ⟨TOKEN_RIGHT_PAREN, ")", 1⟩],
      line := 1 }
    (init_chunk : Chunk String)
  have e : (compile_state (fun x => x)
      { tokens := [⟨TOKEN_LEFT_PAREN, "(", 1⟩, ⟨TOKEN_NUMBER, "1", 1⟩,
          ⟨TOKEN_PLUS, "+", 1⟩, ⟨TOKEN_NUMBER, "2", 1⟩, ⟨TOKEN_RIGHT_PAREN, ")", 1⟩],
        line := 1 }
      (init_chunk : Chunk String)).map
        (fun s => (s.parser.had_error, s.compilingChunk.capacity)) = .ok (false, 8) := rfl
  rw [hs] at e
  simp only [Except.map, Except.ok.injEq, Prod.mk.injEq] at e
  have h2 := (h 28 8).2 (by decide) (by rw [e.2])
  rw [e.1] at h2
  exact h2

/-- C18: the infix dispatch never calls a missing handler: every token kind
whose table precedence is at least `PREC_ASSIGNMENT` has the infix handler
`binary`; the level `binary` passes on (its operator's level + 1) lies between
`PREC_ASSIGNMENT` and `PREC_UNARY`; with a minimum level of at least
`PREC_ASSIGNMENT`, neither `parse_precedence` nor its loop nor any handler ends
in a call of a `NULL` handler, whatever the state and the fuel; and so `compile`
never does, for any token stream. -/
theorem infix_handler_never_null :
    (∀ t : TokenType, PREC_ASSIGNMENT ≤ (get_rule t).precedence →
      (get_rule t).infix_rule = some .binary) ∧
    (∀ t : TokenType, PREC_ASSIGNMENT ≤ (get_rule t).precedence + 1 ∧
      (get_rule t).precedence + 1 ≤ PREC_UNARY) ∧
    (∀ (f : Nat) (p : Precedence) (s : State V), PREC_ASSIGNMENT ≤ p →
      parse_precedence strtod f p s ≠ .error .null_call ∧
      parse_loop strtod f p s ≠ .error .null_call) ∧
    (∀ (f : Nat) (s : State V),
      expression strtod f s ≠ .error .null_call ∧ unary strtod f s ≠ .error .null_call ∧
      binary strtod f s ≠ .error .null_call ∧ grouping strtod f s ≠ .error .null_call) ∧
    ∀ (source : Scanner) (chunk : Chunk V),
      compile strtod source chunk ≠ .error .null_call := by
  refine ⟨fun t h => (precedence_pos_operator t h).2,
    fun t => ⟨Nat.le_add_left _ _, Nat.succ_le_succ (get_rule_precedence_le t)⟩,
    fun f p s hp => ⟨(no_null_step strtod f).2.2.2.2.1 p s hp,
      (no_null_step strtod f).2.2.2.2.2.1 p s hp⟩,
    fun f s => ⟨(no_null_step strtod f).2.2.2.2.2.2 s, (no_null_step strtod f).2.2.1 s,
      (no_null_step strtod f).1 s, (no_null_step strtod f).2.1 s⟩, ?_⟩
  intro source chunk
  obtain ⟨s, hs⟩ := compile_state_total strtod source chunk
  rw [compile_of_state strtod _ _ s hs]
  simp

/-- C19: the result of `compile` matches the diagnostics it reported: for every
token stream, nothing was reported when it returns true and exactly one
diagnostic when it returns false; panic mode and the error flag are set
together, and at every state of a run the diagnostics printed so far are kept
to the end, so the one diagnostic is that of the first error reported. -/
theorem result_matches_diagnostics (source : Scanner) (chunk : Chunk V) :
    ∃ s : State V, compile_state strtod source chunk = .ok s ∧
      s.parser.panic_mode = s.parser.had_error ∧
      (compile strtod source chunk = .ok true → s.stderr = []) ∧
      (compile strtod source chunk = .ok false → ∃ d, s.stderr = [d]) ∧
      ∀ r : State V, Steps (compile_init source chunk) r → Steps r s →
        r.parser.panic_mode = r.parser.had_error ∧
        r.stderr.length = (if r.parser.had_error = true then 1 else 0) ∧
        r.stderr <+: s.stderr := by
  obtain ⟨s, hs⟩ := compile_state_total strtod source chunk
  have hrun := steps_compile strtod source chunk s hs
  obtain ⟨⟨r1, r2⟩, _⟩ := steps_reported hrun (compile_init_reported source chunk)
  refine ⟨s, hs, r1, ?_, ?_, ?_⟩
  · intro h
    rw [compile_of_state strtod _ _ s hs] at h
    simp only [Except.ok.injEq, Bool.not_eq_true'] at h
    rw [h] at r2
    exact List.eq_nil_of_length_eq_zero r2
  · intro h
    rw [compile_of_state strtod _ _ s hs] at h
    simp only [Except.ok.injEq, Bool.not_eq_false'] at h
    rw [h] at r2
    simp only [if_true] at r2
    exact List.length_eq_one.mp r2
  · intro r h1 h2
    obtain ⟨⟨q1, q2⟩, _⟩ := steps_reported h1 (compile_init_reported source chunk)
    exact ⟨q1, q2, steps_stderr_grows h2⟩

/-- C15: `compile` only appends to the buffer it is given: for every
well-formed chunk, empty or not, and every token stream, `compile` returns, and
the instruction stream, the line table and the constant pool before the call
are prefixes of those after the call. -/
theorem compile_only_appends (source : Scanner) (chunk : Chunk V) (hwf : chunk.WF) :
    ∃ s : State V, compile_state strtod source chunk = .ok s ∧
      chunk.stream <+: s.compilingChunk.stream ∧
      chunk.lineTable <+: s.compilingChunk.lineTable ∧
      chunk.constants.values <+: s.compilingChunk.constants.values := by
  obtain ⟨s, hs⟩ := compile_state_total strtod source chunk
  have hrun := steps_compile strtod source chunk s hs
  obtain ⟨_, a1, a2, a3⟩ := steps_appended hrun (show (compile_init source chunk).compilingChunk.WF
    from hwf)
  exact ⟨s, hs, a1, a2, a3⟩

/-- Witness of C15: "1 +" (a failing compilation) into a chunk that already
holds a byte and a constant. -/
theorem compile_only_appends_witness :
    (add_constant (write_chunk (init_chunk : Chunk String) 6 7) "c").1.WF ∧
    ∃ s : State String,
      compile_state (fun x => x)
        { tokens := [⟨TOKEN_NUMBER, "1", 1⟩, ⟨TOKEN_PLUS, "+", 1⟩], line := 1 }
        (add_constant (write_chunk (init_chunk : Chunk String) 6 7) "c").1 = .ok s ∧
      (add_constant (write_chunk (init_chunk : Chunk String) 6 7) "c").1.stream <+:
        s.compilingChunk.stream ∧
      (add_constant (write_chunk (init_chunk : Chunk String) 6 7) "c").1.lineTable <+:
        s.compilingChunk.lineTable ∧
      (add_constant (write_chunk (init_chunk : Chunk String) 6 7) "c").1.constants.values <+:
        s.compilingChunk.constants.values :=
  ⟨write_chunk_WF _ _ _ init_chunk_WF,
    compile_only_appends (fun x => x) _ _ (write_chunk_WF _ _ _ init_chunk_WF)⟩

/-- C13, as stated, fails: on "1 2 3" `compile` returns false with the token `3`
never read. -/
theorem compile_leaves_tokens_unread :
    (compile_state (fun x => x)
      { tokens := [⟨TOKEN_NUMBER, "1", 1⟩, ⟨TOKEN_NUMBER, "2", 1⟩, ⟨TOKEN_NUMBER, "3", 1⟩],
        line := 1 }
      (init_chunk : Chunk String)).map
        (fun s => (s.scanner.tokens, s.parser.current, !s.parser.had_error)) =
      .ok ([⟨TOKEN_NUMBER, "3", 1⟩], ⟨TOKEN_NUMBER, "2", 1⟩, false) :=
  rfl

/-- C13, amended: for every token stream in which end-of-stream is delivered
only at the end, `compile` returns, and when it returns true it has consumed
every token up to and including end-of-stream. -/
theorem compile_success_consumes_all (source : Scanner) (chunk : Chunk V)
    (heof : ∀ t ∈ source.tokens, t.type ≠ TOKEN_EOF)
    (h : compile strtod source chunk = .ok true) :
    ∃ s : State V, compile_state strtod source chunk = .ok s ∧
      s.scanner.tokens = [] ∧ s.parser.previous.type = TOKEN_EOF ∧
      s.parser.current.type = TOKEN_EOF := by
  obtain ⟨s, hs⟩ := compile_state_total strtod source chunk
  refine ⟨s, hs, ?_⟩
  rw [compile_of_state strtod _ _ s hs] at h
  simp only [Except.ok.injEq, Bool.not_eq_true'] at h
  unfold compile_state at hs
  cases hq : expression strtod (compile_fuel source.tokens.length)
      (advance (compile_init source chunk)) with
  | error e => simp [hq] at hs
  | ok r =>
    simp only [hq, Except.ok.injEq] at hs
    subst hs
    have hrun : Steps (compile_init source chunk) r :=
      steps_trans (steps_prim (Prim.advance _)) ((steps_all strtod _).2.2.2.2.2.2 _ _ hq)
    have hrep := (steps_reported hrun (compile_init_reported source chunk)).1
    have hlast := steps_eofLast hrun
      (⟨heof, fun hc => absurd hc (by simp [compile_init, Parser.zero])⟩ :
        (compile_init source chunk).EofLast)
    have hfin : (consume TOKEN_EOF "Expect end of expression." r).parser.had_error = false := h
    by_cases hc : r.parser.current.type = TOKEN_EOF
    · have hnil := hlast.2 hc
      have hadv : consume TOKEN_EOF "Expect end of expression." r =
          (r.shift []).setPrevious r.parser.current := by
        unfold consume
        simp only [hc, if_true]
        exact advance_shift r [] hnil (by simp)
      show (consume _ _ r).scanner.tokens = [] ∧ (consume _ _ r).parser.previous.type = _ ∧
        (consume _ _ r).parser.current.type = _
      rw [hadv]
      exact ⟨rfl, hc, rfl⟩
    · unfold consume at hfin
      simp only [hc, if_false] at hfin
      rw [error_at_current, (error_at_reported _ _ r hrep).2] at hfin
      exact absurd hfin (by simp)

/-- Witness of the amended C13: "1 + 2". -/
theorem compile_success_consumes_all_witness :
    (∀ t ∈ ([⟨TOKEN_NUMBER, "1", 1⟩, ⟨TOKEN_PLUS, "+", 1⟩, ⟨TOKEN_NUMBER, "2", 1⟩] : List Token),
      t.type ≠ TOKEN_EOF) ∧
    compile (fun x => x)
      { tokens := [⟨TOKEN_NUMBER, "1", 1⟩, ⟨TOKEN_PLUS, "+", 1⟩, ⟨TOKEN_NUMBER, "2", 1⟩],
        line := 1 } (init_chunk : Chunk String) = .ok true ∧
    ∃ s : State String,
      compile_state (fun x => x)
        { tokens := [⟨TOKEN_NUMBER, "1", 1⟩, ⟨TOKEN_PLUS, "+", 1⟩, ⟨TOKEN_NUMBER, "2", 1⟩],
          line := 1 } init_chunk = .ok s ∧
      s.scanner.tokens = [] ∧ s.parser.previous.type = TOKEN_EOF ∧
      s.parser.current.type = TOKEN_EOF :=
  ⟨by decide, rfl,
    compile_success_consumes_all (fun x => x) _ _ (by decide) rfl⟩

end StreamClaims

/-! ## Growth of the arrays, and the line table -/

section GrowthClaims

variable {V : Type} (strtod : String → V)

theorem write_chunk_capacity (c : Chunk V) (b : Byte) (l : Int) :
    (write_chunk c b l).capacity =
      if c.capacity < c.count + 1 then (if c.capacity < 8 then 8 else c.capacity * 2)
      else c.capacity := by
  unfold write_chunk GROW_CAPACITY
  by_cases h : c.capacity < c.count + 1
  · simp only [h, if_true]
  · simp only [h, if_false]

/-- The capacity is 0 on an unused chunk and otherwise `8 * 2 ^ k`, more than
half of it in use when `k > 0`; `write_chunk` keeps this. -/
theorem write_chunk_capacity_inv (c : Chunk V) (b : Byte) (l : Int)
    (h : c.count ≤ c.capacity ∧ ((c.capacity = 0 ∧ c.count = 0) ∨
      ∃ k, c.capacity = 8 * 2 ^ k ∧ 0 < c.count ∧ (k = 0 ∨ 8 * 2 ^ (k - 1) < c.count))) :
    (write_chunk c b l).count ≤ (write_chunk c b l).capacity ∧
      ∃ k, (write_chunk c b l).capacity = 8 * 2 ^ k ∧ 0 < (write_chunk c b l).count ∧
        (k = 0 ∨ 8 * 2 ^ (k - 1) < (write_chunk c b l).count) := by
  obtain ⟨h1, h2⟩ := h
  rw [write_chunk_capacity, write_chunk_count]
  rcases h2 with ⟨z1, z2⟩ | ⟨k, k1, k2, k3⟩
  · rw [z1, z2]
    exact ⟨by decide, 0, by decide, by decide, Or.inl rfl⟩
  · have hpos : 0 < 2 ^ k := Nat.pow_pos (by decide)
    by_cases hfull : c.capacity < c.count + 1
    · have h8 : ¬ c.capacity < 8 := by omega
      simp only [hfull, if_true, h8, if_false]
      refine ⟨by omega, k + 1, by rw [k1, Nat.pow_succ]; omega, by omega, Or.inr ?_⟩
      simp only [Nat.add_sub_cancel]
      omega
    · simp only [hfull, if_false]
      refine ⟨by omega, k, k1, by omega, ?_⟩
      rcases k3 with k3 | k3
      · exact Or.inl k3
      · exact Or.inr (by omega)

theorem write_all_capacity_inv (writes : List (Byte × Int)) (c : Chunk V)
    (h : c.count ≤ c.capacity ∧ ((c.capacity = 0 ∧ c.count = 0) ∨
      ∃ k, c.capacity = 8 * 2 ^ k ∧ 0 < c.count ∧ (k = 0 ∨ 8 * 2 ^ (k - 1) < c.count))) :
    (write_all c writes).count ≤ (write_all c writes).capacity ∧
      (((write_all c writes).capacity = 0 ∧ (write_all c writes).count = 0) ∨
      ∃ k, (write_all c writes).capacity = 8 * 2 ^ k ∧ 0 < (write_all c writes).count ∧
        (k = 0 ∨ 8 * 2 ^ (k - 1) < (write_all c writes).count)) := by
  induction writes generalizing c with
  | nil => exact h
  | cons w ws ih =>
    obtain ⟨i1, i2⟩ := write_chunk_capacity_inv c w.1 w.2 h
    exact ih (write_chunk c w.1 w.2) ⟨i1, Or.inr i2⟩

/-- C14: the growth policy of `write_chunk`: when `count + 1` exceeds the
capacity, the new capacity is 8 if the old one is below 8 and twice the old one
otherwise, and else the capacity is unchanged; hence after `N` appends to a
freshly initialised chunk the capacity is 0 if `N = 0` and otherwise the
smallest number of the form `8 * 2 ^ k` that is at least `N`, and
`count <= capacity` holds throughout. -/
theorem capacity_growth_policy (c : Chunk V) (b : Byte) (l : Int)
    (writes : List (Byte × Int)) :
    ((write_chunk c b l).capacity =
      if c.capacity < c.count + 1 then (if c.capacity < 8 then 8 else c.capacity * 2)
      else c.capacity) ∧
    (init_chunk : Chunk V).capacity = 0 ∧
    (writes = [] → (write_all (init_chunk : Chunk V) writes).capacity = 0) ∧
    (writes ≠ [] → ∃ k, (write_all (init_chunk : Chunk V) writes).capacity = 8 * 2 ^ k ∧
      writes.length ≤ 8 * 2 ^ k ∧ ∀ j, writes.length ≤ 8 * 2 ^ j → 8 * 2 ^ k ≤ 8 * 2 ^ j) ∧
    (write_all (init_chunk : Chunk V) writes).count ≤
      (write_all (init_chunk : Chunk V) writes).capacity := by
  obtain ⟨i1, i2⟩ := write_all_capacity_inv writes (init_chunk : Chunk V)
    ⟨Nat.le_refl _, Or.inl ⟨rfl, rfl⟩⟩
  have hcount : (write_all (init_chunk : Chunk V) writes).count = writes.length := by
    rw [(write_all_spec (init_chunk : Chunk V) writes init_chunk_WF).2.1]
    simp [init_chunk]
  refine ⟨write_chunk_capacity c b l, rfl, ?_, ?_, i1⟩
  · intro h; subst h; rfl
  · intro hne
    have hlen : 0 < writes.length := List.length_pos.mpr hne
    rcases i2 with ⟨_, z2⟩ | ⟨k, k1, _, k3⟩
    · omega
    · refine ⟨k, k1, by omega, ?_⟩
      intro j hj
      rw [hcount] at k3
      apply Nat.mul_le_mul_left
      apply Nat.pow_le_pow_right (by decide)
      rcases k3 with k3 | k3
      · omega
      · by_contra hjk
        have hle : j ≤ k - 1 := by omega
        have := Nat.pow_le_pow_right (show 0 < 2 by decide) hle
        omega

/-- C20: every byte is recorded with the line of the last token read when it
is written: on a well-formed expression the line table lies byte for byte along
the instruction stream and is `e.lines` followed by the line of end-of-stream
for `RETURN`, where both bytes of a `CONSTANT` carry the line of their `NUMBER`
token, the opcode of a binary operator the line of the last token of its right
operand, and a `NEGATE` the line of the last token of its operand. -/
theorem bytes_carry_previous_line (e : Expr) (line : Int) (hwf : e.wf = true) :
    ∃ s : State V,
      compile_state strtod { tokens := e.tokens, line := line } init_chunk = .ok s ∧
      s.compilingChunk.stream = e.code degraded_operand 0 ++ [OP_RETURN.toByte] ∧
      s.compilingChunk.lineTable = e.lines ++ [line] ∧
      s.compilingChunk.lineTable.length = s.compilingChunk.stream.length ∧
      (∀ x : Lexeme, (Expr.num x).lines = [x.line, x.line]) ∧
      (∀ (m : Lexeme) (a : Expr), (Expr.neg m a).lines = a.lines ++ [a.last.line]) ∧
      (∀ (l r : Lexeme) (a : Expr), (Expr.group l a r).lines = a.lines) ∧
      (∀ (op : BinOp) (o : Lexeme) (a b : Expr),
        (Expr.bin op o a b).lines = a.lines ++ b.lines ++ [b.last.line]) := by
  obtain ⟨s, h1, h2, h3, _, _, _⟩ := compile_sentence strtod e hwf line
  refine ⟨s, h1, h2, h3, ?_, fun _ => rfl, fun _ _ => rfl, fun _ _ _ => rfl,
    fun _ _ _ _ => rfl⟩
  simp only [Chunk.lineTable, Chunk.stream, List.length_take]
  obtain ⟨w1, w2, w3⟩ : s.compilingChunk.WF := by
    have hrun := steps_compile strtod _ _ s h1
    exact (steps_appended hrun (show (compile_init _ (init_chunk : Chunk V)).compilingChunk.WF
      from init_chunk_WF)).1
  rw [w2, w3]

/-- Witness of C20: "1 +" on line 1, "2" on line 2, end-of-stream on line 3: the
`ADD` carries line 2, not the line of `+`. -/
theorem bytes_carry_previous_line_witness :
    (Expr.bin .add ⟨"+", 1⟩ (.num ⟨"1", 1⟩) (.num ⟨"2", 2⟩)).wf = true ∧
    ∃ s : State String,
      compile_state (fun x => x)
        { tokens := [⟨TOKEN_NUMBER, "1", 1⟩, ⟨TOKEN_PLUS, "+", 1⟩, ⟨TOKEN_NUMBER, "2", 2⟩],
          line := 3 } init_chunk = .ok s ∧
      s.compilingChunk.stream = [0, 0, 0, 1, 1, 6] ∧
      s.compilingChunk.lineTable = [1, 1, 2, 2, 2, 3] :=
  ⟨rfl,
    let ⟨s, h1, h2, h3, _⟩ := bytes_carry_previous_line (fun x => x)
      (.bin .add ⟨"+", 1⟩ (.num ⟨"1", 1⟩) (.num ⟨"2", 2⟩)) 3 rfl
    ⟨s, h1, h2, h3⟩⟩

end GrowthClaims

/-! ## Error reports -/

section ErrorClaims

variable {V : Type} (strtod : String → V)

theorem prefix_rule_none (t : TokenType) (h1 : t ≠ TOKEN_LEFT_PAREN) (h2 : t ≠ TOKEN_MINUS)
    (h3 : t ≠ TOKEN_NUMBER) : (get_rule t).prefix_rule = none := by
  cases t <;> first | rfl | exact absurd rfl h1 | exact absurd rfl h2 | exact absurd rfl h3

/-- The final state of `compile` when the first token cannot start an
expression. -/
theorem compile_state_missing (ts : List Token) (line : Int) (chunk : Chunk V)
    (hne : (lookahead { tokens := ts, line := line } ts).type ≠ TOKEN_ERROR)
    (hpre : (get_rule (lookahead { tokens := ts, line := line } ts).type).prefix_rule = none) :
    (advance (compile_init { tokens := ts, line := line } chunk)).parser.current =
        lookahead { tokens := ts, line := line } ts ∧
      (advance (compile_init { tokens := ts, line := line } chunk)).scanner.tokens = ts.tail ∧
      compile_state strtod { tokens := ts, line := line } chunk =
        .ok (end_compiler (consume TOKEN_EOF "Expect end of expression."
          (error "Expect expression."
            (advance (advance (compile_init { tokens := ts, line := line } chunk)))))) := by
  have hok : ∀ t ∈ ts.head?, t.type ≠ TOKEN_ERROR := by
    intro t ht
    cases ts with
    | nil => simp at ht
    | cons a as =>
      simp only [List.head?_cons, Option.mem_def, Option.some.injEq] at ht
      subst ht
      exact hne
  have adv1 : advance (compile_init { tokens := ts, line := line } chunk) =
      ((compile_init { tokens := ts, line := line } chunk).shift ts).setPrevious
        Parser.zero.current :=
    advance_shift _ ts rfl hok
  have hcur : (advance (compile_init { tokens := ts, line := line } chunk)).parser.current =
      lookahead { tokens := ts, line := line } ts := by
    rw [adv1]; rfl
  have hrun : ∃ g, parse_precedence strtod g PREC_ASSIGNMENT
      (advance (compile_init { tokens := ts, line := line } chunk)) = .ok
        (error "Expect expression."
          (advance (advance (compile_init { tokens := ts, line := line } chunk)))) := by
    refine ⟨1, ?_⟩
    rw [parse_precedence]
    simp only [(advance_spec _).2.1, hcur, hpre]
  have hexp := expression_of_run strtod _ _ (compile_fuel ts.length)
    (by have : (advance (compile_init { tokens := ts, line := line } chunk)).pending ≤
            ts.length := (advance_spec _).1
        simp only [compile_fuel]
        omega) hrun
  refine ⟨hcur, by rw [adv1]; rfl, ?_⟩
  unfold compile_state
  simp only [hexp]

/-- C11, as stated, fails: on `+` followed by an error token the diagnostic
reported is the message of the error token, which `advance` reads and reports
before `parse_precedence` looks for the prefix handler of `+`. -/
theorem missing_expression_masked :
    (compile_state (fun x => x)
      { tokens := [⟨TOKEN_PLUS, "+", 1⟩, ⟨TOKEN_ERROR, "Unexpected character.", 1⟩],
        line := 1 }
      (init_chunk : Chunk String)).map (fun s => (!s.parser.had_error, s.stderr)) =
      .ok (false, [{ token := ⟨TOKEN_ERROR, "Unexpected character.", 1⟩,
                     message := "Unexpected character." }]) :=
  rfl

/-- C11, amended: for every token stream whose first token `t` (end-of-stream
for the empty input) is no error token and of a kind other than `(`, `-` and
`NUMBER`, `compile` returns false; and if the token after `t` is no error token,
the one diagnostic reported is "Expect expression." at `t`. -/
theorem missing_expression_rejected (ts : List Token) (line : Int)
    (hne : (lookahead { tokens := ts, line := line } ts).type ≠ TOKEN_ERROR)
    (h1 : (lookahead { tokens := ts, line := line } ts).type ≠ TOKEN_LEFT_PAREN)
    (h2 : (lookahead { tokens := ts, line := line } ts).type ≠ TOKEN_MINUS)
    (h3 : (lookahead { tokens := ts, line := line } ts).type ≠ TOKEN_NUMBER) :
    compile strtod { tokens := ts, line := line } init_chunk = .ok false ∧
      ((∀ u ∈ ts.tail.head?, u.type ≠ TOKEN_ERROR) →
        ∃ s : State V, compile_state strtod { tokens := ts, line := line } init_chunk = .ok s ∧
          s.stderr = [{ token := lookahead { tokens := ts, line := line } ts,
                        message := "Expect expression." }]) := by
  obtain ⟨hcur, htl, hs⟩ := compile_state_missing strtod ts line (init_chunk : Chunk V) hne
    (prefix_rule_none _ h1 h2 h3)
  obtain ⟨a1, _, _⟩ := advance_inv _ (compile_init_inv (V := V) { tokens := ts, line := line })
  obtain ⟨b1, _, _⟩ := advance_inv _ a1
  obtain ⟨e1, e2⟩ := error_at_inv
    (advance (advance (compile_init { tokens := ts, line := line }
      (init_chunk : Chunk V)))).parser.previous "Expect expression." _ b1
  obtain ⟨_, c2, _⟩ := consume_inv TOKEN_EOF "Expect end of expression." _ e1
  constructor
  · rw [compile_of_state strtod _ _ _ hs]
    show Except.ok (!(consume _ _ _).parser.had_error) = _
    cases hq : (consume TOKEN_EOF "Expect end of expression."
      (error "Expect expression." (advance (advance (compile_init { tokens := ts, line := line }
        (init_chunk : Chunk V)))))).parser.had_error with
    | true => rfl
    | false =>
      have := c2 hq
      rw [e2] at this
      exact absurd this (by simp)
  · intro hsnd
    refine ⟨_, hs, ?_⟩
    have adv2 : advance (advance (compile_init { tokens := ts, line := line }
        (init_chunk : Chunk V))) =
        ((advance (compile_init { tokens := ts, line := line }
          (init_chunk : Chunk V))).shift ts.tail).setPrevious
          (lookahead { tokens := ts, line := line } ts) := by
      rw [advance_shift _ ts.tail htl hsnd, hcur]
    obtain ⟨g1, _, _, g4⟩ := error_at_flags (lookahead { tokens := ts, line := line } ts)
      "Expect expression."
      (((advance (compile_init { tokens := ts, line := line }
          (init_chunk : Chunk V))).shift ts.tail).setPrevious
          (lookahead { tokens := ts, line := line } ts))
    have hp : (((advance (compile_init { tokens := ts, line := line }
          (init_chunk : Chunk V))).shift ts.tail).setPrevious
          (lookahead { tokens := ts, line := line } ts)).parser.panic_mode = false := by
      show (advance (compile_init { tokens := ts, line := line }
          (init_chunk : Chunk V))).parser.panic_mode = false
      have hrep := (prim_reported _ _ (compile_init_reported { tokens := ts, line := line }
        (init_chunk : Chunk V)) (Prim.advance _)).1
      have hst := (advance_spec (compile_init { tokens := ts, line := line }
          (init_chunk : Chunk V)))
      cases hq : (advance (compile_init { tokens := ts, line := line }
          (init_chunk : Chunk V))).parser.panic_mode with
      | false => rfl
      | true =>
        exfalso
        have hok : ∀ t ∈ ts.head?, t.type ≠ TOKEN_ERROR := by
          intro t ht
          cases ts with
          | nil => simp at ht
          | cons a as =>
            simp only [List.head?_cons, Option.mem_def, Option.some.injEq] at ht
            subst ht
            exact hne
        rw [advance_shift _ ts rfl hok] at hq
        exact absurd hq (by simp [State.shift, State.setPrevious, compile_init])
    have hst0 : (((advance (compile_init { tokens := ts, line := line }
          (init_chunk : Chunk V))).shift ts.tail).setPrevious
          (lookahead { tokens := ts, line := line } ts)).stderr = [] := by
      show (advance (compile_init { tokens := ts, line := line }
          (init_chunk : Chunk V))).stderr = []
      have hok : ∀ t ∈ ts.head?, t.type ≠ TOKEN_ERROR := by
        intro t ht
        cases ts with
        | nil => simp at ht
        | cons a as =>
          simp only [List.head?_cons, Option.mem_def, Option.some.injEq] at ht
          subst ht
          exact hne
      rw [advance_shift _ ts rfl hok]
      rfl
    obtain ⟨c1, _, _⟩ := consume_panic TOKEN_EOF "Expect end of expression." _ g1
    have key : (consume TOKEN_EOF "Expect end of expression."
        (error_at (lookahead { tokens := ts, line := line } ts) "Expect expression."
          (((advance (compile_init { tokens := ts, line := line }
            (init_chunk : Chunk V))).shift ts.tail).setPrevious
            (lookahead { tokens := ts, line := line } ts)))).stderr =
        [{ token := lookahead { tokens := ts, line := line } ts,
           message := "Expect expression." }] := by
      rw [c1, g4 hp, hst0]
      rfl
    show (consume _ _ (error _ _)).stderr = _
    rw [adv2]
    exact key

/-- Witness of the amended C11: the empty input, whose first token is
end-of-stream. -/
theorem missing_expression_rejected_witness :
    (lookahead { tokens := [], line := 1 } []).type ≠ TOKEN_ERROR ∧
    (lookahead { tokens := [], line := 1 } []).type ≠ TOKEN_LEFT_PAREN ∧
    (lookahead { tokens := [], line := 1 } []).type ≠ TOKEN_MINUS ∧
    (lookahead { tokens := [], line := 1 } []).type ≠ TOKEN_NUMBER ∧
    compile (fun x => x) { tokens := [], line := 1 } (init_chunk : Chunk String) = .ok false ∧
    ((∀ u ∈ ([] : List Token).tail.head?, u.type ≠ TOKEN_ERROR) →
      ∃ s : State String,
        compile_state (fun x => x) { tokens := [], line := 1 } init_chunk = .ok s ∧
        s.stderr = [{ token := ⟨TOKEN_EOF, "", 1⟩, message := "Expect expression." }]) :=
  ⟨by decide, by decide, by decide, by decide,
    missing_expression_rejected (fun x => x) [] 1 (by decide) (by decide) (by decide)
      (by decide)⟩

/-- The loop of `advance` passes over a run of error tokens and stops at the
token after it. -/
theorem advance_loop_errors (errs rest : List Token) :
    ∀ (n : Nat) (s : State V), s.scanner.tokens = errs ++ rest →
      (∀ t ∈ errs, t.type = TOKEN_ERROR) → (∀ t ∈ rest.head?, t.type ≠ TOKEN_ERROR) →
      errs.length < n →
      (advance_loop n s).parser.current = lookahead s.scanner rest ∧
        (advance_loop n s).scanner.tokens = rest.tail ∧
        (advance_loop n s).parser.previous = s.parser.previous := by
  induction errs with
  | nil =>
    intro n s htok _ hrest hn
    obtain ⟨⟨ts, ln⟩, pa, ch, er⟩ := s
    simp only [List.nil_append] at htok
    subst htok
    cases n with
    | zero => omega
    | succ n =>
      rw [advance_loop]
      cases ts with
      | nil => simp [scan_token, lookahead, Scanner.eof]
      | cons t ts =>
        have ht : t.type ≠ TOKEN_ERROR := hrest t (by simp)
        simp [scan_token, lookahead, ht]
  | cons e es ih =>
    intro n s htok herr hrest hn
    obtain ⟨⟨ts, ln⟩, pa, ch, er⟩ := s
    simp only [List.cons_append] at htok
    subst htok
    cases n with
    | zero => omega
    | succ n =>
      have he : e.type = TOKEN_ERROR := herr e (by simp)
      rw [advance_loop]
      simp only [scan_token, he, ne_eq, not_true_eq_false, if_false]
      obtain ⟨q1, q2, q3, _⟩ := error_at_current_eq
        (State.mk (Scanner.mk (es ++ rest) ln)
          (Parser.mk e pa.previous pa.had_error pa.panic_mode) ch er) e e.start
      obtain ⟨i1, i2, i3⟩ := ih n (error_at_current e.start
        (State.mk (Scanner.mk (es ++ rest) ln)
          (Parser.mk e pa.previous pa.had_error pa.panic_mode) ch er))
        (by rw [error_at_current, q3])
        (fun t ht => herr t (by simp [ht])) hrest
        (by simp only [List.length_cons] at hn; omega)
      rw [error_at_current, q3] at i1
      rw [error_at_current, q2] at i3
      exact ⟨i1, i2, i3⟩

/-- C12, as stated, fails: of two consecutive error tokens `advance` reports
only the first (one diagnostic, not two). -/
theorem second_lexical_error_suppressed :
    (advance (compile_init
      { tokens := [⟨TOKEN_ERROR, "a", 1⟩, ⟨TOKEN_ERROR, "b", 1⟩, ⟨TOKEN_NUMBER, "1", 1⟩],
        line := 1 }
      (init_chunk : Chunk String))).stderr =
      [{ token := ⟨TOKEN_ERROR, "a", 1⟩, message := "a" }] :=
  rfl

/-- C12, amended: when the scanner delivers a run of `k ≥ 1` consecutive
error-kind tokens, `advance` passes over all of them and continues with the
first following non-error token, but it reports only the message of the first
token of the run, and that only if panic mode is not set yet; the later `k - 1`
tokens, and all `k` in panic mode, are not reported. -/
theorem lexical_error_run_reported_once (s : State V) (first : Token)
    (errs rest : List Token)
    (htok : s.scanner.tokens = first :: (errs ++ rest))
    (hfirst : first.type = TOKEN_ERROR) (herrs : ∀ t ∈ errs, t.type = TOKEN_ERROR)
    (hrest : ∀ t ∈ rest.head?, t.type ≠ TOKEN_ERROR) :
    (advance s).parser.current = lookahead s.scanner rest ∧
      (advance s).scanner.tokens = rest.tail ∧
      (advance s).parser.previous = s.parser.current ∧
      (s.parser.panic_mode = false →
        (advance s).stderr = s.stderr ++ [{ token := first, message := first.start }]) ∧
      (s.parser.panic_mode = true → (advance s).stderr = s.stderr) := by
  obtain ⟨⟨ts, ln⟩, pa, ch, er⟩ := s
  simp only at htok
  subst htok
  obtain ⟨a1, a2, a3⟩ := advance_loop_errors (first :: errs) rest
    ((first :: (errs ++ rest)).length + 1)
    (State.mk (Scanner.mk (first :: (errs ++ rest)) ln)
      (Parser.mk pa.current pa.current pa.had_error pa.panic_mode) ch er) rfl
    (by intro t ht
        simp only [List.mem_cons] at ht
        rcases ht with ht | ht
        · rw [ht]; exact hfirst
        · exact herrs t ht)
    hrest (by simp only [List.length_cons, List.length_append]; omega)
  refine ⟨a1, a2, a3, ?_, ?_⟩
  · intro hp
    simp only at hp
    show (advance_loop _ _).stderr = _
    rw [advance_loop]
    simp only [scan_token, hfirst, ne_eq, not_true_eq_false, if_false]
    obtain ⟨g1, _, _, g4⟩ := error_at_flags first first.start
      (State.mk (Scanner.mk (errs ++ rest) ln)
        (Parser.mk first pa.current pa.had_error pa.panic_mode) ch er)
    exact ((advance_loop_panic _ _ g1).1).trans (g4 hp)
  · intro hp
    exact (advance_panic _ hp).1

/-- Witness of the amended C12: two error tokens before a number. -/
theorem lexical_error_run_reported_once_witness :
    (compile_init
      { tokens := [⟨TOKEN_ERROR, "a", 1⟩, ⟨TOKEN_ERROR, "b", 1⟩, ⟨TOKEN_NUMBER, "1", 1⟩],
        line := 1 } (init_chunk : Chunk String)).scanner.tokens =
      ⟨TOKEN_ERROR, "a", 1⟩ :: ([⟨TOKEN_ERROR, "b", 1⟩] ++ [⟨TOKEN_NUMBER, "1", 1⟩]) ∧
    (⟨TOKEN_ERROR, "a", 1⟩ : Token).type = TOKEN_ERROR ∧
    (∀ t ∈ ([⟨TOKEN_ERROR, "b", 1⟩] : List Token), t.type = TOKEN_ERROR) ∧
    (∀ t ∈ ([⟨TOKEN_NUMBER, "1", 1⟩] : List Token).head?, t.type ≠ TOKEN_ERROR) ∧
    (advance (compile_init
      { tokens := [⟨TOKEN_ERROR, "a", 1⟩, ⟨TOKEN_ERROR, "b", 1⟩, ⟨TOKEN_NUMBER, "1", 1⟩],
        line := 1 } (init_chunk : Chunk String))).parser.current = ⟨TOKEN_NUMBER, "1", 1⟩ ∧
    (advance (compile_init
      { tokens := [⟨TOKEN_ERROR, "a", 1⟩, ⟨TOKEN_ERROR, "b", 1⟩, ⟨TOKEN_NUMBER, "1", 1⟩],
        line := 1 } (init_chunk : Chunk String))).stderr =
      [{ token := ⟨TOKEN_ERROR, "a", 1⟩, message := "a" }] :=
  ⟨rfl, rfl, by decide, by decide,
    (lexical_error_run_reported_once
      (compile_init
        { tokens := [⟨TOKEN_ERROR, "a", 1⟩, ⟨TOKEN_ERROR, "b", 1⟩, ⟨TOKEN_NUMBER, "1", 1⟩],
          line := 1 } (init_chunk : Chunk String))
      ⟨TOKEN_ERROR, "a", 1⟩ [⟨TOKEN_ERROR, "b", 1⟩] [⟨TOKEN_NUMBER, "1", 1⟩] rfl rfl
      (by decide) (by decide)).1,
    (lexical_error_run_reported_once
      (compile_init
        { tokens := [⟨TOKEN_ERROR, "a", 1⟩, ⟨TOKEN_ERROR, "b", 1⟩, ⟨TOKEN_NUMBER, "1", 1⟩],
          line := 1 } (init_chunk : Chunk String))
      ⟨TOKEN_ERROR, "a", 1⟩ [⟨TOKEN_ERROR, "b", 1⟩] [⟨TOKEN_NUMBER, "1", 1⟩] rfl rfl
      (by decide) (by decide)).2.2.2.1 rfl⟩

end ErrorClaims

/-! ## What `compile` accepts -/

section Recognise

variable {V : Type} (strtod : String → V)

theorem token_eta (t : Token) (k : TokenType) (h : t.type = k) :
    t = (Lexeme.mk t.start t.line).token k := by
  obtain ⟨ty, st, ln⟩ := t
  simp only at h
  subst h
  rfl

theorem operator_token (t : Token) (h : is_operator t.type) :
    ∃ op : BinOp, t.type = op.type ∧ (get_rule t.type).precedence = op.level := by
  rcases h with h | h | h | h
  · exact ⟨.add, h, by rw [h]; rfl⟩
  · exact ⟨.sub, h, by rw [h]; rfl⟩
  · exact ⟨.mul, h, by rw [h]; rfl⟩
  · exact ⟨.div, h, by rw [h]; rfl⟩

theorem prefix_rule_kind (t : TokenType) (fn : ParseFn)
    (h : (get_rule t).prefix_rule = some fn) :
    (fn = .grouping ∧ t = TOKEN_LEFT_PAREN) ∨ (fn = .unary ∧ t = TOKEN_MINUS) ∨
      (fn = .number ∧ t = TOKEN_NUMBER) := by
  cases t <;> simp [get_rule] at h <;> subst h <;> simp

theorem advance_clean_head (s : State V) (hinv : s.Inv)
    (hc : (advance s).parser.had_error = false) :
    ∀ t ∈ s.scanner.tokens.head?, t.type ≠ TOKEN_ERROR := by
  intro t ht hte
  obtain ⟨⟨ts, ln⟩, pa, ch, er⟩ := s
  cases ts with
  | nil => simp at ht
  | cons a as =>
    simp only [List.head?_cons, Option.mem_def, Option.some.injEq] at ht
    subst ht
    unfold advance at hc
    rw [advance_loop] at hc
    simp only [scan_token, hte, ne_eq, not_true_eq_false, if_false] at hc
    obtain ⟨e1, e2⟩ := error_at_inv a a.start
      (State.mk (Scanner.mk as ln) (Parser.mk a pa.current pa.had_error pa.panic_mode) ch er)
      hinv
    have := (advance_loop_inv _ _ e1).2.1 hc
    rw [e2] at this
    exact absurd this (by simp)

theorem advance_remaining (s : State V) (hinv : s.Inv) (hlast : s.EofLast)
    (hc : (advance s).parser.had_error = false) (hne : s.parser.current.type ≠ TOKEN_EOF) :
    s.remaining = s.parser.current :: (advance s).remaining := by
  have hok := advance_clean_head s hinv hc
  rw [advance_shift s _ rfl hok]
  obtain ⟨⟨ts, ln⟩, pa, ch, er⟩ := s
  simp only [State.remaining] at hne ⊢
  simp only [hne, if_false]
  cases ts with
  | nil => simp [State.shift, State.setPrevious, lookahead, Scanner.eof]
  | cons a as =>
    have ha : a.type ≠ TOKEN_EOF := hlast.1 a (by simp)
    simp [State.shift, State.setPrevious, lookahead, ha]

theorem consume_clean (k : TokenType) (m : String) (s : State V) (hinv : s.Inv)
    (hc : (consume k m s).parser.had_error = false) :
    s.parser.current.type = k ∧ consume k m s = advance s := by
  unfold consume at hc ⊢
  by_cases h : s.parser.current.type = k
  · simp only [h, if_true]
    trivial
  · simp only [h, if_false] at hc
    rw [error_at_current, (error_at_inv _ _ s hinv).2] at hc
    exact absurd hc (by simp)

theorem number_remaining (s : State V) : (number strtod s).remaining = s.remaining := by
  obtain ⟨h1, _, h3⟩ := number_frame strtod s
  simp only [State.remaining, h1, h3]

theorem tokens_not_error (e : Expr) : ∀ t ∈ e.tokens, t.type ≠ TOKEN_ERROR := by
  induction e with
  | num x => simp [Expr.tokens, Lexeme.token]
  | neg m e ih =>
    intro t ht
    simp only [Expr.tokens, List.mem_cons] at ht
    rcases ht with ht | ht
    · rw [ht]; simp [Lexeme.token]
    · exact ih t ht
  | group l e r ih =>
    intro t ht
    simp only [Expr.tokens, List.mem_cons, List.mem_append, List.mem_singleton,
      List.mem_nil_iff, or_false] at ht
    rcases ht with ht | ht | ht
    · rw [ht]; simp [Lexeme.token]
    · exact ih t ht
    · rw [ht]; simp [Lexeme.token]
  | bin op o l r ihl ihr =>
    intro t ht
    simp only [Expr.tokens, List.mem_cons, List.mem_append] at ht
    rcases ht with ht | ht | ht
    · exact ihl t ht
    · rw [ht]; cases op <;> simp [Lexeme.token, BinOp.type]
    · exact ihr t ht

/-- A run that ends with the error flag clear has read the tokens of a
well-formed tree: `parse_precedence` at level `p` one of level at least `p`,
its loop the operators and right operands that extend a left operand `el`, a
prefix handler a `unary` that starts with the token just read, and `binary`
the right operand of the operator just read. -/
theorem recognise_step (f : Nat) :
    (∀ s r : State V, binary strtod f s = .ok r → s.Inv → s.EofLast →
      is_operator s.parser.previous.type → r.parser.had_error = false →
      ∃ e : Expr, e.wf = true ∧
        (get_rule s.parser.previous.type).precedence + 1 ≤ e.level ∧
        s.remaining = e.tokens ++ r.remaining ∧
        ¬ (get_rule s.parser.previous.type).precedence + 1 ≤
          (get_rule r.parser.current.type).precedence) ∧
    (∀ s r : State V, grouping strtod f s = .ok r → s.Inv → s.EofLast →
      s.parser.previous.type = TOKEN_LEFT_PAREN → r.parser.had_error = false →
      ∃ e : Expr, e.wf = true ∧ e.level = PREC_UNARY ∧
        s.parser.previous :: s.remaining = e.tokens ++ r.remaining) ∧
    (∀ s r : State V, unary strtod f s = .ok r → s.Inv → s.EofLast →
      s.parser.previous.type = TOKEN_MINUS → r.parser.had_error = false →
      ∃ e : Expr, e.wf = true ∧ e.level = PREC_UNARY ∧
        s.parser.previous :: s.remaining = e.tokens ++ r.remaining) ∧
    (∀ fn (s r : State V), call_fn strtod f fn s = .ok r → s.Inv → s.EofLast →
      r.parser.had_error = false →
      ((get_rule s.parser.previous.type).prefix_rule = some fn →
        ∃ e : Expr, e.wf = true ∧ e.level = PREC_UNARY ∧
          s.parser.previous :: s.remaining = e.tokens ++ r.remaining) ∧
      (fn = .binary → is_operator s.parser.previous.type →
        ∃ e : Expr, e.wf = true ∧
          (get_rule s.parser.previous.type).precedence + 1 ≤ e.level ∧
          s.remaining = e.tokens ++ r.remaining ∧
          ¬ (get_rule s.parser.previous.type).precedence + 1 ≤
            (get_rule r.parser.current.type).precedence)) ∧
    (∀ p (s r : State V), parse_precedence strtod f p s = .ok r → 1 ≤ p → p ≤ PREC_UNARY →
      s.Inv → s.EofLast → r.parser.had_error = false →
      ∃ e : Expr, e.wf = true ∧ p ≤ e.level ∧ s.remaining = e.tokens ++ r.remaining ∧
        ¬ p ≤ (get_rule r.parser.current.type).precedence) ∧
    (∀ p (s r : State V), parse_loop strtod f p s = .ok r → 1 ≤ p → s.Inv → s.EofLast →
      r.parser.had_error = false →
      ∀ el : Expr, el.wf = true → p ≤ el.level →
        (get_rule s.parser.current.type).precedence ≤ el.level →
        ∃ e : Expr, e.wf = true ∧ p ≤ e.level ∧
          el.tokens ++ s.remaining = e.tokens ++ r.remaining ∧
          ¬ p ≤ (get_rule r.parser.current.type).precedence) ∧
    (∀ s r : State V, expression strtod f s = .ok r → s.Inv → s.EofLast →
      r.parser.had_error = false →
      ∃ e : Expr, e.wf = true ∧ s.remaining = e.tokens ++ r.remaining ∧
        ¬ 1 ≤ (get_rule r.parser.current.type).precedence) := by
  induction f with
  | zero =>
    refine ⟨?_, ?_, ?_, ?_, ?_, ?_, ?_⟩ <;> intros <;> simp_all [binary, grouping, unary,
      call_fn, parse_precedence, parse_loop, expression]
  | succ f ih =>
    obtain ⟨hb, hg, hu, hc, hp, hl, he⟩ := ih
    obtain ⟨_, _, _, sc, _, sl, se⟩ := sound_step strtod f
    obtain ⟨_, _, _, tc, _, _, te⟩ := steps_all strtod f
    refine ⟨?_, ?_, ?_, ?_, ?_, ?_, ?_⟩
    · -- binary
      intro s r h hinv hlast hop hclean
      rw [binary] at h
      cases hq : parse_precedence strtod f ((get_rule s.parser.previous.type).precedence + 1) s with
      | error e => simp [hq] at h
      | ok s2 =>
        simp only [hq] at h
        have hcl2 : s2.parser.had_error = false := by
          rcases hop with ho | ho | ho | ho <;> simp only [ho, Except.ok.injEq] at h <;>
            subst h <;> exact hclean
        have hrem : r.remaining = s2.remaining ∧ r.parser.current = s2.parser.current := by
          rcases hop with ho | ho | ho | ho <;> simp only [ho, Except.ok.injEq] at h <;>
            subst h <;> exact ⟨rfl, rfl⟩
        obtain ⟨e, e1, e2, e3, e4⟩ := hp _ _ _ hq (Nat.le_add_left _ _)
          (Nat.succ_le_succ (get_rule_precedence_le _)) hinv hlast hcl2
        exact ⟨e, e1, e2, by rw [hrem.1]; exact e3, by rw [hrem.2]; exact e4⟩
    · -- grouping
      intro s r h hinv hlast hprev hclean
      rw [grouping] at h
      cases hq : expression strtod f s with
      | error e => simp [hq] at h
      | ok s2 =>
        simp only [hq, Except.ok.injEq] at h
        subst h
        have hinv2 := (se _ _ hq hinv).1
        have hlast2 := steps_eofLast (te _ _ hq) hlast
        obtain ⟨c1, c2⟩ := consume_clean TOKEN_RIGHT_PAREN "Expect ')' after expression." s2
          hinv2 hclean
        rw [c2] at hclean ⊢
        have hcl2 := (advance_inv s2 hinv2).2.1 hclean
        obtain ⟨e1, w1, t1, _⟩ := he _ _ hq hinv hlast hcl2
        have hrem := advance_remaining s2 hinv2 hlast2 hclean (by rw [c1]; decide)
        refine ⟨.group ⟨s.parser.previous.start, s.parser.previous.line⟩ e1
          ⟨s2.parser.current.start, s2.parser.current.line⟩, w1, rfl, ?_⟩
        simp only [Expr.tokens]
        rw [← token_eta s.parser.previous _ hprev, ← token_eta s2.parser.current _ c1, t1, hrem]
        simp
    · -- unary
      intro s r h hinv hlast hprev hclean
      rw [unary] at h
      cases hq : parse_precedence strtod f PREC_UNARY s with
      | error e => simp [hq] at h
      | ok s2 =>
        simp only [hq, hprev, Except.ok.injEq] at h
        subst h
        obtain ⟨e1, w1, l1, t1, _⟩ := hp _ _ _ hq (by decide) (Nat.le_refl _) hinv hlast hclean
        refine ⟨.neg ⟨s.parser.previous.start, s.parser.previous.line⟩ e1, ?_, rfl, ?_⟩
        · simp only [Expr.wf, w1, Bool.true_and, decide_eq_true_eq]
          exact l1
        · simp only [Expr.tokens]
          rw [← token_eta s.parser.previous _ hprev, t1]
          rfl
    · -- call_fn
      intro fn s r h hinv hlast hclean
      cases fn with
      | grouping =>
        rw [call_fn] at h
        refine ⟨fun hr => ?_, fun hx => absurd hx (by simp)⟩
        rcases prefix_rule_kind _ _ hr with ⟨_, k⟩ | ⟨k, _⟩ | ⟨k, _⟩
        · exact hg _ _ h hinv hlast k hclean
        · exact absurd k (by simp)
        · exact absurd k (by simp)
      | number =>
        rw [call_fn] at h
        simp only [Except.ok.injEq] at h
        subst h
        refine ⟨fun hr => ?_, fun hx => absurd hx (by simp)⟩
        rcases prefix_rule_kind _ _ hr with ⟨k, _⟩ | ⟨k, _⟩ | ⟨_, k⟩
        · exact absurd k (by simp)
        · exact absurd k (by simp)
        · refine ⟨.num ⟨s.parser.previous.start, s.parser.previous.line⟩, rfl, rfl, ?_⟩
          simp only [Expr.tokens]
          rw [← token_eta s.parser.previous _ k, number_remaining]
          rfl
      | unary =>
        rw [call_fn] at h
        refine ⟨fun hr => ?_, fun hx => absurd hx (by simp)⟩
        rcases prefix_rule_kind _ _ hr with ⟨k, _⟩ | ⟨_, k⟩ | ⟨k, _⟩
        · exact absurd k (by simp)
        · exact hu _ _ h hinv hlast k hclean
        · exact absurd k (by simp)
      | binary =>
        rw [call_fn] at h
        exact ⟨fun hr => absurd rfl (prefix_rule_ne_binary _ _ hr),
          fun _ hop => hb _ _ h hinv hlast hop hclean⟩
    · -- parse_precedence
      intro p s r h h1p hp8 hinv hlast hclean
      rw [parse_precedence] at h
      obtain ⟨a1, a2, _⟩ := advance_inv s hinv
      have hprev := (advance_spec s).2.1
      cases hr : (get_rule (advance s).parser.previous.type).prefix_rule with
      | none =>
        simp only [hr, Except.ok.injEq] at h
        subst h
        simp only [error] at hclean
        rw [(error_at_inv _ _ _ a1).2] at hclean
        exact absurd hclean (by simp)
      | some fn =>
        simp only [hr] at h
        cases hq : call_fn strtod f fn (advance s) with
        | error e => simp [hq] at h
        | ok s2 =>
          simp only [hq] at h
          have hnb := prefix_rule_ne_binary _ _ hr
          obtain ⟨i1, i2⟩ := sc _ _ _ hq a1 (fun hx => absurd hx hnb)
          have hcl2 := ((sl _ _ _ h h1p i1).2 hclean).1
          have hcl1 := (i2 hcl2).1
          have hlast1 := prim_eofLast _ _ hlast (Prim.advance s)
          have hlast2 := steps_eofLast (tc _ _ _ hq) hlast1
          have hne : s.parser.current.type ≠ TOKEN_EOF :=
            prefix_rule_not_eof _ _ (by rw [← hprev]; exact hr)
          have hrem := advance_remaining s hinv hlast hcl1 hne
          obtain ⟨e1, w1, l1, t1⟩ := (hc _ _ _ hq a1 hlast1 hcl2).1 hr
          obtain ⟨e, w, l, t, x⟩ := hl _ _ _ h h1p i1 hlast2 hclean e1 w1
            (by rw [l1]; exact hp8)
            (by rw [l1]; exact le_trans (get_rule_precedence_le _) (by decide))
          refine ⟨e, w, l, ?_, x⟩
          rw [hrem, ← hprev, t1]
          exact t
    · -- parse_loop
      intro p s r h h1p hinv hlast hclean el wel lel hfollow
      rw [parse_loop] at h
      by_cases hcond : p ≤ (get_rule s.parser.current.type).precedence
      · obtain ⟨hne, hin⟩ := precedence_pos_operator _ (le_trans h1p hcond)
        have hop := precedence_pos_is_operator _ (le_trans h1p hcond)
        have hprev := (advance_spec s).2.1
        simp only [hcond, if_true, hprev, hin] at h
        obtain ⟨a1, a2, _⟩ := advance_inv s hinv
        cases hq : call_fn strtod f .binary (advance s) with
        | error e => simp [hq] at h
        | ok s2 =>
          simp only [hq] at h
          obtain ⟨i1, i2⟩ := sc _ _ _ hq a1 (fun _ => by rw [hprev]; exact hop)
          have hcl2 := ((sl _ _ _ h h1p i1).2 hclean).1
          have hcl1 := (i2 hcl2).1
          have hlast1 := prim_eofLast _ _ hlast (Prim.advance s)
          have hlast2 := steps_eofLast (tc _ _ _ hq) hlast1
          have hrem := advance_remaining s hinv hlast hcl1 hne
          obtain ⟨er, wr, lr, tr, xr⟩ := (hc _ _ _ hq a1 hlast1 hcl2).2 rfl
            (by rw [hprev]; exact hop)
          rw [hprev] at lr xr
          obtain ⟨op, o1, o2⟩ := operator_token s.parser.current hop
          rw [o2] at lr xr hfollow hcond
          obtain ⟨e, w, l, t, x⟩ := hl _ _ _ h h1p i1 hlast2 hclean
            (.bin op ⟨s.parser.current.start, s.parser.current.line⟩ el er)
            (by simp only [Expr.wf, wel, wr, Bool.true_and, Bool.and_eq_true,
                  decide_eq_true_eq]
                exact ⟨hfollow, lr⟩)
            hcond (Nat.le_of_lt_succ (Nat.not_le.mp xr))
          refine ⟨e, w, l, ?_, x⟩
          rw [← t, hrem, tr]
          simp only [Expr.tokens]
          rw [← token_eta s.parser.current _ o1]
          simp
      · simp only [hcond, if_false, Except.ok.injEq] at h
        subst h
        exact ⟨el, wel, lel, rfl, hcond⟩
    · -- expression
      intro s r h hinv hlast hclean
      rw [expression] at h
      obtain ⟨e, w, _, t, x⟩ := hp _ _ _ h (by decide) (by decide) hinv hlast hclean
      exact ⟨e, w, t, x⟩

/-- C17: `compile` accepts nothing outside the grammar: if `compile` into an
empty chunk returns true on a token stream (end-of-stream being delivered only
at the end), then the stream holds no error token and at most 256 `NUMBER`
tokens, and it is exactly one sentence of the grammar, the token list of a
well-formed parse tree, followed immediately by end-of-stream. -/
theorem compile_accepts_only_sentences (ts : List Token) (line : Int)
    (heof : ∀ t ∈ ts, t.type ≠ TOKEN_EOF)
    (h : compile strtod { tokens := ts, line := line } init_chunk = .ok true) :
    (∀ t ∈ ts, t.type ≠ TOKEN_ERROR) ∧
      (ts.filter (fun t => decide (t.type = TOKEN_NUMBER))).length ≤ 256 ∧
      ∃ e : Expr, e.wf = true ∧ ts = e.tokens := by
  obtain ⟨s, hs⟩ := compile_state_total strtod { tokens := ts, line := line }
    (init_chunk : Chunk V)
  rw [compile_of_state strtod _ _ s hs] at h
  simp only [Except.ok.injEq, Bool.not_eq_true'] at h
  have hs0 := hs
  unfold compile_state at hs
  cases hq : expression strtod (compile_fuel ts.length)
      (advance (compile_init { tokens := ts, line := line } (init_chunk : Chunk V))) with
  | error e => simp [hq] at hs
  | ok r =>
    simp only [hq, Except.ok.injEq] at hs
    have hinv0 := compile_init_inv (V := V) { tokens := ts, line := line }
    obtain ⟨a1, a2, _⟩ := advance_inv _ hinv0
    obtain ⟨i1, i2⟩ := (sound_step strtod _).2.2.2.2.2.2 _ _ hq a1
    have hfin : (consume TOKEN_EOF "Expect end of expression." r).parser.had_error = false := by
      rw [← hs] at h; exact h
    obtain ⟨c1, c2⟩ := consume_clean TOKEN_EOF "Expect end of expression." r i1 hfin
    rw [c2] at hfin
    have hclr := (advance_inv r i1).2.1 hfin
    have hcl1 := (i2 hclr).1
    have hlast0 : (compile_init { tokens := ts, line := line } (init_chunk : Chunk V)).EofLast :=
      ⟨heof, fun hc => absurd hc (by simp [compile_init, Parser.zero])⟩
    have hlast1 := prim_eofLast _ _ hlast0 (Prim.advance _)
    obtain ⟨e, w, t, _⟩ := (recognise_step strtod _).2.2.2.2.2.2 _ _ hq a1 hlast1 hclr
    have hrem_r : r.remaining = [] := by simp [State.remaining, c1]
    have hok := advance_clean_head _ hinv0 hcl1
    have hrem1 : (advance (compile_init { tokens := ts, line := line }
        (init_chunk : Chunk V))).remaining = ts := by
      rw [advance_shift _ ts rfl hok]
      cases ts with
      | nil => simp [State.remaining, State.shift, State.setPrevious, lookahead, Scanner.eof]
      | cons a as =>
        have ha : a.type ≠ TOKEN_EOF := heof a (by simp)
        simp [State.remaining, State.shift, State.setPrevious, lookahead, ha]
    rw [hrem1, hrem_r, List.append_nil] at t
    refine ⟨?_, ?_, e, w, t⟩
    · rw [t]; exact tokens_not_error e
    · obtain ⟨s2, k1, _, _, _, k5, _⟩ := compile_sentence strtod e w line
      rw [← t, hs0] at k1
      cases k1
      rw [t, ← literals_eq_filter]
      by_contra hgt
      rw [k5.mpr (Nat.not_le.mp hgt)] at h
      exact absurd h (by simp)

/-- Witness of C17: "1 + 2". -/
theorem compile_accepts_only_sentences_witness :
    (∀ t ∈ ([⟨TOKEN_NUMBER, "1", 1⟩, ⟨TOKEN_PLUS, "+", 1⟩, ⟨TOKEN_NUMBER, "2", 1⟩] : List Token),
      t.type ≠ TOKEN_EOF) ∧
    compile (fun x => x)
      { tokens := [⟨TOKEN_NUMBER, "1", 1⟩, ⟨TOKEN_PLUS, "+", 1⟩, ⟨TOKEN_NUMBER, "2", 1⟩],
        line := 1 } (init_chunk : Chunk String) = .ok true ∧
    (∀ t ∈ ([⟨TOKEN_NUMBER, "1", 1⟩, ⟨TOKEN_PLUS, "+", 1⟩, ⟨TOKEN_NUMBER, "2", 1⟩] : List Token),
      t.type ≠ TOKEN_ERROR) ∧
    (([⟨TOKEN_NUMBER, "1", 1⟩, ⟨TOKEN_PLUS, "+", 1⟩, ⟨TOKEN_NUMBER, "2", 1⟩] : List Token).filter
      (fun t => decide (t.type = TOKEN_NUMBER))).length ≤ 256 ∧
    ∃ e : Expr, e.wf = true ∧
      ([⟨TOKEN_NUMBER, "1", 1⟩, ⟨TOKEN_PLUS, "+", 1⟩, ⟨TOKEN_NUMBER, "2", 1⟩] : List Token) =
        e.tokens :=
  ⟨by decide, rfl,
    compile_accepts_only_sentences (fun x => x)
      [⟨TOKEN_NUMBER, "1", 1⟩, ⟨TOKEN_PLUS, "+", 1⟩, ⟨TOKEN_NUMBER, "2", 1⟩] 1 (by decide) rfl⟩

end Recognise

end Clox
